import Mathlib

/-!
# ECAS node tracker: the poll script and the sample generator

A shallow embedding of `scripts/poll.js`: the footer parser (`parseFooter`), built on a
small backtracking regular-expression matcher that follows the ECMAScript matching
order, the history store (`readHistory`, `writeHistory`) over JSON values, the
orchestrator (`main`), which takes the clock reading, the outcome of the fetch and the
state of the history file as arguments, the node lookup on arbitrary strings
(`resolveNodeValue`) and the fetcher (`fetchPage`), run against the events which its
requests end in. The generator `scripts/seed.js` is embedded as `seedRecords`, with the
random draws and the clock as arguments.

JavaScript strings are modelled as lists of characters. The definitions come first, then
the lemmas on the matcher and the store, then the theorems on the orchestrator, on the
footer parser, on the node lookup, on the fetcher and on the generator.
-/

namespace EcasTracker

/-- A JavaScript string. -/
abbrev JSString := List Char

/-! ## Character classes -/

/-- The class `\d`. -/
def isDigit (c : Char) : Bool := decide (48 ≤ c.toNat) && decide (c.toNat ≤ 57)

/-- The class `\w`: `[A-Za-z0-9_]`. -/
def isWordChar (c : Char) : Bool :=
  (decide (48 ≤ c.toNat) && decide (c.toNat ≤ 57)) ||
  (decide (65 ≤ c.toNat) && decide (c.toNat ≤ 90)) ||
  (decide (97 ≤ c.toNat) && decide (c.toNat ≤ 122)) ||
  decide (c.toNat = 95)

/-- The class `\s`: the ECMAScript white space and line terminator code points. -/
def isSpace (c : Char) : Bool :=
  (decide (9 ≤ c.toNat) && decide (c.toNat ≤ 13)) ||
  decide (c.toNat = 32) || decide (c.toNat = 160) || decide (c.toNat = 5760) ||
  (decide (8192 ≤ c.toNat) && decide (c.toNat ≤ 8202)) ||
  decide (c.toNat = 8232) || decide (c.toNat = 8233) || decide (c.toNat = 8239) ||
  decide (c.toNat = 8287) || decide (c.toNat = 12288) || decide (c.toNat = 65279)

/-- The class `[-–]`: hyphen-minus or en dash (U+2013). -/
def isDash (c : Char) : Bool := decide (c.toNat = 45) || decide (c.toNat = 8211)

/-- The class `[^>]`. -/
def isNotGt (c : Char) : Bool := !decide (c.toNat = 62)

/-- Lower-casing of one character, on the ASCII letters. -/
def toLowerChar (c : Char) : Char :=
  if 65 ≤ c.toNat ∧ c.toNat ≤ 90 then Char.ofNat (c.toNat + 32) else c

/-- Upper-casing of one character, on the ASCII letters. -/
def toUpperChar (c : Char) : Char :=
  if 97 ≤ c.toNat ∧ c.toNat ≤ 122 then Char.ofNat (c.toNat - 32) else c

/-- The method `String.prototype.toLowerCase`, on the ASCII letters (it is applied
in `parseFooter` to an `i` or `I` followed by digits). -/
def toLowerCase (s : JSString) : JSString := s.map toLowerChar

/-- The method `String.prototype.toUpperCase`, on the ASCII letters (it is applied in the
main function to the node id which `parseFooter` returns, an `i` followed by three
digits). -/
def toUpperCase (s : JSString) : JSString := s.map toUpperChar

/-! ## Regular expressions -/

/-- The regular expressions used by the script. Quantifiers are greedy; `star` and `plus`
repeat a character class. -/
inductive Re where
  | cls (p : Char → Bool)
  | seq (a b : Re)
  | alt (a b : Re)
  | opt (a : Re)
  | star (p : Char → Bool)
  | plus (p : Char → Bool)
  | group (i : Nat) (a : Re)
  | wordBoundary

/-- A position of the matcher in the subject string: the text to the left of the position
(nearest character first), the text to the right, and the capture groups set so far
(latest first). -/
structure MState where
  left : List Char
  rest : List Char
  caps : List (Nat × JSString)
deriving DecidableEq

/-- All ways a greedy repetition of the class `p` can end, longest first. -/
def starFrom (p : Char → Bool) : List Char → List Char → List (List Char × List Char)
  | left, [] => [(left, [])]
  | left, c :: t =>
    if p c then starFrom p (c :: left) t ++ [(left, c :: t)] else [(left, c :: t)]

/-- Is the character next to a position (if any) a word character? -/
def isWordAt : Option Char → Bool
  | some c => isWordChar c
  | none => false

/-- Backtracking matcher: all end states of a match of the expression starting at the
given state, in the order in which ECMAScript tries them. -/
def Re.run : Re → MState → List MState
  | .cls p, s =>
    match s.rest with
    | c :: t => if p c then [{ s with left := c :: s.left, rest := t }] else []
    | [] => []
  | .seq a b, s => (a.run s).flatMap (fun s1 => b.run s1)
  | .alt a b, s => a.run s ++ b.run s
  | .opt a, s => a.run s ++ [s]
  | .star p, s =>
    (starFrom p s.left s.rest).map (fun lr => { s with left := lr.1, rest := lr.2 })
  | .plus p, s =>
    match s.rest with
    | c :: t =>
      if p c then
        (starFrom p (c :: s.left) t).map (fun lr => { s with left := lr.1, rest := lr.2 })
      else []
    | [] => []
  | .group i a, s =>
    (a.run s).map (fun s1 =>
      { s1 with caps := (i, (s1.left.take (s1.left.length - s.left.length)).reverse) :: s1.caps })
  | .wordBoundary, s =>
    if isWordAt s.left.head? != isWordAt s.rest.head? then [s] else []

/-- The first match of the expression at a position, if any. -/
def Re.matchAt (r : Re) (left rest : List Char) : Option MState :=
  (r.run ⟨left, rest, []⟩).head?

/-- The leftmost match at or after a position. -/
def Re.searchFrom (r : Re) : List Char → List Char → Option MState
  | left, [] => r.matchAt left []
  | left, c :: t =>
    match r.matchAt left (c :: t) with
    | some m => some m
    | none => r.searchFrom (c :: left) t

/-- The match found by `text.match(re)` for a regular expression without the `g` flag. -/
def Re.exec (r : Re) (text : JSString) : Option MState := r.searchFrom [] text

/-- Capture group `i` of a match (`m[i]`). -/
def MState.cap (m : MState) (i : Nat) : JSString := (m.caps.lookup i).getD []

/-- The scan of `text.replace(re, rep)` for a regular expression with the `g` flag. The fuel
bounds the number of steps. -/
def Re.replaceAux (r : Re) (rep : JSString) : Nat → List Char → List Char → JSString
  | 0, _, rest => rest
  | _ + 1, left, [] =>
    match r.matchAt left [] with
    | some _ => rep
    | none => []
  | fuel + 1, left, c :: t =>
    match r.matchAt left (c :: t) with
    | some m =>
      if m.rest.length < (c :: t).length then rep ++ r.replaceAux rep fuel m.left m.rest
      else rep ++ c :: r.replaceAux rep fuel (c :: left) t
    | none => c :: r.replaceAux rep fuel (c :: left) t

/-- The result of `text.replace(re, rep)` for a regular expression with the `g` flag. -/
def Re.replaceAll (r : Re) (rep : JSString) (text : JSString) : JSString :=
  r.replaceAux rep (text.length + 1) [] text

/-- A literal character. -/
def Re.lit (c : Char) : Re := .cls (fun x => x == c)

/-- A literal letter under the `i` flag: the letter in either case. -/
def Re.litI (c : Char) : Re := .cls (fun x => x == c || x == toUpperChar c)

/-- A sequence of expressions. -/
def Re.seqs : List Re → Re
  | [] => .opt (.cls (fun _ => false))
  | [a] => a
  | a :: b :: l => .seq a (Re.seqs (b :: l))

/-! ## The expressions of `parseFooter` -/

/-- The expression `/<[^>]+>/g`. -/
def reTag : Re := .seqs [.lit '<', .plus isNotGt, .lit '>']

/-- The expression `/&nbsp;/gi`. -/
def reNbsp : Re := .seqs [.lit '&', .litI 'n', .litI 'b', .litI 's', .litI 'p', .lit ';']

/-- The expression `/&amp;/gi`. -/
def reAmp : Re := .seqs [.lit '&', .litI 'a', .litI 'm', .litI 'p', .lit ';']

/-- The expression `/&#\d+;/g`. -/
def reNumEntity : Re := .seqs [.lit '&', .lit '#', .plus isDigit, .lit ';']

/-- The expression `/\s+/g`. -/
def reSpaces : Re := .plus isSpace

/-- The group `(\d+\.\d+\.\d+(?:\.\d+)?)`. -/
def reVersion : Re :=
  .group 1 (.seqs [.plus isDigit, .lit '.', .plus isDigit, .lit '.', .plus isDigit,
    .opt (.seqs [.lit '.', .plus isDigit])])

/-- The group `(i\d{3})` under the `i` flag. -/
def reNode : Re := .group 2 (.seqs [.litI 'i', .cls isDigit, .cls isDigit, .cls isDigit])

/-- The primary expression
`/(\d+\.\d+\.\d+(?:\.\d+)?)\s*[-–]\s*(i\d{3})\s*\|\s*(\d+)\s*ms/i`. -/
def reFull : Re :=
  .seqs [reVersion, .star isSpace, .cls isDash, .star isSpace, reNode, .star isSpace,
    .lit '|', .star isSpace, .group 3 (.plus isDigit), .star isSpace, .litI 'm', .litI 's']

/-- The secondary expression `/(\d+\.\d+\.\d+(?:\.\d+)?)\s*[-–]\s*(i\d{3})/i`. -/
def rePartial : Re :=
  .seqs [reVersion, .star isSpace, .cls isDash, .star isSpace, reNode]

/-- The fallback expression `/\b(i0(?:67|68|69))\b/i`. -/
def reFallback : Re :=
  .seqs [.wordBoundary,
    .group 1 (.seqs [.litI 'i', .lit '0',
      .alt (.seqs [.lit '6', .lit '7']) (.alt (.seqs [.lit '6', .lit '8'])
        (.seqs [.lit '6', .lit '9']))]),
    .wordBoundary]

/-! ## `parseFooter` -/

/-- The value of a string of decimal digits. -/
def digitsValue (ds : JSString) : Nat := ds.foldl (fun acc c => acc * 10 + (c.toNat - 48)) 0

/-- The number of binary digits of `n`, found by halving at most `fuel` times. -/
def bitLengthAux : Nat → Nat → Nat
  | 0, _ => 0
  | fuel + 1, n => if n = 0 then 0 else bitLengthAux fuel (n / 2) + 1

/-- The number of binary digits of `n`. -/
def bitLength (n : Nat) : Nat := bitLengthAux n n

/-- The integer value of the double nearest to the integer `n`: `n` itself below `2^53`,
and otherwise `n` rounded to 53 binary digits, to nearest and ties to even; `2^1024`
stands for `Infinity`, which is the result from `2^1024 - 2^970` on. -/
def nearestDouble (n : Nat) : Nat :=
  if n < 2 ^ 53 then n
  else
    let e := bitLength n - 53
    let q := n / 2 ^ e
    let r := n % 2 ^ e
    let m := if r > 2 ^ e / 2 ∨ (r = 2 ^ e / 2 ∧ q % 2 = 1) then (q + 1) * 2 ^ e else q * 2 ^ e
    if bitLength m ≤ 1024 then m else 2 ^ 1024

/-- A Number with a non-negative integer value, or `Infinity`: `exact n` is the integer
`n`, used below `2^53`, and `rounded n` is the double nearest to `n`, used at or above
`2^53`. The function `parseInt` gives `rounded n` with `n` the value of that double
itself, and with `2^1024` for `Infinity`. -/
inductive JSInt where
  | exact (n : Nat)
  | rounded (n : Nat)
deriving DecidableEq, Repr

/-- Is the Number finite? Doubles round to nearest: from `2^1024 - 2^970` on, the nearest
double is `Infinity`. -/
def JSInt.isFinite : JSInt → Bool
  | .exact _ => true
  | .rounded n => decide (n < 2 ^ 1024 - 2 ^ 970)

/-- The call `parseInt(ds, 10)` on a string of decimal digits: the Number nearest to the
integer which the digits write (for more than 20 digits the language leaves the choice
between that Number and a neighbour to the engine; this is the correctly rounded one). -/
def parseInt (ds : JSString) : JSInt :=
  if digitsValue ds < 2 ^ 53 then .exact (digitsValue ds)
  else .rounded (nearestDouble (digitsValue ds))

/-- The object returned by `parseFooter`; `none` is `null`. -/
structure Parsed where
  version : Option JSString
  nodeShortId : JSString
  responseTimeMs : Option JSInt
deriving DecidableEq, Repr

/-- The normalisation at the head of `parseFooter`: strip tags, decode entities, collapse
white space. -/
def normalize (html : JSString) : JSString :=
  reSpaces.replaceAll " ".toList
    (reNumEntity.replaceAll " ".toList
      (reAmp.replaceAll "&".toList
        (reNbsp.replaceAll " ".toList
          (reTag.replaceAll " ".toList html))))

/-- The function `parseFooter` of `scripts/poll.js`; `none` is `null`. -/
def parseFooter (html : JSString) : Option Parsed :=
  let text := normalize html
  match reFull.exec text with
  | some m =>
    some { version := some (m.cap 1), nodeShortId := toLowerCase (m.cap 2),
           responseTimeMs := some (parseInt (m.cap 3)) }
  | none =>
    match rePartial.exec text with
    | some m2 =>
      some { version := some (m2.cap 1), nodeShortId := toLowerCase (m2.cap 2),
             responseTimeMs := none }
    | none =>
      match reFallback.exec text with
      | some fb => some { version := none, nodeShortId := toLowerCase (fb.cap 1),
                          responseTimeMs := none }
      | none => none

/-! ## JSON values and the history store -/

/-- A Number as `JSON.parse` returns it: a Number of `JSInt` (a non-negative integer, or
`Infinity`, which is how a literal too large for a double such as `1e400` is read),
negative zero, `-Infinity`, or any other finite Number, `other negative m e` being plus
or minus `(m + 1) * 2^e`. -/
inductive JSNumber where
  | int (n : JSInt)
  | negZero
  | negInfinity
  | other (negative : Bool) (m : Nat) (e : Int)
deriving DecidableEq, Repr

/-- The Number which `JSON.parse` reads back from the text `JSON.stringify` writes for a
Number: `none` is `null`, which is written for a Number that is not finite; negative zero
is written as `0`; every other Number is written so that it is read back as it is. -/
def JSNumber.written : JSNumber → Option JSNumber
  | .int n => if n.isFinite then some (.int n) else none
  | .negZero => some (.int (.exact 0))
  | .negInfinity => none
  | .other negative m e => some (.other negative m e)

/-- Is the Number neither infinite nor negative zero? -/
def JSNumber.isKept : JSNumber → Bool
  | .int n => n.isFinite
  | .negZero => false
  | .negInfinity => false
  | .other _ _ _ => true

/-- Truthiness of a Number: zero and negative zero are falsy. -/
def JSNumber.truthy : JSNumber → Bool
  | .int (.exact n) => n != 0
  | .int (.rounded _) => true
  | .negZero => false
  | .negInfinity => true
  | .other _ _ _ => true

/-- A JSON value as handled by `JSON.parse` and `JSON.stringify`. An object is the list of
its properties in insertion order (the first entry for a key is the property). -/
inductive Json where
  | null
  | bool (b : Bool)
  | num (x : JSNumber)
  | str (s : JSString)
  | arr (items : List Json)
  | obj (props : List (JSString × Json))

/-- An error thrown by the script outside the `try` block. -/
inductive JSError where
  | typeError (message : String)
deriving DecidableEq, Repr

/-- The state of the file `data/rotation-history.json`: it does not exist, or reading and
parsing it throws, or `JSON.parse` of its content gives a value. -/
inductive HistoryFile where
  | absent
  | invalid
  | json (value : Json)

/-- The property name `records`. -/
def keyRecords : JSString := "records".toList

/-- The property name `lastUpdated`. -/
def keyLastUpdated : JSString := "lastUpdated".toList

/-- The property name `nodeShortId`. -/
def keyNodeShortId : JSString := "nodeShortId".toList

/-- The fresh document `{ records: [], lastUpdated: null }`. -/
def emptyHistory : Json :=
  .obj [(keyRecords, .arr []), (keyLastUpdated, .null)]

/-- The function `readHistory`: the parsed content of the file when it exists and parses,
and the fresh document otherwise (the `catch` swallows the error). -/
def readHistory : HistoryFile → Json
  | .absent => emptyHistory
  | .invalid => emptyHistory
  | .json value => value

mutual
/-- The value which `JSON.parse` reads back from the text `JSON.stringify` writes for a
value: the same value, with `null` in place of every Number that is not finite and `0` in
place of every negative zero. -/
def Json.written : Json → Json
  | .null => .null
  | .bool b => .bool b
  | .num x =>
    match x.written with
    | some y => .num y
    | none => .null
  | .str s => .str s
  | .arr items => .arr (writtenItems items)
  | .obj props => .obj (writtenProps props)
/-- The elements of an array, each as it is written. -/
def writtenItems : List Json → List Json
  | [] => []
  | j :: rest => j.written :: writtenItems rest
/-- The properties of an object, each as it is written. -/
def writtenProps : List (JSString × Json) → List (JSString × Json)
  | [] => []
  | (k, v) :: rest => (k, v.written) :: writtenProps rest
end

mutual
/-- Is no Number in the value infinite or negative zero? -/
def Json.isKept : Json → Bool
  | .num x => x.isKept
  | .arr items => isKeptItems items
  | .obj props => isKeptProps props
  | _ => true
/-- Is no Number in the elements of an array infinite or negative zero? -/
def isKeptItems : List Json → Bool
  | [] => true
  | j :: rest => j.isKept && isKeptItems rest
/-- Is no Number in the properties of an object infinite or negative zero? -/
def isKeptProps : List (JSString × Json) → Bool
  | [] => true
  | (_, v) :: rest => v.isKept && isKeptProps rest
end

/-- The function `writeHistory`: the file then holds `JSON.stringify(history)`, which
`JSON.parse` reads back as `history.written`. -/
def writeHistory (history : Json) : HistoryFile := .json history.written

/-- Truthiness of a JSON value. -/
def Json.truthy : Json → Bool
  | .null => false
  | .bool b => b
  | .num x => x.truthy
  | .str s => !s.isEmpty
  | .arr _ => true
  | .obj _ => true

/-- Reading an own property of a truthy JSON value by name; `none` is `undefined`. Only
the objects of a parsed document have named properties other than `length`. -/
def Json.prop (j : Json) (key : JSString) : Option Json :=
  match j with
  | .obj props => props.lookup key
  | _ => none

/-- Assigning to an own property of an object: an existing property keeps its place. -/
def setProp (key : JSString) (v : Json) : List (JSString × Json) → List (JSString × Json)
  | [] => [(key, v)]
  | (k, w) :: rest => if k == key then (k, v) :: rest else (k, w) :: setProp key v rest

/-- Strict inequality `a !== s` of a JSON value and a string. -/
def Json.strictNeStr (a : Json) (s : JSString) : Bool :=
  match a with
  | .str t => t != s
  | _ => true

/-! ## The orchestrator -/

/-- The three values of the `status` field. -/
inductive Status where
  | OK
  | PARSE_ERROR
  | FETCH_ERROR
deriving DecidableEq, Repr

/-- The `record` object built by the main function; `none` is `null`. -/
structure Record where
  timestamp : JSString
  status : Status
  nodeShortId : Option JSString
  nodeLabel : Option JSString
  nodeHost : Option JSString
  version : Option JSString
  responseTimeMs : Option JSInt
  failover : Bool
  error : Option JSString
deriving DecidableEq, Repr

/-- An entry of `NODE_MAP`. -/
structure NodeDescriptor where
  short : JSString
  host : JSString
  label : JSString
deriving DecidableEq, Repr

/-- The table `NODE_MAP`. -/
def NODE_MAP : List (JSString × NodeDescriptor) :=
  [("i067".toList, ⟨"i067".toList, "idt183067".toList, "IDT067".toList⟩),
   ("i068".toList, ⟨"i068".toList, "idt183068".toList, "IDT068".toList⟩),
   ("i069".toList, ⟨"i069".toList, "idt183069".toList, "IDT069".toList⟩)]

/-- The expression `NODE_MAP[shortId] || { short, host: "unknown-" + shortId, label:
shortId.toUpperCase() }` of the main function, for the ids `parseFooter` returns (an `i`
followed by three digits). -/
def resolveNode (shortId : JSString) : NodeDescriptor :=
  match NODE_MAP.lookup shortId with
  | some node => node
  | none => ⟨shortId, "unknown-".toList ++ shortId, toUpperCase shortId⟩

/-- The outcome of `await fetchPage(EULOGIN_URL)`: the body, or the message of the error
the promise was rejected with. -/
inductive FetchOutcome where
  | body (html : JSString)
  | failed (message : JSString)
deriving DecidableEq, Repr

/-- The `record` object as first created. -/
def initialRecord (timestamp : JSString) : Record :=
  { timestamp := timestamp, status := .OK, nodeShortId := none, nodeLabel := none,
    nodeHost := none, version := none, responseTimeMs := none, failover := false,
    error := none }

/-- The `try`/`catch` block of the main function: the record after the fetch and the
parse. -/
def probe (record : Record) : FetchOutcome → Record
  | .body html =>
    match parseFooter html with
    | none =>
      { record with status := .PARSE_ERROR,
                    error := some "Footer pattern not found in page".toList }
    | some parsed =>
      let node := resolveNode parsed.nodeShortId
      { record with nodeShortId := some parsed.nodeShortId, nodeLabel := some node.label,
                    nodeHost := some node.host, version := parsed.version,
                    responseTimeMs := parsed.responseTimeMs }
  | .failed message => { record with status := .FETCH_ERROR, error := some message }

/-- The condition `prev && prev.nodeShortId && record.nodeShortId &&
prev.nodeShortId !== record.nodeShortId`; `prev` is `none` when it is `undefined`. -/
def failoverDetected (prev : Option Json) (record : Record) : Bool :=
  match prev with
  | none => false
  | some p =>
    p.truthy &&
    (match p.prop keyNodeShortId with
     | none => false
     | some a =>
       a.truthy &&
       (match record.nodeShortId with
        | none => false
        | some s => !s.isEmpty && a.strictNeStr s))

/-- JSON text for a status. -/
def Status.toJson : Status → Json
  | .OK => .str "OK".toList
  | .PARSE_ERROR => .str "PARSE_ERROR".toList
  | .FETCH_ERROR => .str "FETCH_ERROR".toList

/-- A nullable string as a JSON value. -/
def optStr : Option JSString → Json
  | none => .null
  | some s => .str s

/-- The `record` object as `JSON.stringify` writes it (a Number that is not finite is
written as `null`). -/
def Record.toJson (r : Record) : Json :=
  .obj [("timestamp".toList, .str r.timestamp),
        ("status".toList, r.status.toJson),
        (keyNodeShortId, optStr r.nodeShortId),
        ("nodeLabel".toList, optStr r.nodeLabel),
        ("nodeHost".toList, optStr r.nodeHost),
        ("version".toList, optStr r.version),
        ("responseTimeMs".toList, match r.responseTimeMs with
                                   | none => .null
                                   | some n => if n.isFinite then .num (.int n) else .null),
        ("failover".toList, .bool r.failover),
        ("error".toList, optStr r.error)]

/-- The second half of the main function: load the history, detect a failover, push the
record, set `lastUpdated`. The result is the record pushed and the document handed to
`writeHistory`, or the `TypeError` thrown on the way. -/
def appendRecord (timestamp : JSString) (record : Record) (history : Json) :
    Except JSError (Record × Json) :=
  match history with
  | .null => .error (.typeError "Cannot read properties of null (reading 'records')")
  | .obj props =>
    match props.lookup keyRecords with
    | none => .error (.typeError "Cannot read properties of undefined (reading 'length')")
    | some .null => .error (.typeError "Cannot read properties of null (reading 'length')")
    | some (.arr items) =>
      let prev := items.getLast?
      let record := if failoverDetected prev record then { record with failover := true }
                    else record
      .ok (record,
        .obj (setProp keyLastUpdated (.str timestamp)
          (setProp keyRecords (.arr (items ++ [record.toJson])) props)))
    | some _ => .error (.typeError "history.records.push is not a function")
  | _ => .error (.typeError "Cannot read properties of undefined (reading 'length')")

/-- The main function of `scripts/poll.js`, for a given clock reading, fetch outcome and
state of the history file: the record appended and the new state of the file, or the
error the run ends with. The write is taken to succeed. -/
def main (timestamp : JSString) (fetched : FetchOutcome) (file : HistoryFile) :
    Except JSError (Record × HistoryFile) :=
  let record := probe (initialRecord timestamp) fetched
  match appendRecord timestamp record (readHistory file) with
  | .error e => .error e
  | .ok (record, history) => .ok (record, writeHistory history)

/-! ## Notions used in the statements -/

/-- The `records` array of a document, if it has one. -/
def Json.records? : Json → Option (List Json)
  | .obj props =>
    match props.lookup keyRecords with
    | some (.arr items) => some items
    | _ => none
  | _ => none

/-- The `nodeShortId` of a stored record object, when it is a string or `null` (the inner
`none`); the outer `none` is for a value that is no such record. -/
def Json.storedNodeShortId? : Json → Option (Option JSString)
  | .obj props =>
    match props.lookup keyNodeShortId with
    | some .null => some none
    | some (.str s) => some (some s)
    | _ => none
  | _ => none

/-- A history document: an object whose `records` is an array of record objects. -/
def isHistoryDocument (j : Json) : Bool :=
  match j.records? with
  | some items => items.all (fun r => r.storedNodeShortId?.isSome)
  | none => false

/-- The last stored record of the document in the file, if any. -/
def lastStored (file : HistoryFile) : Option Json :=
  (readHistory file).records?.bind List.getLast?

/-- The record pushed by `appendRecord`. -/
def withFailover (prev : Option Json) (record : Record) : Record :=
  if failoverDetected prev record then { record with failover := true } else record

/-- The record appended by one run, if the run completes. -/
def appendedRecord (timestamp : JSString) (fetched : FetchOutcome) (file : HistoryFile) :
    Option Record :=
  match main timestamp fetched file with
  | .ok (record, _) => some record
  | .error _ => none

/-- Successive runs, each on the file the previous one left, with the records they
appended. -/
def pollMany : List (JSString × FetchOutcome) → HistoryFile →
    Except JSError (List Record × HistoryFile)
  | [], file => .ok ([], file)
  | (timestamp, fetched) :: rest, file =>
    match main timestamp fetched file with
    | .error e => .error e
    | .ok (record, file1) =>
      match pollMany rest file1 with
      | .error e => .error e
      | .ok (records, file2) => .ok (record :: records, file2)

/-- A sample clock reading. -/
def sampleTime : JSString := "2025-01-01T08:00:00.000Z".toList

/-- A history document whose only record has the empty string as `nodeShortId`. -/
def emptyIdHistory : Json :=
  .obj [(keyRecords, .arr [Record.toJson
          { timestamp := "2025-01-01T02:00:00.000Z".toList, status := .OK,
            nodeShortId := some [], nodeLabel := some [], nodeHost := some "unknown-".toList,
            version := none, responseTimeMs := none, failover := false, error := none }]),
        (keyLastUpdated, .str "2025-01-01T02:00:00.000Z".toList)]

/-- A history document with one record, of node `i068`. -/
def sampleHistory : Json :=
  .obj [(keyRecords, .arr [Record.toJson
          { timestamp := "2025-01-01T02:00:00.000Z".toList, status := .OK,
            nodeShortId := some "i068".toList, nodeLabel := some "IDT068".toList,
            nodeHost := some "idt183068".toList, version := some "9.14.7".toList,
            responseTimeMs := some (.exact 3), failover := false, error := none }]),
        (keyLastUpdated, .str "2025-01-01T02:00:00.000Z".toList)]

/-- A node id as the expressions capture it: an `i` or `I` and three digits. -/
def IsNodeText (w : List Char) : Prop :=
  ∃ c d1 d2 d3, w = [c, d1, d2, d3] ∧ (c = 'i' ∨ c = 'I') ∧
    isDigit d1 = true ∧ isDigit d2 = true ∧ isDigit d3 = true

/-- The first end state of a match of `r` from the state, if any. -/
def Re.first (r : Re) (s : MState) : Option MState := (r.run s).head?

/-- Does the text start with a character outside the class (or is it empty)? -/
def stopsAt (p : Char → Bool) : List Char → Bool
  | [] => true
  | c :: _ => !p c

/-- The scan with enough fuel for the text. -/
def Re.replaceFrom (r : Re) (rep : JSString) (left text : List Char) : JSString :=
  r.replaceAux rep (text.length + 1) left text

/-- Every match of the expression starts with a character of the class. -/
def Re.StartsWith (r : Re) (P : Char → Bool) : Prop :=
  ∀ s m, m ∈ r.run s → ∃ c t, s.rest = c :: t ∧ P c = true

/-- The output of a global replace: the text with some chunks replaced by `rep`. -/
inductive Rewrites (rep : JSString) : List Char → List Char → Prop where
  | nil : Rewrites rep [] []
  | keep (c : Char) {s out : List Char} : Rewrites rep s out → Rewrites rep (c :: s) (c :: out)
  | chunk (w : List Char) {s out : List Char} :
      Rewrites rep s out → Rewrites rep (w ++ s) (rep ++ out)

/-- A non-empty string of decimal digits. -/
def IsDigits (g : List Char) : Prop := g ≠ [] ∧ ∀ c ∈ g, isDigit c = true

/-- A version as the expressions capture it: three or four groups of digits separated by
dots. -/
def IsVersionText (v : List Char) : Prop :=
  ∃ g1 g2 g3, IsDigits g1 ∧ IsDigits g2 ∧ IsDigits g3 ∧
    (v = g1 ++ '.' :: (g2 ++ '.' :: g3) ∨
      ∃ g4, IsDigits g4 ∧ v = g1 ++ '.' :: (g2 ++ '.' :: (g3 ++ '.' :: g4)))

/-- The text of a match of the secondary expression, with its version and node id. -/
def IsPartialMatch (v n w : List Char) : Prop :=
  ∃ ws1 d ws2, (∀ c ∈ ws1, isSpace c = true) ∧ isDash d = true ∧
    (∀ c ∈ ws2, isSpace c = true) ∧ w = v ++ (ws1 ++ d :: (ws2 ++ n))

/-- The text of a match of the primary expression, with its version, node id and
response time. -/
def IsFullMatch (v n t w : List Char) : Prop :=
  ∃ w1 ws3 ws4 ws5 c1 c2, IsPartialMatch v n w1 ∧ (∀ c ∈ ws3, isSpace c = true) ∧
    (∀ c ∈ ws4, isSpace c = true) ∧ (∀ c ∈ ws5, isSpace c = true) ∧
    (c1 = 'm' ∨ c1 = 'M') ∧ (c2 = 's' ∨ c2 = 'S') ∧
    w = w1 ++ (ws3 ++ '|' :: (ws4 ++ (t ++ (ws5 ++ [c1, c2]))))

/-- A node id as the fallback expression captures it: `i067`, `i068` or `i069`, the `i`
in either case. -/
def IsKnownNodeText (n : List Char) : Prop :=
  ∃ c x, (c = 'i' ∨ c = 'I') ∧ (x = '7' ∨ x = '8' ∨ x = '9') ∧ n = [c, '0', '6', x]

/-- The letter `i` in either case. -/
def isLetterI (c : Char) : Bool := c == 'i' || c == 'I'

/-- Does the text start with an `i` (either case) followed by three digits? -/
def startsWithNodeText : List Char → Bool
  | c :: d1 :: d2 :: d3 :: _ => isLetterI c && isDigit d1 && isDigit d2 && isDigit d3
  | _ => false

/-- Does the text contain an `i` (either case) immediately followed by three digits? -/
def containsNodeText : List Char → Bool
  | [] => false
  | c :: t => startsWithNodeText (c :: t) || containsNodeText t

/-- A digit or a dot. -/
def isVersionChar (c : Char) : Bool := isDigit c || c == '.'

/-- A character that the normalisation leaves alone and that is not white space. -/
def isPlainChar (c : Char) : Bool := !(c == '<') && !(c == '&') && !isSpace c

/-- The text after the tag and entity passes of the normalisation. -/
def Decoded (b out : List Char) : Prop :=
  ∃ b1 b2 b3, Rewrites " ".toList b b1 ∧ Rewrites " ".toList b1 b2 ∧
    Rewrites "&".toList b2 b3 ∧ Rewrites " ".toList b3 out

/-- The footer text `<version>-<node> | <time> ms`. -/
def footerText (v n u : JSString) : JSString :=
  v ++ "-".toList ++ n ++ " | ".toList ++ u ++ " ms".toList

/-- Does the text start with an `i` (either case) followed by `0`? -/
def startsWithI0 : List Char → Bool
  | c :: d :: _ => isLetterI c && d == '0'
  | _ => false

/-- Does the text contain an `i` (either case) immediately followed by `0`? -/
def containsI0 : List Char → Bool
  | [] => false
  | c :: t => startsWithI0 (c :: t) || containsI0 t

/-- The text `pre` consists of complete tags and of characters other than `<`, and `out`
is `pre` with every tag replaced by a space. -/
inductive Strips : List Char → List Char → Prop where
  | nil : Strips [] []
  | char (c : Char) {t out : List Char} : (c == '<') = false → Strips t out →
      Strips (c :: t) (c :: out)
  | tag (body : List Char) {t out : List Char} : body ≠ [] →
      (∀ c ∈ body, (c == '>') = false) → Strips t out →
      Strips ('<' :: (body ++ '>' :: t)) (' ' :: out)

/-- The primary pattern matches somewhere in the text, with this version, node id and
response time. -/
def FullMatchIn (text v n t : JSString) : Prop :=
  ∃ a w b, text = a ++ (w ++ b) ∧ IsVersionText v ∧ IsNodeText n ∧ IsDigits t ∧
    IsFullMatch v n t w

/-- The secondary pattern matches somewhere in the text, with this version and node id. -/
def PartialMatchIn (text v n : JSString) : Prop :=
  ∃ a w b, text = a ++ (w ++ b) ∧ IsVersionText v ∧ IsNodeText n ∧ IsPartialMatch v n w

/-- The fallback pattern matches somewhere in the text, with this node id: a known node id
between two word boundaries. -/
def FallbackMatchIn (text n : JSString) : Prop :=
  ∃ a b, text = a ++ (n ++ b) ∧ IsKnownNodeText n ∧ isWordAt a.getLast? = false ∧
    isWordAt b.head? = false

/-- A stored record of node `i068` with the given value of `responseTimeMs`. -/
def storedRecord (time : Json) : Json :=
  .obj [("timestamp".toList, .str "2025-01-01T02:00:00.000Z".toList),
        ("status".toList, .str "OK".toList),
        (keyNodeShortId, .str "i068".toList),
        ("nodeLabel".toList, .str "IDT068".toList),
        ("nodeHost".toList, .str "idt183068".toList),
        ("version".toList, .str "9.14.7".toList),
        ("responseTimeMs".toList, time),
        ("failover".toList, .bool false),
        ("error".toList, .null)]

/-- A history document with one stored record. -/
def historyOf (record : Json) : Json :=
  .obj [(keyRecords, .arr [record]), (keyLastUpdated, .str "2025-01-01T02:00:00.000Z".toList)]

/-- The Number `Infinity`, as `JSON.parse` reads the literal `1e400`. -/
def overflowTime : Json := .num (.int (.rounded (10 ^ 400)))

/-- The record of a page served by node `i069`, after a stored record of node `i068`. -/
def sampleOkRecord : Record :=
  { timestamp := sampleTime, status := .OK, nodeShortId := some "i069".toList,
    nodeLabel := some "IDT069".toList, nodeHost := some "idt183069".toList,
    version := some "9.14.7".toList, responseTimeMs := some (.exact 4),
    failover := true, error := none }

/-- The record of a fetch that timed out. -/
def sampleFailedRecord : Record :=
  { timestamp := sampleTime, status := .FETCH_ERROR, nodeShortId := none,
    nodeLabel := none, nodeHost := none, version := none, responseTimeMs := none,
    failover := false, error := some "Timeout".toList }

/-- Does the text start with `i067`, `i068` or `i069`, the `i` in either case? -/
def startsWithKnownNode : List Char → Bool
  | c :: '0' :: '6' :: x :: _ => isLetterI c && (x == '7' || x == '8' || x == '9')
  | _ => false

/-- Does the text contain `i067`, `i068` or `i069`, the `i` in either case? -/
def containsKnownNode : List Char → Bool
  | [] => false
  | c :: t => startsWithKnownNode (c :: t) || containsKnownNode t

/-- The names of the properties which an object literal such as `NODE_MAP` inherits from
`Object.prototype`. Each of them has a truthy value: a function, or the prototype object
itself for `__proto__`. -/
def objectPrototypeKeys : List JSString :=
  ["constructor".toList, "__defineGetter__".toList, "__defineSetter__".toList,
   "hasOwnProperty".toList, "__lookupGetter__".toList, "__lookupSetter__".toList,
   "isPrototypeOf".toList, "propertyIsEnumerable".toList, "toString".toList,
   "valueOf".toList, "__proto__".toList, "toLocaleString".toList]

/-- The value of `node` in the main function: a descriptor (an entry of the table or the
object literal made on the spot), or the value of an inherited property, which has no
`host` and no `label` of a descriptor. -/
inductive NodeValue where
  | descriptor (node : NodeDescriptor)
  | inherited (key : JSString)
deriving DecidableEq, Repr

/-- The expression `NODE_MAP[shortId] || { short: shortId, host: "unknown-" + shortId,
label: shortId.toUpperCase() }` for an arbitrary string: the property lookup finds the own
properties of the table first and the inherited ones next, and the object literal is
used only when the lookup gives `undefined`. -/
def resolveNodeValue (shortId : JSString) : NodeValue :=
  match NODE_MAP.lookup shortId with
  | some node => .descriptor node
  | none =>
    if shortId ∈ objectPrototypeKeys then .inherited shortId
    else .descriptor ⟨shortId, "unknown-".toList ++ shortId, toUpperCase shortId⟩

/-- A response as the callback of `client.get` sees it: `res.statusCode`,
`res.headers.location` (`none` when the header is absent, so that the property is
`undefined`) and the text of all the `data` chunks up to `end`. -/
structure Response where
  statusCode : Nat
  location : Option JSString
  body : JSString
deriving DecidableEq, Repr

/-- What one request ends in: the response callback is called; or the request fails (an
`error` event, or `client.get` itself throwing inside the promise executor), which
rejects the promise with that error; or the `timeout` event fires. -/
inductive NetEvent where
  | response (res : Response)
  | error (message : JSString)
  | timeout
deriving DecidableEq, Repr

/-- The state the promise of `fetchPage` ends in: settled (resolved with the body or
rejected with an error, of which `message` is kept), or left unsettled by an exception
thrown inside the response callback, or pending because no event arrives. -/
inductive FetchResult where
  | settled (outcome : FetchOutcome)
  | uncaught (e : JSError)
  | pending
deriving DecidableEq, Repr

/-- The test `res.statusCode >= 300 && res.statusCode < 400 && res.headers.location`:
an absent header and an empty one are both falsy. -/
def Response.isRedirect (res : Response) : Bool :=
  decide (res.statusCode ≥ 300) && decide (res.statusCode < 400) &&
    (match res.location with
     | none => false
     | some loc => !loc.isEmpty)

/-- The value of `next`: the location itself when it starts with `http`, and
`new URL(location, url).href` otherwise. The URL parser of the platform is the parameter
`resolveUrl`, which is `none` when the constructor throws. -/
def nextUrl (resolveUrl : JSString → JSString → Option JSString) (location url : JSString) :
    Option JSString :=
  if "http".toList.isPrefixOf location then some location else resolveUrl location url

/-- The template literal with `HTTP` and the status code. -/
def httpMessage (statusCode : Nat) : JSString := "HTTP ".toList ++ (Nat.repr statusCode).toList

/-- The function `fetchPage(url, redirects)`, run against the events which the successive
requests end in (the first request ends in the first event, and so on). -/
def fetchPage (resolveUrl : JSString → JSString → Option JSString) :
    List NetEvent → JSString → Nat → FetchResult
  | [], _, redirects =>
    if redirects > 5 then .settled (.failed "Too many redirects".toList) else .pending
  | event :: net, url, redirects =>
    if redirects > 5 then .settled (.failed "Too many redirects".toList)
    else
      match event with
      | .response res =>
        if res.isRedirect then
          match nextUrl resolveUrl (res.location.getD []) url with
          | some next => fetchPage resolveUrl net next (redirects + 1)
          | none => .uncaught (.typeError "Invalid URL")
        else if res.statusCode ≠ 200 then .settled (.failed (httpMessage res.statusCode))
        else .settled (.body res.body)
      | .error message => .settled (.failed message)
      | .timeout => .settled (.failed "Timeout".toList)

/-- The URL requested once every response of `hops` has been followed, starting from a
request of `url`: each response has to be a 3xx response with a non-empty `Location`
header, whose value either starts with `http` or is resolved against the URL just
requested; `none` when one of them is not. -/
def followedTo (resolveUrl : JSString → JSString → Option JSString) :
    List Response → JSString → Option JSString
  | [], url => some url
  | res :: hops, url =>
    match res.location with
    | some (c :: loc) =>
      if 300 ≤ res.statusCode ∧ res.statusCode < 400 then
        match nextUrl resolveUrl (c :: loc) url with
        | some next => followedTo resolveUrl hops next
        | none => none
      else none
    | _ => none

/-- A URL parser for the examples: a location that does not start with `http` is taken
as a path under the host `https://webgate.ec.europa.eu`. -/
def sampleResolveUrl (location _url : JSString) : Option JSString :=
  some ("https://webgate.ec.europa.eu".toList ++ location)

/-- The URL polled by default. -/
def sampleUrl : JSString := "https://webgate.ec.europa.eu/cas/".toList

/-- A redirect to a relative location. -/
def sampleRedirect : Response := ⟨302, some "/cas/login".toList, []⟩

/-- A redirect to an absolute location. -/
def sampleMoved : Response := ⟨301, some "https://ecas.ec.europa.eu/cas/".toList, []⟩

/-- A page served with status 200. -/
def samplePage : Response := ⟨200, none, "<p>9.14.7-i068 | 3 ms</p>".toList⟩

/-- The draws of `Math.random()` behind one record of `seed.js`, each scaled and floored
as the script does: the minute `Math.floor(Math.random() * 30)`, the test
`Math.random() < 0.05`, the index `Math.floor(Math.random() * 2)` (drawn only when the
node changes) and `Math.floor(Math.random() * 15)` for the response time. -/
structure Draw where
  minute : Fin 30
  switch : Bool
  pick : Fin 2
  time : Fin 15

/-- The array `shortIds = Object.keys(NODE_MAP)` of `seed.js`, whose `NODE_MAP` is the
same table as the one of `poll.js`. -/
def shortIds : List JSString := NODE_MAP.map Prod.fst

/-- The object `bumps` of `seed.js`. -/
def bumps : List (Nat × JSString) := [(45, "9.14.6".toList), (15, "9.14.7".toList)]

/-- The variables `cur`, `ver` and `records` of `seed.js`. -/
structure SeedState where
  cur : JSString
  ver : JSString
  records : List Record

/-- The body of the inner loop of `seed.js` for day `d` and check `c`. The text of the
date is given by `clock` from the day, the hour and the minute. The lookup
`NODE_MAP[cur]` is on the own keys of the table, which is all that `cur` can be (the
initial `i068`, or an element of `shortIds`, or `undefined` for an index out of range);
reading `n.label` throws when it finds nothing. -/
def seedCheck (clock : Nat → Nat → Nat → JSString) (d c : Nat) (draw : Draw)
    (s : SeedState) : Except JSError SeedState :=
  let timestamp := clock d (if c = 0 then 8 else if c = 1 then 14 else 20) draw.minute
  let cur : Option JSString :=
    if draw.switch && decide (d > 0) then (shortIds.filter (fun n => n != s.cur))[draw.pick.val]?
    else some s.cur
  let prev := s.records.getLast?
  match cur.bind (fun id => (NODE_MAP.lookup id).map (fun n => (id, n))) with
  | none => .error (.typeError "Cannot read properties of undefined (reading 'label')")
  | some (id, n) =>
    .ok { cur := id, ver := s.ver,
          records := s.records ++
            [{ timestamp := timestamp, status := .OK, nodeShortId := some id,
               nodeLabel := some n.label, nodeHost := some n.host, version := some s.ver,
               responseTimeMs := some (.exact (draw.time.val + 1)),
               failover := match prev with
                           | some p => p.nodeShortId != some id
                           | none => false,
               error := none }] }

/-- The inner loop `for (let c = 0; c < checks; c++)`, over the values of `c` in turn. -/
def seedChecks (clock : Nat → Nat → Nat → JSString) (draws : Nat → Nat → Draw) (d : Nat) :
    List Nat → SeedState → Except JSError SeedState
  | [], s => .ok s
  | c :: rest, s =>
    match seedCheck clock d c (draws d c) s with
    | .error e => .error e
    | .ok s1 => seedChecks clock draws d rest s1

/-- The body of the outer loop for day `d`: the version bump, then two checks on day 0
and three on the other days. -/
def seedDay (clock : Nat → Nat → Nat → JSString) (draws : Nat → Nat → Draw) (d : Nat)
    (s : SeedState) : Except JSError SeedState :=
  seedChecks clock draws d (List.range (if d = 0 then 2 else 3))
    (match bumps.lookup d with
     | some v => { s with ver := v }
     | none => s)

/-- The outer loop `for (let d = ...; d >= 0; d--)` from day `d` down to day 0. -/
def seedDays (clock : Nat → Nat → Nat → JSString) (draws : Nat → Nat → Draw) :
    Nat → SeedState → Except JSError SeedState
  | 0, s => seedDay clock draws 0 s
  | d + 1, s =>
    match seedDay clock draws (d + 1) s with
    | .error e => .error e
    | .ok s1 => seedDays clock draws d s1

/-- The array `records` which `seed.js` writes, for the draws `draws d c` of day `d` and
check `c`. -/
def seedRecords (clock : Nat → Nat → Nat → JSString) (draws : Nat → Nat → Draw) :
    Except JSError (List Record) :=
  match seedDays clock draws 60 ⟨"i068".toList, "9.14.5".toList, []⟩ with
  | .error e => .error e
  | .ok s => .ok s.records

/-- A generated record as the claim describes it: status `OK`, a node id of the table,
label and host of that entry. -/
def SeedOk (r : Record) : Prop :=
  r.status = .OK ∧
  ∃ id node, r.nodeShortId = some id ∧ NODE_MAP.lookup id = some node ∧
    r.nodeLabel = some node.label ∧ r.nodeHost = some node.host

/-- Every record of the list is as `SeedOk` says and its `failover` is what the rule of
the orchestrator gives against the record before it. -/
def SeedChain (records : List Record) : Prop :=
  ∀ pre r post, records = pre ++ r :: post →
    SeedOk r ∧ r.failover = failoverDetected (pre.getLast?.map Record.toJson) r

/-- The invariant of the loops of `seed.js`. -/
def SeedInv (s : SeedState) : Prop :=
  (∃ node, NODE_MAP.lookup s.cur = some node) ∧ SeedChain s.records

/-- Markup and white space placed around a token: white-space characters and tags, a tag
being `<`, one or more characters other than `>`, and `>`. -/
inductive IsFiller : List Char → Prop where
  | nil : IsFiller []
  | space (c : Char) {t : List Char} : isSpace c = true → IsFiller t → IsFiller (c :: t)
  | tag (body : List Char) {t : List Char} : body ≠ [] →
      (∀ c ∈ body, (c == '>') = false) → IsFiller t → IsFiller ('<' :: (body ++ '>' :: t))

/-- What the white-space pass makes of a run of white space: nothing of an empty run, one
space of any other. -/
def squeeze : List Char → List Char
  | [] => []
  | _ :: _ => [' ']

/-! ## Theorems -/

theorem mem_run_cls {p : Char → Bool} {s m : MState} :
    m ∈ (Re.cls p).run s ↔
      ∃ c t, s.rest = c :: t ∧ p c = true ∧ m = ⟨c :: s.left, t, s.caps⟩ := by
  obtain ⟨l, r, k⟩ := s
  cases r with
  | nil => simp [Re.run]
  | cons c t =>
    by_cases h : p c = true
    · simp only [Re.run, h, if_true, List.mem_singleton]
      constructor
      · rintro rfl; exact ⟨c, t, rfl, h, rfl⟩
      · rintro ⟨c1, t1, h1, _, h3⟩
        simp at h1
        obtain ⟨rfl, rfl⟩ := h1
        exact h3
    · rw [Bool.not_eq_true] at h
      simp only [Re.run, h, Bool.false_eq_true, if_false, List.not_mem_nil, false_iff]
      rintro ⟨c1, t1, h1, h2, _⟩
      simp at h1
      obtain ⟨rfl, rfl⟩ := h1
      simp [h] at h2

theorem mem_starFrom {p : Char → Bool} {x : List Char × List Char} :
    ∀ {rest left : List Char}, x ∈ starFrom p left rest ↔
      ∃ w, (∀ c ∈ w, p c = true) ∧ rest = w ++ x.2 ∧ x.1 = w.reverse ++ left := by
  intro rest
  induction rest with
  | nil =>
    intro left
    simp only [starFrom, List.mem_singleton]
    constructor
    · rintro rfl; exact ⟨[], by simp, by simp, by simp⟩
    · rintro ⟨w, _, h2, h3⟩
      have hw : w = [] := by
        cases w with
        | nil => rfl
        | cons a b => simp at h2
      subst hw
      obtain ⟨a, b⟩ := x
      simp at h2 h3
      simp [h2, h3]
  | cons c t ih =>
    intro left
    by_cases h : p c = true
    · simp only [starFrom, h, if_true, List.mem_append, List.mem_singleton, ih]
      constructor
      · rintro (⟨w, hw, h2, h3⟩ | rfl)
        · exact ⟨c :: w, by simpa [h] using hw, by simp [h2], by simp [h3]⟩
        · exact ⟨[], by simp, by simp, by simp⟩
      · rintro ⟨w, hw, h2, h3⟩
        cases w with
        | nil =>
          right
          obtain ⟨a, b⟩ := x
          simp at h2 h3
          simp [h2, h3]
        | cons a w' =>
          left
          simp at h2
          obtain ⟨rfl, h2⟩ := h2
          exact ⟨w', fun c hc => hw c (List.mem_cons_of_mem _ hc), h2, by simpa using h3⟩
    · rw [Bool.not_eq_true] at h
      simp only [starFrom, h, Bool.false_eq_true, if_false, List.mem_singleton]
      constructor
      · rintro rfl; exact ⟨[], by simp, by simp, by simp⟩
      · rintro ⟨w, hw, h2, h3⟩
        cases w with
        | nil =>
          obtain ⟨a, b⟩ := x
          simp at h2 h3
          simp [h2, h3]
        | cons a w' =>
          simp at h2
          obtain ⟨rfl, _⟩ := h2
          have := hw c (List.mem_cons_self _ _)
          simp [h] at this

theorem mem_run_star {p : Char → Bool} {s m : MState} :
    m ∈ (Re.star p).run s ↔
      ∃ w, (∀ c ∈ w, p c = true) ∧ s.rest = w ++ m.rest ∧ m.left = w.reverse ++ s.left ∧
        m.caps = s.caps := by
  simp only [Re.run, List.mem_map, mem_starFrom]
  constructor
  · rintro ⟨x, ⟨w, hw, h2, h3⟩, rfl⟩
    exact ⟨w, hw, h2, h3, rfl⟩
  · rintro ⟨w, hw, h2, h3, h4⟩
    refine ⟨(m.left, m.rest), ⟨w, hw, h2, h3⟩, ?_⟩
    obtain ⟨a, b, c⟩ := m
    simp at h4
    simp [h4]

theorem mem_run_plus {p : Char → Bool} {s m : MState} :
    m ∈ (Re.plus p).run s ↔
      ∃ w, w ≠ [] ∧ (∀ c ∈ w, p c = true) ∧ s.rest = w ++ m.rest ∧
        m.left = w.reverse ++ s.left ∧ m.caps = s.caps := by
  obtain ⟨l, r, k⟩ := s
  cases r with
  | nil =>
    simp only [Re.run, List.not_mem_nil, false_iff]
    rintro ⟨w, hw, _, h2, _⟩
    cases w with
    | nil => exact hw rfl
    | cons a b => simp at h2
  | cons c t =>
    by_cases h : p c = true
    · simp only [Re.run, h, if_true, List.mem_map, mem_starFrom]
      constructor
      · rintro ⟨x, ⟨w, hw, h2, h3⟩, rfl⟩
        exact ⟨c :: w, by simp, by simpa [h] using hw, by simp [h2], by simp [h3], rfl⟩
      · rintro ⟨w, hne, hw, h2, h3, h4⟩
        cases w with
        | nil => exact absurd rfl hne
        | cons a w' =>
          simp at h2
          obtain ⟨rfl, h2⟩ := h2
          refine ⟨(m.left, m.rest), ⟨w', fun c hc => hw c (List.mem_cons_of_mem _ hc), h2,
            by simpa using h3⟩, ?_⟩
          obtain ⟨a, b, c⟩ := m
          simp at h4
          simp [h4]
    · rw [Bool.not_eq_true] at h
      simp only [Re.run, h, Bool.false_eq_true, if_false, List.not_mem_nil, false_iff]
      rintro ⟨w, hne, hw, h2, _⟩
      cases w with
      | nil => exact hne rfl
      | cons a w' =>
        simp at h2
        obtain ⟨rfl, _⟩ := h2
        have := hw c (List.mem_cons_self _ _)
        simp [h] at this

theorem mem_run_seq {a b : Re} {s m : MState} :
    m ∈ (Re.seq a b).run s ↔ ∃ s1, s1 ∈ a.run s ∧ m ∈ b.run s1 := by
  simp [Re.run, List.mem_flatMap]

theorem mem_run_group {i : Nat} {a : Re} {s m : MState} :
    m ∈ (Re.group i a).run s ↔
      ∃ s1, s1 ∈ a.run s ∧
        m = { s1 with caps := (i, (s1.left.take (s1.left.length - s.left.length)).reverse) :: s1.caps } := by
  simp only [Re.run, List.mem_map]
  constructor
  · rintro ⟨s1, h, rfl⟩; exact ⟨s1, h, rfl⟩
  · rintro ⟨s1, h, rfl⟩; exact ⟨s1, h, rfl⟩

theorem mem_run_alt {a b : Re} {s m : MState} :
    m ∈ (Re.alt a b).run s ↔ m ∈ a.run s ∨ m ∈ b.run s := by
  simp [Re.run]

theorem mem_run_opt {a : Re} {s m : MState} :
    m ∈ (Re.opt a).run s ↔ m ∈ a.run s ∨ m = s := by
  simp [Re.run]

theorem mem_run_wordBoundary {s m : MState} :
    m ∈ Re.wordBoundary.run s ↔
      (isWordAt s.left.head? != isWordAt s.rest.head?) = true ∧ m = s := by
  by_cases h : (isWordAt s.left.head? != isWordAt s.rest.head?) = true
  · simp [Re.run, h]
  · simp [Re.run, h]

/-- Every end state of a match lies further right in the same subject string. -/
theorem run_consumes (r : Re) : ∀ (s m : MState), m ∈ r.run s →
    ∃ w, s.rest = w ++ m.rest ∧ m.left = w.reverse ++ s.left := by
  induction r with
  | cls p =>
    intro s m h
    obtain ⟨c, t, h1, _, rfl⟩ := mem_run_cls.1 h
    exact ⟨[c], by simp [h1], by simp⟩
  | seq a b iha ihb =>
    intro s m h
    obtain ⟨s1, h1, h2⟩ := mem_run_seq.1 h
    obtain ⟨w1, e1, e2⟩ := iha s s1 h1
    obtain ⟨w2, e3, e4⟩ := ihb s1 m h2
    exact ⟨w1 ++ w2, by simp [e1, e3], by simp [e2, e4]⟩
  | alt a b iha ihb =>
    intro s m h
    rcases mem_run_alt.1 h with h | h
    · exact iha s m h
    · exact ihb s m h
  | opt a iha =>
    intro s m h
    rcases mem_run_opt.1 h with h | rfl
    · exact iha s m h
    · exact ⟨[], by simp, by simp⟩
  | star p =>
    intro s m h
    obtain ⟨w, _, e1, e2, _⟩ := mem_run_star.1 h
    exact ⟨w, e1, e2⟩
  | plus p =>
    intro s m h
    obtain ⟨w, _, _, e1, e2, _⟩ := mem_run_plus.1 h
    exact ⟨w, e1, e2⟩
  | group i a iha =>
    intro s m h
    obtain ⟨s1, h1, rfl⟩ := mem_run_group.1 h
    exact iha s s1 h1
  | wordBoundary =>
    intro s m h
    obtain ⟨_, rfl⟩ := mem_run_wordBoundary.1 h
    exact ⟨[], by simp, by simp⟩

theorem mem_run_group_text {i : Nat} {a : Re} {s m : MState} (h : m ∈ (Re.group i a).run s) :
    ∃ s1 w, s1 ∈ a.run s ∧ s.rest = w ++ s1.rest ∧ s1.left = w.reverse ++ s.left ∧
      m = ⟨s1.left, s1.rest, (i, w) :: s1.caps⟩ := by
  obtain ⟨s1, h1, rfl⟩ := mem_run_group.1 h
  obtain ⟨w, e1, e2⟩ := run_consumes a s s1 h1
  refine ⟨s1, w, h1, e1, e2, ?_⟩
  simp [e2]

theorem mem_run_lit {ch : Char} {s m : MState} :
    m ∈ (Re.lit ch).run s ↔ ∃ t, s.rest = ch :: t ∧ m = ⟨ch :: s.left, t, s.caps⟩ := by
  simp only [Re.lit, mem_run_cls]
  constructor
  · rintro ⟨c, t, h1, h2, rfl⟩
    have : c = ch := by simpa using h2
    subst this
    exact ⟨t, h1, rfl⟩
  · rintro ⟨t, h1, rfl⟩
    exact ⟨ch, t, h1, by simp, rfl⟩

theorem mem_run_litI {ch : Char} {s m : MState} :
    m ∈ (Re.litI ch).run s ↔
      ∃ c t, s.rest = c :: t ∧ (c = ch ∨ c = toUpperChar ch) ∧ m = ⟨c :: s.left, t, s.caps⟩ := by
  simp only [Re.litI, mem_run_cls]
  constructor
  · rintro ⟨c, t, h1, h2, rfl⟩
    exact ⟨c, t, h1, by simpa using h2, rfl⟩
  · rintro ⟨c, t, h1, h2, rfl⟩
    exact ⟨c, t, h1, by simpa using h2, rfl⟩

theorem mem_run_reNode {s m : MState} (h : m ∈ reNode.run s) :
    ∃ w, IsNodeText w ∧ s.rest = w ++ m.rest ∧ m.left = w.reverse ++ s.left ∧
      m.caps = (2, w) :: s.caps := by
  obtain ⟨s4, w, h1, e1, e2, rfl⟩ := mem_run_group_text h
  simp only [Re.seqs, mem_run_seq, mem_run_litI, mem_run_cls] at h1
  obtain ⟨s1, ⟨c, t, hc, hci, rfl⟩, s2, ⟨d1, t1, hd1, hp1, rfl⟩, s3, ⟨d2, t2, hd2, hp2, rfl⟩,
    d3, t3, hd3, hp3, rfl⟩ := h1
  simp only at hd1 hd2 hd3 e1 e2
  subst hd1 hd2 hd3
  have hw : w = [c, d1, d2, d3] := by
    rw [hc] at e1
    have h3 : [c, d1, d2, d3] ++ t3 = w ++ t3 := by simpa using e1
    exact (List.append_cancel_right h3).symm
  refine ⟨w, ⟨c, d1, d2, d3, hw, ?_, hp1, hp2, hp3⟩, e1, e2, rfl⟩
  rcases hci with h | h
  · exact Or.inl h
  · right; rw [h]; decide

theorem first_cls {p : Char → Bool} {l t : List Char} {c : Char} {k : List (Nat × JSString)}
    (h : p c = true) : (Re.cls p).first ⟨l, c :: t, k⟩ = some ⟨c :: l, t, k⟩ := by
  simp [Re.first, Re.run, h]

theorem first_lit {c : Char} {l t : List Char} {k : List (Nat × JSString)} :
    (Re.lit c).first ⟨l, c :: t, k⟩ = some ⟨c :: l, t, k⟩ :=
  first_cls (by simp)

theorem first_seq {a b : Re} {s s1 m : MState} (h1 : a.first s = some s1)
    (h2 : b.first s1 = some m) : (Re.seq a b).first s = some m := by
  simp only [Re.first, Re.run] at *
  cases hl : a.run s with
  | nil => simp [hl] at h1
  | cons x xs =>
    simp only [hl, List.head?_cons, Option.some.injEq] at h1
    subst h1
    cases hb : b.run x with
    | nil => simp [hb] at h2
    | cons y ys =>
      simp only [hb, List.head?_cons, Option.some.injEq] at h2
      subst h2
      simp [List.flatMap_cons, hb]

theorem first_seq_none {a b : Re} {s : MState} (h1 : a.run s = []) :
    (Re.seq a b).run s = [] := by
  simp [Re.run, h1]

theorem first_opt {a : Re} {s m : MState} (h : a.first s = some m) :
    (Re.opt a).first s = some m := by
  simp only [Re.first, Re.run] at *
  cases hl : a.run s with
  | nil => simp [hl] at h
  | cons x xs => simpa [hl] using h

theorem first_opt_skip {a : Re} {s : MState} (h : a.run s = []) :
    (Re.opt a).first s = some s := by
  simp [Re.first, Re.run, h]

theorem starFrom_head {p : Char → Bool} (w : List Char) :
    ∀ (l t : List Char), (∀ c ∈ w, p c = true) → stopsAt p t = true →
      (starFrom p l (w ++ t)).head? = some (w.reverse ++ l, t) := by
  induction w with
  | nil =>
    intro l t _ ht
    cases t with
    | nil => simp [starFrom]
    | cons c t' =>
      have : p c = false := by simpa [stopsAt] using ht
      simp [starFrom, this]
  | cons a w ih =>
    intro l t hw ht
    have ha : p a = true := hw a (List.mem_cons_self _ _)
    have ih' := ih (a :: l) t (fun c hc => hw c (List.mem_cons_of_mem _ hc)) ht
    simp only [List.cons_append, starFrom, ha, if_true]
    cases hs : starFrom p (a :: l) (w ++ t) with
    | nil => simp [hs] at ih'
    | cons x xs =>
      simp only [hs, List.head?_cons, Option.some.injEq] at ih'
      subst ih'
      simp

theorem first_star {p : Char → Bool} {l t : List Char} {k : List (Nat × JSString)}
    (w : List Char) (hw : ∀ c ∈ w, p c = true) (ht : stopsAt p t = true) :
    (Re.star p).first ⟨l, w ++ t, k⟩ = some ⟨w.reverse ++ l, t, k⟩ := by
  have := starFrom_head w l t hw ht
  simp only [Re.first, Re.run]
  cases hs : starFrom p l (w ++ t) with
  | nil => simp [hs] at this
  | cons x xs =>
    simp only [hs, List.head?_cons, Option.some.injEq] at this
    subst this
    simp

theorem first_plus {p : Char → Bool} {l t : List Char} {k : List (Nat × JSString)}
    (w : List Char) (hne : w ≠ []) (hw : ∀ c ∈ w, p c = true) (ht : stopsAt p t = true) :
    (Re.plus p).first ⟨l, w ++ t, k⟩ = some ⟨w.reverse ++ l, t, k⟩ := by
  cases w with
  | nil => exact absurd rfl hne
  | cons a w =>
    have ha : p a = true := hw a (List.mem_cons_self _ _)
    have := starFrom_head w (a :: l) t (fun c hc => hw c (List.mem_cons_of_mem _ hc)) ht
    simp only [Re.first, Re.run, List.cons_append, ha, if_true]
    cases hs : starFrom p (a :: l) (w ++ t) with
    | nil => simp [hs] at this
    | cons x xs =>
      simp only [hs, List.head?_cons, Option.some.injEq] at this
      subst this
      simp

theorem first_group {i : Nat} {a : Re} {l l1 t t1 : List Char} {k cs1 : List (Nat × JSString)}
    (w : List Char) (h : a.first ⟨l, t, k⟩ = some ⟨l1, t1, cs1⟩) (hl : l1 = w.reverse ++ l) :
    (Re.group i a).first ⟨l, t, k⟩ = some ⟨l1, t1, (i, w) :: cs1⟩ := by
  simp only [Re.first, Re.run] at *
  cases hr : a.run ⟨l, t, k⟩ with
  | nil => simp [hr] at h
  | cons x xs =>
    simp only [hr, List.head?_cons, Option.some.injEq] at h
    subst h
    subst hl
    simp

theorem run_plus_nil {p : Char → Bool} {l t : List Char} {k : List (Nat × JSString)}
    (h : stopsAt p t = true) : (Re.plus p).run ⟨l, t, k⟩ = [] := by
  cases t with
  | nil => simp [Re.run]
  | cons c t =>
    have : p c = false := by simpa [stopsAt] using h
    simp [Re.run, this]

theorem run_cls_nil {p : Char → Bool} {l t : List Char} {k : List (Nat × JSString)}
    (h : stopsAt p t = true) : (Re.cls p).run ⟨l, t, k⟩ = [] := by
  cases t with
  | nil => simp [Re.run]
  | cons c t =>
    have : p c = false := by simpa [stopsAt] using h
    simp [Re.run, this]

theorem matchAt_rest_le {r : Re} {l t : List Char} {m : MState} (h : r.matchAt l t = some m) :
    ∃ w, t = w ++ m.rest ∧ m.left = w.reverse ++ l := by
  have hm : m ∈ r.run ⟨l, t, []⟩ := List.mem_of_mem_head? (by simpa [Re.matchAt] using h)
  exact run_consumes r _ _ hm

theorem replaceAux_fuel (r : Re) (rep : JSString) :
    ∀ (fuel : Nat) (l t : List Char), t.length + 1 ≤ fuel →
      r.replaceAux rep fuel l t = r.replaceFrom rep l t := by
  intro fuel
  induction fuel using Nat.strong_induction_on with
  | _ fuel ih =>
    intro l t hf
    cases fuel with
    | zero => omega
    | succ n =>
      cases t with
      | nil => simp [Re.replaceFrom, Re.replaceAux]
      | cons c t =>
        simp only [Re.replaceFrom, Re.replaceAux, List.length_cons]
        cases hm : r.matchAt l (c :: t) with
        | none =>
          simp only
          rw [ih n (by omega) (c :: l) t (by simpa using hf),
            ih (t.length + 1) (by simp at hf; omega) (c :: l) t (by omega)]
        | some m =>
          obtain ⟨w, hw, _⟩ := matchAt_rest_le hm
          have hlen : m.rest.length ≤ t.length + 1 := by
            have := congrArg List.length hw
            simp at this
            omega
          simp only
          by_cases hlt : m.rest.length < t.length + 1
          · simp only [hlt, if_true]
            rw [ih n (by omega) m.left m.rest (by simp at hf; omega),
              ih (t.length + 1) (by simp at hf; omega) m.left m.rest (by omega)]
          · simp only [hlt, if_false]
            rw [ih n (by omega) (c :: l) t (by simpa using hf),
              ih (t.length + 1) (by simp at hf; omega) (c :: l) t (by omega)]

theorem replaceAll_eq (r : Re) (rep text : JSString) :
    r.replaceAll rep text = r.replaceFrom rep [] text := rfl

theorem replaceFrom_nil (r : Re) (rep : JSString) (l : List Char) (h : r.matchAt l [] = none) :
    r.replaceFrom rep l [] = [] := by
  simp [Re.replaceFrom, Re.replaceAux, h]

theorem replaceFrom_cons_none (r : Re) (rep : JSString) (l t : List Char) (c : Char)
    (h : r.matchAt l (c :: t) = none) :
    r.replaceFrom rep l (c :: t) = c :: r.replaceFrom rep (c :: l) t := by
  simp only [Re.replaceFrom, Re.replaceAux, List.length_cons, h]

theorem replaceFrom_cons_some (r : Re) (rep : JSString) (l t : List Char) (c : Char)
    (m : MState) (h : r.matchAt l (c :: t) = some m) (hlt : m.rest.length < (c :: t).length) :
    r.replaceFrom rep l (c :: t) = rep ++ r.replaceFrom rep m.left m.rest := by
  simp only [Re.replaceFrom, Re.replaceAux, h, hlt, if_true]
  rw [replaceAux_fuel r rep _ _ _ (by simp only [List.length_cons] at hlt ⊢; omega)]
  rfl

theorem replaceFrom_cons_empty (r : Re) (rep : JSString) (l t : List Char) (c : Char)
    (m : MState) (h : r.matchAt l (c :: t) = some m) (hlt : ¬ m.rest.length < (c :: t).length) :
    r.replaceFrom rep l (c :: t) = rep ++ c :: r.replaceFrom rep (c :: l) t := by
  simp only [Re.replaceFrom, Re.replaceAux, h, hlt, if_false]
  rw [replaceAux_fuel r rep _ _ _ (by simp)]
  rfl

theorem startsWith_cls (p : Char → Bool) : (Re.cls p).StartsWith p := by
  intro s m h
  obtain ⟨c, t, h1, h2, _⟩ := mem_run_cls.1 h
  exact ⟨c, t, h1, h2⟩

theorem startsWith_plus (p : Char → Bool) : (Re.plus p).StartsWith p := by
  intro s m h
  obtain ⟨w, hne, hw, h1, _⟩ := mem_run_plus.1 h
  cases w with
  | nil => exact absurd rfl hne
  | cons a w => exact ⟨a, w ++ m.rest, by simpa using h1, hw a (List.mem_cons_self _ _)⟩

theorem startsWith_seq {a : Re} {P : Char → Bool} (b : Re) (h : a.StartsWith P) :
    (Re.seq a b).StartsWith P := by
  intro s m hm
  obtain ⟨s1, h1, _⟩ := mem_run_seq.1 hm
  exact h s s1 h1

theorem startsWith_group {a : Re} {P : Char → Bool} (i : Nat) (h : a.StartsWith P) :
    (Re.group i a).StartsWith P := by
  intro s m hm
  obtain ⟨s1, h1, _⟩ := mem_run_group.1 hm
  exact h s s1 h1

theorem startsWith_wordBoundary_seq {b : Re} {P : Char → Bool} (h : b.StartsWith P) :
    (Re.seq .wordBoundary b).StartsWith P := by
  intro s m hm
  obtain ⟨s1, h1, h2⟩ := mem_run_seq.1 hm
  obtain ⟨_, rfl⟩ := mem_run_wordBoundary.1 h1
  exact h _ m h2

theorem matchAt_none_of_startsWith {r : Re} {P : Char → Bool} (h : r.StartsWith P)
    (l t : List Char) (ht : stopsAt P t = true) : r.matchAt l t = none := by
  cases hm : r.matchAt l t with
  | none => rfl
  | some m =>
    have hmem : m ∈ r.run ⟨l, t, []⟩ := List.mem_of_mem_head? (by simpa [Re.matchAt] using hm)
    obtain ⟨c, t', h1, h2⟩ := h _ _ hmem
    simp only at h1
    subst h1
    simp [stopsAt, h2] at ht

theorem replaceFrom_skip {r : Re} {P : Char → Bool} (h : r.StartsWith P) (rep : JSString)
    (a : List Char) : ∀ (l b : List Char), (∀ c ∈ a, P c = false) →
      r.replaceFrom rep l (a ++ b) = a ++ r.replaceFrom rep (a.reverse ++ l) b := by
  induction a with
  | nil => intro l b _; simp
  | cons c a ih =>
    intro l b ha
    have hc : P c = false := ha c (List.mem_cons_self _ _)
    rw [List.cons_append, replaceFrom_cons_none r rep l (a ++ b) c
      (matchAt_none_of_startsWith h l _ (by simp [stopsAt, hc])),
      ih (c :: l) b (fun x hx => ha x (List.mem_cons_of_mem _ hx))]
    simp

theorem replaceFrom_id {r : Re} {P : Char → Bool} (h : r.StartsWith P) (rep : JSString)
    (l a : List Char) (ha : ∀ c ∈ a, P c = false) : r.replaceFrom rep l a = a := by
  have := replaceFrom_skip h rep a l [] ha
  rw [List.append_nil] at this
  rw [this, replaceFrom_nil r rep _ (matchAt_none_of_startsWith h _ [] rfl)]
  simp

theorem searchFrom_cons_none {r : Re} {l : List Char} {c : Char} {t : List Char}
    (h : r.matchAt l (c :: t) = none) : r.searchFrom l (c :: t) = r.searchFrom (c :: l) t := by
  simp [Re.searchFrom, h]

theorem searchFrom_skip {r : Re} {P : Char → Bool} (h : r.StartsWith P)
    (a : List Char) : ∀ (l b : List Char), (∀ x ∈ a, P x = false) →
      r.searchFrom l (a ++ b) = r.searchFrom (a.reverse ++ l) b := by
  induction a with
  | nil => intro l b _; simp
  | cons x a ih =>
    intro l b ha
    have hx : P x = false := ha x (List.mem_cons_self _ _)
    rw [List.cons_append,
      searchFrom_cons_none (matchAt_none_of_startsWith h l _ (by simp [stopsAt, hx])),
      ih (x :: l) b (fun y hy => ha y (List.mem_cons_of_mem _ hy))]
    simp

theorem searchFrom_here {r : Re} {l : List Char} {c : Char} {t : List Char} {m : MState}
    (h : r.matchAt l (c :: t) = some m) : r.searchFrom l (c :: t) = some m := by
  simp [Re.searchFrom, h]

theorem searchFrom_some {r : Re} {m : MState} : ∀ (t l : List Char),
    r.searchFrom l t = some m → ∃ l1 t1, t1 <:+ t ∧ m ∈ r.run ⟨l1, t1, []⟩ := by
  intro t
  induction t with
  | nil =>
    intro l h
    exact ⟨l, [], List.suffix_refl _,
      List.mem_of_mem_head? (by simpa [Re.searchFrom, Re.matchAt] using h)⟩
  | cons c t ih =>
    intro l h
    simp only [Re.searchFrom] at h
    cases hm : r.matchAt l (c :: t) with
    | some m1 =>
      simp only [hm, Option.some.injEq] at h
      subst h
      exact ⟨l, c :: t, List.suffix_refl _,
        List.mem_of_mem_head? (by simpa [Re.matchAt] using hm)⟩
    | none =>
      simp only [hm] at h
      obtain ⟨l1, t1, hs, hmem⟩ := ih (c :: l) h
      exact ⟨l1, t1, hs.trans (List.suffix_cons c t), hmem⟩

theorem searchFrom_none {r : Re} {Q : List Char → Prop}
    (hr : ∀ s m, m ∈ r.run s → Q s.rest) (t l : List Char)
    (hq : ∀ t1, t1 <:+ t → ¬ Q t1) : r.searchFrom l t = none := by
  cases h : r.searchFrom l t with
  | none => rfl
  | some m =>
    obtain ⟨l1, t1, hs, hmem⟩ := searchFrom_some t l h
    exact absurd (hr _ _ hmem) (hq t1 hs)

theorem replaceFrom_rewrites (r : Re) (rep : JSString) :
    ∀ (n : Nat) (t l : List Char), t.length ≤ n → Rewrites rep t (r.replaceFrom rep l t) := by
  intro n
  induction n with
  | zero =>
    intro t l ht
    have : t = [] := List.eq_nil_of_length_eq_zero (by omega)
    subst this
    cases hm : r.matchAt l [] with
    | none => rw [replaceFrom_nil r rep l hm]; exact .nil
    | some m =>
      have : r.replaceFrom rep l [] = rep ++ [] := by
        simp [Re.replaceFrom, Re.replaceAux, hm]
      rw [this]
      exact .chunk [] .nil
  | succ n ih =>
    intro t l ht
    cases t with
    | nil => exact ih [] l (by simp)
    | cons c t =>
      have ht' : t.length ≤ n := by simpa using ht
      cases hm : r.matchAt l (c :: t) with
      | none =>
        rw [replaceFrom_cons_none r rep l t c hm]
        exact .keep c (ih t _ ht')
      | some m =>
        by_cases hlt : m.rest.length < (c :: t).length
        · rw [replaceFrom_cons_some r rep l t c m hm hlt]
          obtain ⟨w, hw, _⟩ := matchAt_rest_le hm
          rw [hw]
          exact .chunk w (ih m.rest _ (by simp at hlt; omega))
        · rw [replaceFrom_cons_empty r rep l t c m hm hlt]
          exact .chunk [] (.keep c (ih t _ ht'))

theorem mem_run_lit' {ch : Char} {s m : MState} (h : m ∈ (Re.lit ch).run s) :
    s.rest = ch :: m.rest ∧ m.left = ch :: s.left ∧ m.caps = s.caps := by
  obtain ⟨t, h1, rfl⟩ := mem_run_lit.1 h
  exact ⟨h1, rfl, rfl⟩

theorem mem_run_digits {s m : MState} (h : m ∈ (Re.plus isDigit).run s) :
    ∃ g, IsDigits g ∧ s.rest = g ++ m.rest ∧ m.left = g.reverse ++ s.left ∧ m.caps = s.caps := by
  obtain ⟨w, hne, hw, h1, h2, h3⟩ := mem_run_plus.1 h
  exact ⟨w, ⟨hne, hw⟩, h1, h2, h3⟩

theorem mem_run_reVersion {s m : MState} (h : m ∈ reVersion.run s) :
    ∃ v, IsVersionText v ∧ s.rest = v ++ m.rest ∧ m.left = v.reverse ++ s.left ∧
      m.caps = (1, v) :: s.caps := by
  obtain ⟨s6, w, h1, e1, e2, rfl⟩ := mem_run_group_text h
  simp only [Re.seqs, mem_run_seq] at h1
  obtain ⟨s1, hs1, s2, hs2, s3, hs3, s4, hs4, s5, hs5, hs6⟩ := h1
  obtain ⟨g1, hg1, a1, b1, c1⟩ := mem_run_digits hs1
  obtain ⟨a2, b2, c2⟩ := mem_run_lit' hs2
  obtain ⟨g2, hg2, a3, b3, c3⟩ := mem_run_digits hs3
  obtain ⟨a4, b4, c4⟩ := mem_run_lit' hs4
  obtain ⟨g3, hg3, a5, b5, c5⟩ := mem_run_digits hs5
  rcases mem_run_opt.1 hs6 with hs6 | rfl
  · obtain ⟨s7, hs7, hs8⟩ := mem_run_seq.1 hs6
    obtain ⟨a6, b6, c6⟩ := mem_run_lit' hs7
    obtain ⟨g4, hg4, a7, b7, c7⟩ := mem_run_digits hs8
    have hrest : s.rest = (g1 ++ '.' :: (g2 ++ '.' :: (g3 ++ '.' :: g4))) ++ s6.rest := by
      rw [a1, a2, a3, a4, a5, a6, a7]; simp
    have hw : w = g1 ++ '.' :: (g2 ++ '.' :: (g3 ++ '.' :: g4)) :=
      List.append_cancel_right (e1.symm.trans hrest)
    refine ⟨w, ⟨g1, g2, g3, hg1, hg2, hg3, Or.inr ⟨g4, hg4, hw⟩⟩, e1, e2, ?_⟩
    simp [c7, c6, c5, c4, c3, c2, c1]
  · have hrest : s.rest = (g1 ++ '.' :: (g2 ++ '.' :: g3)) ++ s6.rest := by
      rw [a1, a2, a3, a4, a5]; simp
    have hw : w = g1 ++ '.' :: (g2 ++ '.' :: g3) :=
      List.append_cancel_right (e1.symm.trans hrest)
    refine ⟨w, ⟨g1, g2, g3, hg1, hg2, hg3, Or.inl hw⟩, e1, e2, ?_⟩
    simp [c5, c4, c3, c2, c1]

/-- The match data of the secondary expression: version, dash and node id, with optional
white space around the dash. -/
theorem mem_run_rePartial {s m : MState} (h : m ∈ rePartial.run s) :
    ∃ v ws1 d ws2 n, IsVersionText v ∧ (∀ c ∈ ws1, isSpace c = true) ∧ isDash d = true ∧
      (∀ c ∈ ws2, isSpace c = true) ∧ IsNodeText n ∧
      s.rest = v ++ (ws1 ++ d :: (ws2 ++ (n ++ m.rest))) ∧
      m.left = (v ++ (ws1 ++ d :: (ws2 ++ n))).reverse ++ s.left ∧
      m.caps = (2, n) :: (1, v) :: s.caps := by
  simp only [rePartial, Re.seqs, mem_run_seq] at h
  obtain ⟨s1, hs1, s2, hs2, s3, hs3, s4, hs4, hs5⟩ := h
  obtain ⟨v, hv, a1, b1, c1⟩ := mem_run_reVersion hs1
  obtain ⟨ws1, hws1, a2, b2, c2⟩ := mem_run_star.1 hs2
  obtain ⟨d, t, a3, hd, rfl⟩ := mem_run_cls.1 hs3
  obtain ⟨ws2, hws2, a4, b4, c4⟩ := mem_run_star.1 hs4
  obtain ⟨n, hn, a5, b5, c5⟩ := mem_run_reNode hs5
  refine ⟨v, ws1, d, ws2, n, hv, hws1, hd, hws2, hn, ?_, ?_, ?_⟩
  · rw [a1, a2, a3]; simp only at a4; rw [a4, a5]
  · rw [b5, b4, b2, b1]; simp
  · rw [c5, c4]; simp [c2, c1]

theorem mem_run_rePartial_text {s m : MState} (h : m ∈ rePartial.run s) :
    ∃ v n w, IsVersionText v ∧ IsNodeText n ∧ IsPartialMatch v n w ∧
      s.rest = w ++ m.rest ∧ m.left = w.reverse ++ s.left ∧
      m.caps = (2, n) :: (1, v) :: s.caps := by
  obtain ⟨v, ws1, d, ws2, n, hv, h1, hd, h2, hn, e1, e2, e3⟩ := mem_run_rePartial h
  exact ⟨v, n, _, hv, hn, ⟨ws1, d, ws2, h1, hd, h2, rfl⟩, by rw [e1]; simp, e2, e3⟩

theorem mem_run_reFull {s m : MState} (h : m ∈ reFull.run s) :
    ∃ v n t w, IsVersionText v ∧ IsNodeText n ∧ IsDigits t ∧ IsFullMatch v n t w ∧
      s.rest = w ++ m.rest ∧ m.left = w.reverse ++ s.left ∧
      m.caps = (3, t) :: (2, n) :: (1, v) :: s.caps := by
  simp only [reFull, Re.seqs, mem_run_seq] at h
  obtain ⟨s1, hs1, s2, hs2, s3, hs3, s4, hs4, s5, hs5, s6, hs6, s7, hs7, s8, hs8, s9, hs9,
    s10, hs10, s11, hs11, hs12⟩ := h
  have hp : s5 ∈ rePartial.run s := by
    simp only [rePartial, Re.seqs, mem_run_seq]
    exact ⟨s1, hs1, s2, hs2, s3, hs3, s4, hs4, hs5⟩
  obtain ⟨v, n, w1, hv, hn, hw1, a5, b5, c5⟩ := mem_run_rePartial_text hp
  obtain ⟨ws3, hws3, a6, b6, c6⟩ := mem_run_star.1 hs6
  obtain ⟨a7, b7, c7⟩ := mem_run_lit' hs7
  obtain ⟨ws4, hws4, a8, b8, c8⟩ := mem_run_star.1 hs8
  obtain ⟨s9', t, hs9', a9, b9, rfl⟩ := mem_run_group_text hs9
  obtain ⟨g, hg, a9', _, c9'⟩ := mem_run_digits hs9'
  have ht : t = g := List.append_cancel_right (a9.symm.trans a9')
  subst ht
  obtain ⟨ws5, hws5, a10, b10, c10⟩ := mem_run_star.1 hs10
  obtain ⟨c1, t11, a11, hc1, rfl⟩ := mem_run_litI.1 hs11
  obtain ⟨c2, t12, a12, hc2, rfl⟩ := mem_run_litI.1 hs12
  simp only at a10 b10 c10 a11 a12
  refine ⟨v, n, t, _, hv, hn, hg, ⟨w1, ws3, ws4, ws5, c1, c2, hw1, hws3, hws4, hws5, ?_, ?_, rfl⟩,
    ?_, ?_, ?_⟩
  · rcases hc1 with h | h
    · exact Or.inl h
    · right; rw [h]; decide
  · rcases hc2 with h | h
    · exact Or.inl h
    · right; rw [h]; decide
  · rw [a5, a6, a7, a8, a9, a10, a11, a12]; simp
  · rw [b10, b9, b8, b7, b6, b5]; simp
  · rw [c10]; simp [c9', c8, c7, c6, c5]

theorem mem_run_reFallback {s m : MState} (h : m ∈ reFallback.run s) :
    ∃ n, IsKnownNodeText n ∧ s.rest = n ++ m.rest ∧ m.left = n.reverse ++ s.left ∧
      m.caps = (1, n) :: s.caps ∧ isWordAt s.left.head? = false ∧
      isWordAt m.rest.head? = false := by
  simp only [reFallback, Re.seqs, mem_run_seq] at h
  obtain ⟨s1, hs1, s2, hs2, hs3⟩ := h
  obtain ⟨hb1, rfl⟩ := mem_run_wordBoundary.1 hs1
  obtain ⟨hb2, rfl⟩ := mem_run_wordBoundary.1 hs3
  obtain ⟨s3, n, hin, a1, b1, rfl⟩ := mem_run_group_text hs2
  simp only at hb2
  simp only [mem_run_seq] at hin
  obtain ⟨s4, hs4, s5, hs5, hs6⟩ := hin
  obtain ⟨c, t4, a4, hc, rfl⟩ := mem_run_litI.1 hs4
  obtain ⟨a5, b5, c5⟩ := mem_run_lit' hs5
  simp only at a5 b5 c5
  have hc' : c = 'i' ∨ c = 'I' := by
    rcases hc with h | h
    · exact Or.inl h
    · right; rw [h]; decide
  have key : ∃ x, (x = '7' ∨ x = '8' ∨ x = '9') ∧ s5.rest = '6' :: x :: s3.rest ∧
      s3.left = x :: '6' :: s5.left ∧ s3.caps = s5.caps := by
    rcases mem_run_alt.1 hs6 with h | h
    · obtain ⟨s6, h6, h7⟩ := mem_run_seq.1 h
      obtain ⟨a6, b6, c6⟩ := mem_run_lit' h6
      obtain ⟨a7, b7, c7⟩ := mem_run_lit' h7
      exact ⟨'7', Or.inl rfl, by rw [a6, a7], by rw [b7, b6], by rw [c7, c6]⟩
    · rcases mem_run_alt.1 h with h | h
      · obtain ⟨s6, h6, h7⟩ := mem_run_seq.1 h
        obtain ⟨a6, b6, c6⟩ := mem_run_lit' h6
        obtain ⟨a7, b7, c7⟩ := mem_run_lit' h7
        exact ⟨'8', Or.inr (Or.inl rfl), by rw [a6, a7], by rw [b7, b6], by rw [c7, c6]⟩
      · obtain ⟨s6, h6, h7⟩ := mem_run_seq.1 h
        obtain ⟨a6, b6, c6⟩ := mem_run_lit' h6
        obtain ⟨a7, b7, c7⟩ := mem_run_lit' h7
        exact ⟨'9', Or.inr (Or.inr rfl), by rw [a6, a7], by rw [b7, b6], by rw [c7, c6]⟩
  obtain ⟨x, hx, a6, b6, c6⟩ := key
  have hrest : s1.rest = [c, '0', '6', x] ++ s3.rest := by rw [a4, a5, a6]; rfl
  have hn : n = [c, '0', '6', x] := List.append_cancel_right (a1.symm.trans hrest)
  have hw : isWordAt s1.rest.head? = true := by
    rw [a4]
    rcases hc' with h | h <;> subst h <;> simp only [List.head?_cons, isWordAt] <;> decide
  have hl : isWordAt s1.left.head? = false := by
    rw [hw] at hb1
    cases h : isWordAt s1.left.head? with
    | false => rfl
    | true => simp [h] at hb1
  have hw2 : isWordAt s3.left.head? = true := by
    rw [b6]
    rcases hx with h | h | h <;> subst h <;> simp only [List.head?_cons, isWordAt] <;> decide
  have hr : isWordAt s3.rest.head? = false := by
    rw [hw2] at hb2
    cases h : isWordAt s3.rest.head? with
    | false => rfl
    | true => simp [h] at hb2
  refine ⟨n, ⟨c, x, hc', hx, hn⟩, a1, b1, ?_, hl, hr⟩
  simp [c6, c5]

theorem startsWith_lit (c : Char) : (Re.lit c).StartsWith (fun x => x == c) :=
  startsWith_cls _

theorem startsWith_reTag : reTag.StartsWith (fun x => x == '<') :=
  startsWith_seq _ (startsWith_lit '<')

theorem startsWith_reNbsp : reNbsp.StartsWith (fun x => x == '&') :=
  startsWith_seq _ (startsWith_lit '&')

theorem startsWith_reAmp : reAmp.StartsWith (fun x => x == '&') :=
  startsWith_seq _ (startsWith_lit '&')

theorem startsWith_reNumEntity : reNumEntity.StartsWith (fun x => x == '&') :=
  startsWith_seq _ (startsWith_lit '&')

theorem startsWith_reSpaces : reSpaces.StartsWith isSpace :=
  startsWith_plus _

theorem startsWith_reVersion : reVersion.StartsWith isDigit :=
  startsWith_group 1 (startsWith_seq _ (startsWith_plus _))

theorem startsWith_reFull : reFull.StartsWith isDigit :=
  startsWith_seq _ startsWith_reVersion

theorem startsWith_rePartial : rePartial.StartsWith isDigit :=
  startsWith_seq _ startsWith_reVersion

theorem startsWith_reFallback : reFallback.StartsWith isLetterI := by
  intro s m h
  obtain ⟨n, ⟨c, x, hc, _, rfl⟩, h1, _⟩ := mem_run_reFallback h
  refine ⟨c, _, h1, ?_⟩
  rcases hc with h | h <;> subst h <;> decide

theorem rewrites_mem {rep : JSString} {s out : List Char} (h : Rewrites rep s out) :
    ∀ c ∈ out, c ∈ s ∨ c ∈ rep := by
  induction h with
  | nil => intro c hc; simp at hc
  | keep a _ ih =>
    intro c hc
    rcases List.mem_cons.1 hc with rfl | hc
    · exact Or.inl (List.mem_cons_self _ _)
    · rcases ih c hc with h | h
      · exact Or.inl (List.mem_cons_of_mem _ h)
      · exact Or.inr h
  | chunk w _ ih =>
    intro c hc
    rcases List.mem_append.1 hc with hc | hc
    · exact Or.inr hc
    · rcases ih c hc with h | h
      · exact Or.inl (List.mem_append_right _ h)
      · exact Or.inr h

theorem replaceAll_rewrites (r : Re) (rep text : JSString) :
    Rewrites rep text (r.replaceAll rep text) :=
  replaceFrom_rewrites r rep text.length text [] (Nat.le_refl _)

theorem containsNodeText_append_left (a : List Char) {b : List Char}
    (h : containsNodeText b = true) : containsNodeText (a ++ b) = true := by
  induction a with
  | nil => simpa using h
  | cons c a ih => simp [containsNodeText, ih]

theorem containsNodeText_of_suffix {a b : List Char} (hs : a <:+ b)
    (h : containsNodeText a = true) : containsNodeText b = true := by
  obtain ⟨p, rfl⟩ := hs
  exact containsNodeText_append_left p h

theorem containsNodeText_of_node {n t : List Char} (hn : IsNodeText n) :
    containsNodeText (n ++ t) = true := by
  obtain ⟨c, d1, d2, d3, rfl, hc, h1, h2, h3⟩ := hn
  have : isLetterI c = true := by rcases hc with h | h <;> subst h <;> decide
  simp [containsNodeText, startsWithNodeText, this, h1, h2, h3]

theorem rewrites_digit_head {x d : Char} {s o : List Char} (hx : isDigit x = false)
    (hd : isDigit d = true) (h : Rewrites [x] s (d :: o)) :
    ∃ s1, s = d :: s1 ∧ Rewrites [x] s1 o := by
  generalize hout : d :: o = out at h
  cases h with
  | nil => simp at hout
  | keep c h1 =>
    simp only [List.cons.injEq] at hout
    obtain ⟨rfl, rfl⟩ := hout
    exact ⟨_, rfl, h1⟩
  | chunk w h1 =>
    simp only [List.singleton_append, List.cons.injEq] at hout
    obtain ⟨rfl, _⟩ := hout
    rw [hd] at hx
    exact absurd hx (by simp)

theorem rewrites_containsNodeText {x : Char} (hx : isDigit x = false)
    (hi : isLetterI x = false) {s out : List Char} (h : Rewrites [x] s out) :
    containsNodeText out = true → containsNodeText s = true := by
  induction h with
  | nil => intro h; exact h
  | @keep c s out h1 ih =>
    intro hc
    simp only [containsNodeText, Bool.or_eq_true] at hc ⊢
    rcases hc with hc | hc
    · left
      match out, h1, hc with
      | d1 :: d2 :: d3 :: o, h1, hc =>
        simp only [startsWithNodeText, Bool.and_eq_true] at hc
        obtain ⟨⟨⟨hci, hd1⟩, hd2⟩, hd3⟩ := hc
        obtain ⟨s1, rfl, h2⟩ := rewrites_digit_head hx hd1 h1
        obtain ⟨s2, rfl, h3⟩ := rewrites_digit_head hx hd2 h2
        obtain ⟨s3, rfl, _⟩ := rewrites_digit_head hx hd3 h3
        simp [startsWithNodeText, hci, hd1, hd2, hd3]
      | [], _, hc => simp [startsWithNodeText] at hc
      | [_], _, hc => simp [startsWithNodeText] at hc
      | [_, _], _, hc => simp [startsWithNodeText] at hc
    · exact Or.inr (ih hc)
  | @chunk w s out h1 ih =>
    intro hc0
    have hc : containsNodeText (x :: out) = true := hc0
    simp only [containsNodeText, Bool.or_eq_true] at hc
    rcases hc with hc | hc
    · have : startsWithNodeText (x :: out) = false := by
        match out with
        | d1 :: d2 :: d3 :: o => simp [startsWithNodeText, hi]
        | [] => simp [startsWithNodeText]
        | [_] => simp [startsWithNodeText]
        | [_, _] => simp [startsWithNodeText]
      rw [this] at hc
      exact absurd hc (by simp)
    · exact containsNodeText_append_left w (ih hc)

/-- The normalisation does not create a node id: one in the normalised text was in the
input. -/
theorem containsNodeText_normalize (html : JSString)
    (h : containsNodeText (normalize html) = true) : containsNodeText html = true := by
  unfold normalize at h
  have h5 := rewrites_containsNodeText (x := ' ') (by decide) (by decide)
    (replaceAll_rewrites reSpaces _ _) h
  have h4 := rewrites_containsNodeText (x := ' ') (by decide) (by decide)
    (replaceAll_rewrites reNumEntity _ _) h5
  have h3 := rewrites_containsNodeText (x := '&') (by decide) (by decide)
    (replaceAll_rewrites reAmp _ _) h4
  have h2 := rewrites_containsNodeText (x := ' ') (by decide) (by decide)
    (replaceAll_rewrites reNbsp _ _) h3
  exact rewrites_containsNodeText (x := ' ') (by decide) (by decide)
    (replaceAll_rewrites reTag _ _) h2

theorem exec_some_mem {r : Re} {text : JSString} {m : MState} (h : r.exec text = some m) :
    ∃ l1 t1, t1 <:+ text ∧ m ∈ r.run ⟨l1, t1, []⟩ :=
  searchFrom_some text [] h

/-- The four ways `parseFooter` ends. -/
theorem parseFooter_cases (html : JSString) :
    (∃ m, reFull.exec (normalize html) = some m ∧
      parseFooter html = some ⟨some (m.cap 1), toLowerCase (m.cap 2),
        some (parseInt (m.cap 3))⟩) ∨
    (reFull.exec (normalize html) = none ∧ ∃ m, rePartial.exec (normalize html) = some m ∧
      parseFooter html = some ⟨some (m.cap 1), toLowerCase (m.cap 2), none⟩) ∨
    (reFull.exec (normalize html) = none ∧ rePartial.exec (normalize html) = none ∧
      ∃ m, reFallback.exec (normalize html) = some m ∧
        parseFooter html = some ⟨none, toLowerCase (m.cap 1), none⟩) ∨
    (reFull.exec (normalize html) = none ∧ rePartial.exec (normalize html) = none ∧
      reFallback.exec (normalize html) = none ∧ parseFooter html = none) := by
  unfold parseFooter
  cases h1 : reFull.exec (normalize html) with
  | some m => exact Or.inl ⟨m, rfl, by simp [h1]⟩
  | none =>
    cases h2 : rePartial.exec (normalize html) with
    | some m => exact Or.inr (Or.inl ⟨rfl, m, rfl, by simp [h1, h2]⟩)
    | none =>
      cases h3 : reFallback.exec (normalize html) with
      | some m => exact Or.inr (Or.inr (Or.inl ⟨rfl, rfl, m, rfl, by simp [h1, h2, h3]⟩))
      | none => exact Or.inr (Or.inr (Or.inr ⟨rfl, rfl, rfl, by simp [h1, h2, h3]⟩))

theorem containsNodeText_of_partial {v n w : List Char} (t : List Char)
    (hn : IsNodeText n) (hw : IsPartialMatch v n w) : containsNodeText (w ++ t) = true := by
  obtain ⟨ws1, d, ws2, _, _, _, rfl⟩ := hw
  have h1 : (v ++ (ws1 ++ d :: (ws2 ++ n))) ++ t = (v ++ (ws1 ++ d :: ws2)) ++ (n ++ t) := by
    simp
  rw [h1]
  exact containsNodeText_append_left _ (containsNodeText_of_node hn)

theorem containsNodeText_of_full {v n t w : List Char} (u : List Char)
    (hn : IsNodeText n) (hw : IsFullMatch v n t w) : containsNodeText (w ++ u) = true := by
  obtain ⟨w1, ws3, ws4, ws5, c1, c2, hw1, _, _, _, _, _, rfl⟩ := hw
  rw [List.append_assoc]
  exact containsNodeText_of_partial _ hn hw1

theorem containsNodeText_of_known {n t : List Char} (hn : IsKnownNodeText n) :
    containsNodeText (n ++ t) = true := by
  obtain ⟨c, x, hc, hx, rfl⟩ := hn
  have h1 : isLetterI c = true := by rcases hc with h | h <;> subst h <;> decide
  have h2 : isDigit x = true := by rcases hx with h | h | h <;> subst h <;> decide
  have h3 : isDigit '0' = true := by decide
  have h4 : isDigit '6' = true := by decide
  simp [containsNodeText, startsWithNodeText, h1, h2, h3, h4]

theorem exec_none_of_no_node {r : Re} (text : JSString)
    (hr : ∀ s m, m ∈ r.run s → containsNodeText s.rest = true)
    (h : containsNodeText text = false) : r.exec text = none := by
  refine searchFrom_none (Q := fun t => containsNodeText t = true) hr text [] ?_
  intro t1 hs hc
  rw [containsNodeText_of_suffix hs hc] at h
  exact absurd h (by simp)

theorem reFull_needs_node (s m : MState) (h : m ∈ reFull.run s) :
    containsNodeText s.rest = true := by
  obtain ⟨v, n, t, w, _, hn, _, hw, e, _⟩ := mem_run_reFull h
  rw [e]
  exact containsNodeText_of_full _ hn hw

theorem rePartial_needs_node (s m : MState) (h : m ∈ rePartial.run s) :
    containsNodeText s.rest = true := by
  obtain ⟨v, n, w, _, hn, hw, e, _⟩ := mem_run_rePartial_text h
  rw [e]
  exact containsNodeText_of_partial _ hn hw

theorem reFallback_needs_node (s m : MState) (h : m ∈ reFallback.run s) :
    containsNodeText s.rest = true := by
  obtain ⟨n, hn, e, _⟩ := mem_run_reFallback h
  rw [e]
  exact containsNodeText_of_known hn

theorem toLowerChar_digit {d : Char} (h : isDigit d = true) : toLowerChar d = d := by
  simp only [isDigit, Bool.and_eq_true, decide_eq_true_eq] at h
  simp only [toLowerChar]
  rw [if_neg]
  omega

theorem toLowerCase_node {n : List Char} (hn : IsNodeText n) :
    ∃ d1 d2 d3, toLowerCase n = ['i', d1, d2, d3] ∧ isDigit d1 = true ∧ isDigit d2 = true ∧
      isDigit d3 = true := by
  obtain ⟨c, d1, d2, d3, rfl, hc, h1, h2, h3⟩ := hn
  refine ⟨d1, d2, d3, ?_, h1, h2, h3⟩
  have : toLowerChar c = 'i' := by rcases hc with h | h <;> subst h <;> decide
  simp [toLowerCase, this, toLowerChar_digit h1, toLowerChar_digit h2, toLowerChar_digit h3]

theorem cap_of_caps3 {m : MState} {a b c : JSString} (h : m.caps = [(3, a), (2, b), (1, c)]) :
    m.cap 1 = c ∧ m.cap 2 = b ∧ m.cap 3 = a := by
  simp [MState.cap, h, List.lookup]

theorem cap_of_caps2 {m : MState} {b c : JSString} (h : m.caps = [(2, b), (1, c)]) :
    m.cap 1 = c ∧ m.cap 2 = b := by
  simp [MState.cap, h, List.lookup]

theorem cap_of_caps1 {m : MState} {c : JSString} (h : m.caps = [(1, c)]) :
    m.cap 1 = c := by
  simp [MState.cap, h, List.lookup]

/-- Every node id returned by `parseFooter` is an `i` followed by three digits. -/
theorem parseFooter_nodeShortId {html : JSString} {p : Parsed} (h : parseFooter html = some p) :
    ∃ d1 d2 d3, p.nodeShortId = ['i', d1, d2, d3] ∧ isDigit d1 = true ∧ isDigit d2 = true ∧
      isDigit d3 = true := by
  rcases parseFooter_cases html with ⟨m, hm, hp⟩ | ⟨_, m, hm, hp⟩ | ⟨_, _, m, hm, hp⟩ |
    ⟨_, _, _, hp⟩
  · obtain ⟨l1, t1, _, hmem⟩ := exec_some_mem hm
    obtain ⟨v, n, t, w, _, hn, _, _, _, _, hc⟩ := mem_run_reFull hmem
    obtain ⟨_, h2, _⟩ := cap_of_caps3 hc
    rw [hp] at h
    cases h
    simp only [h2]
    exact toLowerCase_node hn
  · obtain ⟨l1, t1, _, hmem⟩ := exec_some_mem hm
    obtain ⟨v, n, w, _, hn, _, _, _, hc⟩ := mem_run_rePartial_text hmem
    obtain ⟨_, h2⟩ := cap_of_caps2 hc
    rw [hp] at h
    cases h
    simp only [h2]
    exact toLowerCase_node hn
  · obtain ⟨l1, t1, _, hmem⟩ := exec_some_mem hm
    obtain ⟨n, ⟨c, x, hc, hx, rfl⟩, _, _, hcaps, _⟩ := mem_run_reFallback hmem
    have h1 := cap_of_caps1 hcaps
    rw [hp] at h
    cases h
    simp only [h1]
    exact toLowerCase_node ⟨c, '0', '6', x, rfl, hc, by decide, by decide,
      by rcases hx with h | h | h <;> subst h <;> decide⟩
  · rw [hp] at h
    cases h

theorem parseFooter_nodeShortId_ne_nil {html : JSString} {p : Parsed}
    (h : parseFooter html = some p) : p.nodeShortId ≠ [] := by
  obtain ⟨d1, d2, d3, hp, _⟩ := parseFooter_nodeShortId h
  simp [hp]

theorem lookup_setProp_same (key : JSString) (v : Json) (props : List (JSString × Json)) :
    (setProp key v props).lookup key = some v := by
  induction props with
  | nil => simp [setProp, List.lookup]
  | cons kv rest ih =>
    obtain ⟨k, w⟩ := kv
    by_cases hk : k = key
    · subst hk; simp [setProp, List.lookup]
    · have hk' : (k == key) = false := by simpa using hk
      have hk'' : (key == k) = false := by simpa using fun h => hk h.symm
      simp [setProp, hk', List.lookup, hk'', ih]

theorem lookup_setProp_other (key key' : JSString) (v : Json) (props : List (JSString × Json))
    (hne : key' ≠ key) : (setProp key v props).lookup key' = props.lookup key' := by
  induction props with
  | nil =>
    have : (key' == key) = false := by simpa using hne
    simp [setProp, List.lookup, this]
  | cons kv rest ih =>
    obtain ⟨k, w⟩ := kv
    by_cases hk : k = key
    · subst hk
      have : (key' == k) = false := by simpa using hne
      simp [setProp, List.lookup, this]
    · have hk' : (k == key) = false := by simpa using hk
      simp only [setProp, hk', List.lookup]
      cases h : (key' == k) <;> simp [ih]

theorem records?_eq_some {j : Json} {items : List Json} (h : j.records? = some items) :
    ∃ props, j = .obj props ∧ props.lookup keyRecords = some (.arr items) := by
  cases j with
  | obj props =>
    refine ⟨props, rfl, ?_⟩
    simp only [Json.records?] at h
    cases hl : props.lookup keyRecords with
    | none => rw [hl] at h; cases h
    | some v =>
      rw [hl] at h
      cases v with
      | arr l => cases h; rfl
      | null => cases h
      | bool b => cases h
      | num n => cases h
      | str s => cases h
      | obj o => cases h
  | null => cases h
  | bool b => cases h
  | num n => cases h
  | str s => cases h
  | arr l => cases h

theorem records?_saved (timestamp : JSString) (items : List Json)
    (props : List (JSString × Json)) :
    (Json.obj (setProp keyLastUpdated (.str timestamp)
      (setProp keyRecords (.arr items) props))).records? = some items := by
  simp only [Json.records?]
  rw [lookup_setProp_other _ _ _ _ (by decide), lookup_setProp_same]

theorem writtenItems_eq_map (items : List Json) :
    writtenItems items = items.map Json.written := by
  induction items with
  | nil => rfl
  | cons j rest ih => simp only [writtenItems, List.map_cons, ih]

theorem lookup_writtenProps (key : JSString) (props : List (JSString × Json)) :
    (writtenProps props).lookup key = (props.lookup key).map Json.written := by
  induction props with
  | nil => rfl
  | cons kv rest ih =>
    obtain ⟨k, v⟩ := kv
    simp only [writtenProps, List.lookup]
    cases key == k with
    | true => rfl
    | false => exact ih

/-- The `records` array of a document as it is written. -/
theorem records?_written (j : Json) :
    j.written.records? = j.records?.map (List.map Json.written) := by
  cases j with
  | obj props =>
    simp only [Json.written, Json.records?, lookup_writtenProps]
    cases props.lookup keyRecords with
    | none => rfl
    | some v =>
      cases v with
      | arr l => simp [Json.written, writtenItems_eq_map]
      | null => rfl
      | bool b => rfl
      | num x => cases hx : x.written <;> simp [Json.written, hx]
      | str s => rfl
      | obj o => rfl
  | null => rfl
  | bool b => rfl
  | num x => cases hx : x.written <;> simp [Json.written, Json.records?, hx]
  | str s => rfl
  | arr l => rfl

theorem number_written_of_isKept {x : JSNumber} (h : x.isKept = true) :
    x.written = some x := by
  cases x with
  | int n =>
    simp only [JSNumber.isKept] at h
    simp [JSNumber.written, h]
  | negZero => cases h
  | negInfinity => cases h
  | other negative m e => rfl

mutual
/-- A value without a Number that is infinite or negative zero is written as it is. -/
theorem written_of_isKept : ∀ (j : Json), j.isKept = true → j.written = j
  | .null, _ => rfl
  | .bool _, _ => rfl
  | .str _, _ => rfl
  | .num x, h => by
    simp only [Json.isKept] at h
    simp only [Json.written, number_written_of_isKept h]
  | .arr items, h => by
    simp only [Json.isKept] at h
    simp only [Json.written, writtenItems_of_isKept items h]
  | .obj props, h => by
    simp only [Json.isKept] at h
    simp only [Json.written, writtenProps_of_isKept props h]
/-- An array of such values is written as it is. -/
theorem writtenItems_of_isKept : ∀ (l : List Json), isKeptItems l = true → writtenItems l = l
  | [], _ => rfl
  | j :: rest, h => by
    simp only [isKeptItems, Bool.and_eq_true] at h
    simp only [writtenItems, written_of_isKept j h.1, writtenItems_of_isKept rest h.2]
/-- The properties of an object with such values are written as they are. -/
theorem writtenProps_of_isKept : ∀ (l : List (JSString × Json)), isKeptProps l = true →
    writtenProps l = l
  | [], _ => rfl
  | (k, v) :: rest, h => by
    simp only [isKeptProps, Bool.and_eq_true] at h
    simp only [writtenProps, written_of_isKept v h.1, writtenProps_of_isKept rest h.2]
end

theorem map_written_of_isKept (items : List Json) (h : ∀ j ∈ items, j.isKept = true) :
    items.map Json.written = items := by
  induction items with
  | nil => rfl
  | cons j rest ih =>
    simp only [List.map_cons]
    rw [written_of_isKept j (h j (List.mem_cons_self _ _)),
      ih (fun x hx => h x (List.mem_cons_of_mem _ hx))]

/-- A record as `Record.toJson` writes it holds no Number that is infinite or negative
zero. -/
theorem toJson_isKept (r : Record) : (Record.toJson r).isKept = true := by
  have h1 : ∀ o, (optStr o).isKept = true := by intro o; cases o <;> rfl
  have h2 : r.status.toJson.isKept = true := by cases r.status <;> rfl
  have h3 : (match r.responseTimeMs with
      | none => Json.null
      | some n => if n.isFinite then .num (.int n) else .null).isKept = true := by
    cases r.responseTimeMs with
    | none => rfl
    | some n => by_cases hf : n.isFinite = true <;> simp [Json.isKept, JSNumber.isKept, hf]
  simp only [Record.toJson, Json.isKept, isKeptProps, h1, h2, h3, Bool.and_self]

/-- One run on a document with a `records` array completes: it pushes the probed record,
with its failover flag, after the stored records, and the file then holds the stored
records as they are written, followed by the new record. -/
theorem main_of_records (timestamp : JSString) (fetched : FetchOutcome) (file : HistoryFile)
    (items : List Json) (h : (readHistory file).records? = some items) :
    ∃ file1, main timestamp fetched file =
        .ok (withFailover items.getLast? (probe (initialRecord timestamp) fetched), file1) ∧
      (readHistory file1).records? = some (items.map Json.written ++
        [(withFailover items.getLast? (probe (initialRecord timestamp) fetched)).toJson]) := by
  obtain ⟨props, hj, hl⟩ := records?_eq_some h
  refine ⟨writeHistory (.obj (setProp keyLastUpdated (.str timestamp)
    (setProp keyRecords (.arr (items ++
      [(withFailover items.getLast? (probe (initialRecord timestamp) fetched)).toJson]))
        props))), ?_, ?_⟩
  · simp only [main, hj, appendRecord, hl, withFailover]
  · simp only [writeHistory, readHistory]
    rw [records?_written, records?_saved]
    simp only [Option.map_some', List.map_append, List.map_cons, List.map_nil]
    rw [written_of_isKept _ (toJson_isKept _)]

/-- A run that completes found a `records` array in the document. -/
theorem main_ok_records {timestamp : JSString} {fetched : FetchOutcome} {file : HistoryFile}
    {record : Record} {file1 : HistoryFile}
    (h : main timestamp fetched file = .ok (record, file1)) :
    ∃ items, (readHistory file).records? = some items := by
  simp only [main] at h
  cases hj : readHistory file with
  | obj props =>
    rw [hj] at h
    simp only [appendRecord] at h
    simp only [Json.records?]
    cases hl : props.lookup keyRecords with
    | none => rw [hl] at h; cases h
    | some v =>
      rw [hl] at h
      cases v with
      | arr l => exact ⟨l, rfl⟩
      | null => cases h
      | bool b => cases h
      | num n => cases h
      | str s => cases h
      | obj o => cases h
  | null => rw [hj] at h; cases h
  | bool b => rw [hj] at h; cases h
  | num n => rw [hj] at h; cases h
  | str s => rw [hj] at h; cases h
  | arr l => rw [hj] at h; cases h

theorem appendedRecord_eq_some {timestamp : JSString} {fetched : FetchOutcome}
    {file : HistoryFile} {record : Record}
    (h : appendedRecord timestamp fetched file = some record) :
    ∃ prev, record = withFailover prev (probe (initialRecord timestamp) fetched) := by
  simp only [appendedRecord] at h
  cases hm : main timestamp fetched file with
  | error e => simp [hm] at h
  | ok v =>
    obtain ⟨r, f⟩ := v
    simp only [hm, Option.some.injEq] at h
    subst h
    obtain ⟨items, hi⟩ := main_ok_records hm
    obtain ⟨file1, h1, _⟩ := main_of_records timestamp fetched file items hi
    rw [hm] at h1
    simp only [Except.ok.injEq, Prod.mk.injEq] at h1
    exact ⟨items.getLast?, h1.1⟩

theorem withFailover_fields (prev : Option Json) (record : Record) :
    (withFailover prev record).status = record.status ∧
    (withFailover prev record).nodeShortId = record.nodeShortId ∧
    (withFailover prev record).nodeLabel = record.nodeLabel ∧
    (withFailover prev record).nodeHost = record.nodeHost ∧
    (withFailover prev record).version = record.version ∧
    (withFailover prev record).responseTimeMs = record.responseTimeMs ∧
    (withFailover prev record).error = record.error ∧
    (withFailover prev record).timestamp = record.timestamp := by
  unfold withFailover
  split <;> simp

theorem probe_failover (timestamp : JSString) (fetched : FetchOutcome) :
    (probe (initialRecord timestamp) fetched).failover = false := by
  cases fetched with
  | failed m => rfl
  | body html =>
    simp only [probe]
    cases parseFooter html <;> rfl

theorem probe_timestamp (timestamp : JSString) (fetched : FetchOutcome) :
    (probe (initialRecord timestamp) fetched).timestamp = timestamp := by
  cases fetched with
  | failed m => rfl
  | body html =>
    simp only [probe]
    cases parseFooter html <;> rfl

theorem probe_nodeShortId_ne_nil {timestamp : JSString} {fetched : FetchOutcome}
    {b : JSString} (h : (probe (initialRecord timestamp) fetched).nodeShortId = some b) :
    b ≠ [] := by
  cases fetched with
  | failed m => simp [probe, initialRecord] at h
  | body html =>
    simp only [probe] at h
    cases hp : parseFooter html with
    | none => simp [hp, initialRecord] at h
    | some p =>
      simp only [hp, Option.some.injEq] at h
      subst h
      exact parseFooter_nodeShortId_ne_nil hp

theorem stopsAt_cons {p : Char → Bool} {c : Char} (t : List Char) (h : p c = false) :
    stopsAt p (c :: t) = true := by
  simp [stopsAt, h]

theorem stopsAt_append {p : Char → Bool} {a b : List Char} (ha : ∀ c ∈ a, p c = false)
    (hb : stopsAt p b = true) : stopsAt p (a ++ b) = true := by
  cases a with
  | nil => simpa using hb
  | cons c a => simp [stopsAt, ha c (List.mem_cons_self _ _)]

theorem stopsAt_append_ne {p : Char → Bool} {a : List Char} (b : List Char) (hne : a ≠ [])
    (ha : ∀ c ∈ a, p c = false) : stopsAt p (a ++ b) = true := by
  cases a with
  | nil => exact absurd rfl hne
  | cons c a => simp [stopsAt, ha c (List.mem_cons_self _ _)]

theorem isDigit_not_space {c : Char} (h : isSpace c = true) : isDigit c = false := by
  simp only [isSpace, Bool.or_eq_true, Bool.and_eq_true, decide_eq_true_eq] at h
  simp only [isDigit, Bool.and_eq_false_iff, decide_eq_false_iff_not]
  omega

theorem isDigit_not_dash {c : Char} (h : isDash c = true) : isDigit c = false := by
  simp only [isDash, Bool.or_eq_true, decide_eq_true_eq] at h
  simp only [isDigit, Bool.and_eq_false_iff, decide_eq_false_iff_not]
  omega

theorem isSpace_not_dash {c : Char} (h : isDash c = true) : isSpace c = false := by
  simp only [isDash, Bool.or_eq_true, decide_eq_true_eq] at h
  simp only [isSpace, Bool.or_eq_false_iff, Bool.and_eq_false_iff, decide_eq_false_iff_not]
  omega

theorem isSpace_not_digit {c : Char} (h : isDigit c = true) : isSpace c = false := by
  cases hs : isSpace c with
  | false => rfl
  | true => rw [isDigit_not_space hs] at h; cases h

theorem ne_dot_of_digit {c : Char} (h : isDigit c = true) : (c == '.') = false := by
  cases hc : c == '.' with
  | false => rfl
  | true =>
    have : c = '.' := by simpa using hc
    subst this
    exact absurd h (by decide)

theorem ne_dot_of_space {c : Char} (h : isSpace c = true) : (c == '.') = false := by
  cases hc : c == '.' with
  | false => rfl
  | true =>
    have : c = '.' := by simpa using hc
    subst this
    exact absurd h (by decide)

theorem ne_dot_of_dash {c : Char} (h : isDash c = true) : (c == '.') = false := by
  cases hc : c == '.' with
  | false => rfl
  | true =>
    have : c = '.' := by simpa using hc
    subst this
    exact absurd h (by decide)

theorem stopsAt_digit_of_version {t : List Char} (h : stopsAt isVersionChar t = true) :
    stopsAt isDigit t = true := by
  cases t with
  | nil => rfl
  | cons c t =>
    simp only [stopsAt, isVersionChar, Bool.not_eq_true', Bool.or_eq_false_iff] at h ⊢
    exact h.1

theorem run_dot_nil {t l : List Char} {k : List (Nat × JSString)}
    (h : stopsAt isVersionChar t = true) : (Re.lit '.').run ⟨l, t, k⟩ = [] := by
  apply run_cls_nil
  cases t with
  | nil => rfl
  | cons c t =>
    simp only [stopsAt, isVersionChar, Bool.not_eq_true', Bool.or_eq_false_iff] at h ⊢
    exact h.2

/-- The version group matches a version in full, first, when the text after it starts
with neither a digit nor a dot. -/
theorem first_reVersion {v t l : List Char} {k : List (Nat × JSString)}
    (hv : IsVersionText v) (ht : stopsAt isVersionChar t = true) :
    reVersion.first ⟨l, v ++ t, k⟩ = some ⟨v.reverse ++ l, t, (1, v) :: k⟩ := by
  obtain ⟨g1, g2, g3, ⟨n1, d1⟩, ⟨n2, d2⟩, ⟨n3, d3⟩, hv⟩ := hv
  have hdot : isDigit '.' = false := by decide
  unfold reVersion
  apply first_group v _ rfl
  simp only [Re.seqs]
  rcases hv with rfl | ⟨g4, ⟨n4, d4⟩, rfl⟩
  · have e : (g1 ++ '.' :: (g2 ++ '.' :: g3)) ++ t = g1 ++ ('.' :: (g2 ++ ('.' :: (g3 ++ t)))) := by
      simp
    rw [e]
    refine first_seq (first_plus g1 n1 d1 (stopsAt_cons _ hdot)) ?_
    refine first_seq first_lit ?_
    refine first_seq (first_plus g2 n2 d2 (stopsAt_cons _ hdot)) ?_
    refine first_seq first_lit ?_
    refine first_seq (first_plus g3 n3 d3 (stopsAt_digit_of_version ht)) ?_
    rw [first_opt_skip (first_seq_none (run_dot_nil ht))]
    simp
  · have e : (g1 ++ '.' :: (g2 ++ '.' :: (g3 ++ '.' :: g4))) ++ t =
        g1 ++ ('.' :: (g2 ++ ('.' :: (g3 ++ ('.' :: (g4 ++ t)))))) := by
      simp
    rw [e]
    refine first_seq (first_plus g1 n1 d1 (stopsAt_cons _ hdot)) ?_
    refine first_seq first_lit ?_
    refine first_seq (first_plus g2 n2 d2 (stopsAt_cons _ hdot)) ?_
    refine first_seq first_lit ?_
    refine first_seq (first_plus g3 n3 d3 (stopsAt_cons _ hdot)) ?_
    refine first_opt ?_
    refine first_seq first_lit ?_
    rw [first_plus g4 n4 d4 (stopsAt_digit_of_version ht)]
    simp

theorem first_litI {c x : Char} {l t : List Char} {k : List (Nat × JSString)}
    (h : x = c ∨ x = toUpperChar c) : (Re.litI c).first ⟨l, x :: t, k⟩ = some ⟨x :: l, t, k⟩ :=
  first_cls (by simpa using h)

theorem first_reNode {n t l : List Char} {k : List (Nat × JSString)} (hn : IsNodeText n) :
    reNode.first ⟨l, n ++ t, k⟩ = some ⟨n.reverse ++ l, t, (2, n) :: k⟩ := by
  obtain ⟨c, d1, d2, d3, rfl, hc, h1, h2, h3⟩ := hn
  unfold reNode
  apply first_group [c, d1, d2, d3] _ rfl
  simp only [Re.seqs]
  have hc' : c = 'i' ∨ c = toUpperChar 'i' := by
    rcases hc with h | h
    · exact Or.inl h
    · right; rw [h]; decide
  refine first_seq (first_litI hc') ?_
  refine first_seq (first_cls h1) ?_
  refine first_seq (first_cls h2) ?_
  refine (first_cls h3).trans ?_
  simp

/-- The secondary expression matches the text of a version-dash-node match in full,
first. -/
theorem first_rePartial {v n w t l : List Char} {k : List (Nat × JSString)}
    (hv : IsVersionText v) (hn : IsNodeText n) (hw : IsPartialMatch v n w) :
    rePartial.first ⟨l, w ++ t, k⟩ = some ⟨w.reverse ++ l, t, (2, n) :: (1, v) :: k⟩ := by
  obtain ⟨ws1, d, ws2, h1, hd, h2, rfl⟩ := hw
  obtain ⟨c, x1, x2, x3, rfl, hc, hx1, hx2, hx3⟩ := hn
  have hci : isSpace c = false := by rcases hc with h | h <;> subst h <;> decide
  have e : (v ++ (ws1 ++ d :: (ws2 ++ [c, x1, x2, x3]))) ++ t =
      v ++ (ws1 ++ (d :: (ws2 ++ ([c, x1, x2, x3] ++ t)))) := by simp
  rw [e]
  unfold rePartial
  simp only [Re.seqs]
  have hstop : stopsAt isVersionChar (ws1 ++ (d :: (ws2 ++ ([c, x1, x2, x3] ++ t)))) = true := by
    apply stopsAt_append
    · intro a ha
      simp [isVersionChar, isDigit_not_space (h1 a ha), ne_dot_of_space (h1 a ha)]
    · simp [stopsAt, isVersionChar, isDigit_not_dash hd, ne_dot_of_dash hd]
  refine first_seq (first_reVersion hv hstop) ?_
  refine first_seq (first_star ws1 h1 (stopsAt_cons _ (isSpace_not_dash hd))) ?_
  refine first_seq (first_cls hd) ?_
  refine first_seq (first_star ws2 h2 (by simp [stopsAt, hci])) ?_
  refine (first_reNode ⟨c, x1, x2, x3, rfl, hc, hx1, hx2, hx3⟩).trans ?_
  simp

/-- The primary expression matches the text of a full match in full, first. -/
theorem first_reFull {v n u w t l : List Char} {k : List (Nat × JSString)}
    (hv : IsVersionText v) (hn : IsNodeText n) (hu : IsDigits u) (hw : IsFullMatch v n u w) :
    reFull.first ⟨l, w ++ t, k⟩ =
      some ⟨w.reverse ++ l, t, (3, u) :: (2, n) :: (1, v) :: k⟩ := by
  obtain ⟨w1, ws3, ws4, ws5, c1, c2, hw1, h3, h4, h5, hc1, hc2, rfl⟩ := hw
  obtain ⟨nu, du⟩ := hu
  have hp := first_rePartial (t := ws3 ++ ('|' :: (ws4 ++ (u ++ (ws5 ++ (c1 :: c2 :: t))))))
    (l := l) (k := k) hv hn hw1
  have e : (w1 ++ (ws3 ++ '|' :: (ws4 ++ (u ++ (ws5 ++ [c1, c2]))))) ++ t =
      w1 ++ (ws3 ++ ('|' :: (ws4 ++ (u ++ (ws5 ++ (c1 :: c2 :: t)))))) := by simp
  rw [e]
  have hsplit : reFull.first ⟨l, w1 ++ (ws3 ++ ('|' :: (ws4 ++ (u ++ (ws5 ++ (c1 :: c2 :: t)))))),
      k⟩ = (Re.seq rePartial (Re.seqs [.star isSpace, .lit '|', .star isSpace,
        .group 3 (.plus isDigit), .star isSpace, .litI 'm', .litI 's'])).first
        ⟨l, w1 ++ (ws3 ++ ('|' :: (ws4 ++ (u ++ (ws5 ++ (c1 :: c2 :: t)))))), k⟩ := by
    simp only [Re.first, reFull, rePartial, Re.seqs, Re.run, List.flatMap_assoc]
  rw [hsplit]
  refine first_seq hp ?_
  simp only [Re.seqs]
  have hc1s : isSpace c1 = false := by rcases hc1 with h | h <;> subst h <;> decide
  have hc1d : isDigit c1 = false := by rcases hc1 with h | h <;> subst h <;> decide
  have hc1' : c1 = 'm' ∨ c1 = toUpperChar 'm' := by
    rcases hc1 with h | h
    · exact Or.inl h
    · right; rw [h]; decide
  have hc2' : c2 = 's' ∨ c2 = toUpperChar 's' := by
    rcases hc2 with h | h
    · exact Or.inl h
    · right; rw [h]; decide
  refine first_seq (first_star ws3 h3 (stopsAt_cons _ (by decide))) ?_
  refine first_seq first_lit ?_
  refine first_seq (first_star ws4 h4
    (stopsAt_append_ne _ nu (fun a ha => isSpace_not_digit (du a ha)))) ?_
  refine first_seq (first_group u (first_plus u nu du
    (stopsAt_append (fun a ha => isDigit_not_space (h5 a ha)) (stopsAt_cons _ hc1d))) rfl) ?_
  refine first_seq (first_star ws5 h5 (stopsAt_cons _ hc1s)) ?_
  refine first_seq (first_litI hc1') ?_
  refine (first_litI hc2').trans ?_
  simp

theorem span_split (p : Char → Bool) (a : List Char) :
    ∃ w a1, a = w ++ a1 ∧ (∀ c ∈ w, p c = true) ∧ stopsAt p a1 = true := by
  induction a with
  | nil => exact ⟨[], [], rfl, by simp, rfl⟩
  | cons c a ih =>
    by_cases hc : p c = true
    · obtain ⟨w, a1, rfl, hw, hs⟩ := ih
      exact ⟨c :: w, a1, rfl, by simpa [hc] using hw, hs⟩
    · exact ⟨[], c :: a, rfl, by simp, by simpa [stopsAt] using hc⟩

theorem stopsAt_reverse_snoc {p : Char → Bool} {a : List Char} {c : Char}
    (h : stopsAt p (c :: a).reverse = true) : stopsAt p a.reverse = true := by
  cases hr : a.reverse with
  | nil => rfl
  | cons x y =>
    simp only [List.reverse_cons, hr, List.cons_append] at h
    simpa [stopsAt] using h

theorem stopsAt_reverse_append {p : Char → Bool} {w a : List Char}
    (h : stopsAt p (w ++ a).reverse = true) : stopsAt p a.reverse = true := by
  cases hr : a.reverse with
  | nil => rfl
  | cons x y =>
    simp only [List.reverse_append, hr, List.cons_append] at h
    simpa [stopsAt] using h

theorem matchAt_reSpaces {c : Char} {w t l : List Char} (hc : isSpace c = true)
    (hw : ∀ x ∈ w, isSpace x = true) (ht : stopsAt isSpace t = true) :
    reSpaces.matchAt l (c :: (w ++ t)) = some ⟨(c :: w).reverse ++ l, t, []⟩ := by
  have := first_plus (l := l) (t := t) (k := []) (c :: w) (by simp)
    (by simpa [hc] using hw) ht
  simpa [Re.first, Re.matchAt, reSpaces] using this

/-- The white-space pass works on the two sides of a point next to a character that is
not white space independently. -/
theorem replaceFrom_reSpaces_append (rep : JSString) :
    ∀ (n : Nat) (a : List Char), a.length ≤ n → ∀ (l b : List Char),
      (stopsAt isSpace b = true ∨ stopsAt isSpace a.reverse = true) →
      reSpaces.replaceFrom rep l (a ++ b) =
        reSpaces.replaceFrom rep l a ++ reSpaces.replaceFrom rep (a.reverse ++ l) b := by
  intro n
  induction n with
  | zero =>
    intro a ha l b _
    have : a = [] := List.eq_nil_of_length_eq_zero (by omega)
    subst this
    rw [replaceFrom_nil _ _ _ (matchAt_none_of_startsWith startsWith_reSpaces _ [] rfl)]
    simp
  | succ n ih =>
    intro a ha l b hab
    cases a with
    | nil =>
      rw [replaceFrom_nil _ _ _ (matchAt_none_of_startsWith startsWith_reSpaces _ [] rfl)]
      simp
    | cons c a1 =>
      have ha1 : a1.length ≤ n := by simpa using ha
      by_cases hc : isSpace c = true
      · obtain ⟨w, a2, rfl, hw, hs⟩ := span_split isSpace a1
        have hstop : stopsAt isSpace (a2 ++ b) = true := by
          cases a2 with
          | nil =>
            rcases hab with h | h
            · simpa using h
            · exfalso
              have hall : ∀ x ∈ (c :: (w ++ [])).reverse, isSpace x = true := by
                intro x hx
                simp only [List.append_nil, List.mem_reverse, List.mem_cons] at hx
                rcases hx with rfl | hx
                · exact hc
                · exact hw x hx
              cases hr : (c :: (w ++ [])).reverse with
              | nil => simp at hr
              | cons x y =>
                rw [hr] at h hall
                have := hall x (List.mem_cons_self _ _)
                simp [stopsAt, this] at h
          | cons x y => simpa [stopsAt] using hs
        have e1 : (c :: (w ++ a2)) ++ b = c :: (w ++ (a2 ++ b)) := by simp
        rw [e1, replaceFrom_cons_some _ _ _ _ _ _ (matchAt_reSpaces hc hw hstop)
            (by simp; omega),
          replaceFrom_cons_some _ _ _ _ _ _ (matchAt_reSpaces hc hw hs) (by simp; omega)]
        simp only
        rw [ih a2 (by simp at ha1; omega) _ b
          (hab.imp id (fun h => by
            have h' : stopsAt isSpace ((c :: w) ++ a2).reverse = true := by simpa using h
            exact stopsAt_reverse_append h'))]
        simp
      · have hc' : isSpace c = false := by simpa using hc
        rw [List.cons_append, replaceFrom_cons_none _ _ _ _ _
            (matchAt_none_of_startsWith startsWith_reSpaces _ _ (stopsAt_cons _ hc')),
          replaceFrom_cons_none _ _ _ _ _
            (matchAt_none_of_startsWith startsWith_reSpaces _ _ (stopsAt_cons _ hc')),
          ih a1 ha1 _ b (hab.imp id stopsAt_reverse_snoc)]
        simp

theorem replaceAll_reSpaces_append (rep : JSString) (a b : List Char) (l : List Char)
    (h : stopsAt isSpace b = true ∨ stopsAt isSpace a.reverse = true) :
    reSpaces.replaceFrom rep l (a ++ b) =
      reSpaces.replaceFrom rep l a ++ reSpaces.replaceFrom rep (a.reverse ++ l) b :=
  replaceFrom_reSpaces_append rep a.length a (Nat.le_refl _) l b h

/-- The normalisation leaves a text without `<`, `&` and white space as it is. -/
theorem normalize_id (text : JSString)
    (h : ∀ c ∈ text, (c == '<') = false ∧ (c == '&') = false ∧ isSpace c = false) :
    normalize text = text := by
  unfold normalize
  simp only [replaceAll_eq]
  rw [replaceFrom_id startsWith_reTag _ _ _ (fun c hc => (h c hc).1),
    replaceFrom_id startsWith_reNbsp _ _ _ (fun c hc => (h c hc).2.1),
    replaceFrom_id startsWith_reAmp _ _ _ (fun c hc => (h c hc).2.1),
    replaceFrom_id startsWith_reNumEntity _ _ _ (fun c hc => (h c hc).2.1),
    replaceFrom_id startsWith_reSpaces _ _ _ (fun c hc => (h c hc).2.2)]

theorem searchFrom_of_first {r : Re} {l t : List Char} {m : MState}
    (h : r.first ⟨l, t, []⟩ = some m) : r.searchFrom l t = some m := by
  cases t with
  | nil => exact h
  | cons c t => exact searchFrom_here h

theorem isNodeText_of_known {n : List Char} (h : IsKnownNodeText n) : IsNodeText n := by
  obtain ⟨c, x, hc, hx, rfl⟩ := h
  exact ⟨c, '0', '6', x, rfl, hc, by decide, by decide,
    by rcases hx with h | h | h <;> subst h <;> decide⟩

theorem reFull_needs_pipe (s m : MState) (h : m ∈ reFull.run s) : '|' ∈ s.rest := by
  obtain ⟨v, n, t, w, _, _, _, ⟨w1, ws3, ws4, ws5, c1, c2, _, _, _, _, _, _, rfl⟩, e, _⟩ :=
    mem_run_reFull h
  rw [e]
  simp

theorem rePartial_needs_dash (s m : MState) (h : m ∈ rePartial.run s) :
    ∃ d ∈ s.rest, isDash d = true := by
  obtain ⟨v, n, w, _, _, ⟨ws1, d, ws2, _, hd, _, rfl⟩, e, _⟩ := mem_run_rePartial_text h
  refine ⟨d, ?_, hd⟩
  rw [e]
  simp

theorem reFull_needs_dash (s m : MState) (h : m ∈ reFull.run s) :
    ∃ d ∈ s.rest, isDash d = true := by
  obtain ⟨v, n, t, w, _, _, _, ⟨w1, ws3, ws4, ws5, c1, c2, ⟨ws1, d, ws2, _, hd, _, rfl⟩,
    _, _, _, _, _, rfl⟩, e, _⟩ := mem_run_reFull h
  refine ⟨d, ?_, hd⟩
  rw [e]
  simp

theorem exec_none_of_no_pipe (text : JSString) (h : '|' ∉ text) : reFull.exec text = none := by
  refine searchFrom_none (Q := fun t => '|' ∈ t) reFull_needs_pipe text [] ?_
  intro t1 hs hc
  exact h (hs.subset hc)

theorem exec_none_of_no_dash {r : Re} (text : JSString)
    (hr : ∀ s m, m ∈ r.run s → ∃ d ∈ s.rest, isDash d = true)
    (h : ∀ c ∈ text, isDash c = false) : r.exec text = none := by
  refine searchFrom_none (Q := fun t => ∃ d ∈ t, isDash d = true) hr text [] ?_
  rintro t1 hs ⟨d, hd, hdd⟩
  rw [h d (hs.subset hd)] at hdd
  cases hdd

theorem version_chars {v : List Char} (hv : IsVersionText v) :
    ∀ c ∈ v, isVersionChar c = true := by
  obtain ⟨g1, g2, g3, ⟨_, d1⟩, ⟨_, d2⟩, ⟨_, d3⟩, hv⟩ := hv
  intro c hc
  rcases hv with rfl | ⟨g4, ⟨_, d4⟩, rfl⟩
  · simp only [List.mem_append, List.mem_cons] at hc
    rcases hc with h | rfl | h | rfl | h
    · simp [isVersionChar, d1 c h]
    · decide
    · simp [isVersionChar, d2 c h]
    · decide
    · simp [isVersionChar, d3 c h]
  · simp only [List.mem_append, List.mem_cons] at hc
    rcases hc with h | rfl | h | rfl | h | rfl | h
    · simp [isVersionChar, d1 c h]
    · decide
    · simp [isVersionChar, d2 c h]
    · decide
    · simp [isVersionChar, d3 c h]
    · decide
    · simp [isVersionChar, d4 c h]

theorem isPlainChar_of_version {c : Char} (h : isVersionChar c = true) :
    isPlainChar c = true := by
  simp only [isVersionChar, Bool.or_eq_true, beq_iff_eq] at h
  rcases h with h | rfl
  · simp only [isDigit, Bool.and_eq_true, decide_eq_true_eq] at h
    have h1 : (c == '<') = false := by
      cases hc : c == '<' with
      | false => rfl
      | true =>
        have : c = '<' := by simpa using hc
        subst this
        exact absurd h.2 (by decide)
    have h2 : (c == '&') = false := by
      cases hc : c == '&' with
      | false => rfl
      | true =>
        have : c = '&' := by simpa using hc
        subst this
        exact absurd h.1 (by decide)
    have h3 : isSpace c = false := isSpace_not_digit (by simp [isDigit, h.1, h.2])
    simp [isPlainChar, h1, h2, h3]
  · decide

theorem isPlainChar_of_known {n : List Char} (hn : IsKnownNodeText n) :
    ∀ c ∈ n, isPlainChar c = true := by
  obtain ⟨c, x, hc, hx, rfl⟩ := hn
  intro a ha
  simp only [List.mem_cons, List.mem_singleton, List.not_mem_nil, or_false] at ha
  rcases ha with rfl | rfl | rfl | rfl
  · rcases hc with h | h <;> subst h <;> decide
  · decide
  · decide
  · rcases hx with h | h | h <;> subst h <;> decide

theorem replaceFrom_rewrites' (r : Re) (rep : JSString) (l t : List Char) :
    Rewrites rep t (r.replaceFrom rep l t) :=
  replaceFrom_rewrites r rep t.length t l (Nat.le_refl _)

theorem replaceFrom_reSpaces_space (l b : List Char) (hb : stopsAt isSpace b = true) :
    reSpaces.replaceFrom " ".toList l (' ' :: b) =
      ' ' :: reSpaces.replaceFrom " ".toList (' ' :: l) b := by
  have h := matchAt_reSpaces (c := ' ') (w := []) (t := b) (l := l) (by decide) (by simp) hb
  rw [show ' ' :: b = ' ' :: ([] ++ b) from rfl, replaceFrom_cons_some _ _ _ _ _ _ h (by simp)]
  rfl

theorem replaceFrom_reSpaces_plain (l a b : List Char) (ha : ∀ c ∈ a, isSpace c = false) :
    reSpaces.replaceFrom " ".toList l (a ++ b) =
      a ++ reSpaces.replaceFrom " ".toList (a.reverse ++ l) b :=
  replaceFrom_skip startsWith_reSpaces _ a l b ha

theorem footerText_full {v n u : JSString} : IsFullMatch v n u (footerText v n u) :=
  ⟨v ++ ([] ++ '-' :: ([] ++ n)), [' '], [' '], [' '], 'm', 's',
    ⟨[], '-', [], by simp, by decide, by simp, rfl⟩,
    by simp; decide, by simp; decide, by simp; decide, Or.inl rfl, Or.inl rfl,
    by simp [footerText]⟩

/-- The white-space pass leaves the footer text as it is and goes on after it. -/
theorem replaceFrom_reSpaces_footer {v n u : JSString} (hv : IsVersionText v)
    (hn : IsKnownNodeText n) (hu : IsDigits u) (l b : List Char) :
    ∃ l1, reSpaces.replaceFrom " ".toList l (footerText v n u ++ b) =
      footerText v n u ++ reSpaces.replaceFrom " ".toList l1 b := by
  have hA : ∀ c ∈ v ++ '-' :: n, isSpace c = false := by
    intro c hc
    have : isPlainChar c = true := by
      simp only [List.mem_append, List.mem_cons] at hc
      rcases hc with h | rfl | h
      · exact isPlainChar_of_version (version_chars hv c h)
      · decide
      · exact isPlainChar_of_known hn c h
    simp only [isPlainChar, Bool.and_eq_true, Bool.not_eq_true'] at this
    exact this.2
  have hU : ∀ c ∈ u, isSpace c = false := fun c hc => isSpace_not_digit (hu.2 c hc)
  have hP : ∀ c ∈ ['|'], isSpace c = false := by
    intro c hc
    simp only [List.mem_singleton] at hc
    subst hc
    decide
  have hM : ∀ c ∈ ['m', 's'], isSpace c = false := by
    intro c hc
    simp only [List.mem_cons, List.mem_singleton, List.not_mem_nil, or_false] at hc
    rcases hc with rfl | rfl <;> decide
  have e : footerText v n u ++ b =
      (v ++ '-' :: n) ++ (' ' :: (['|'] ++ (' ' :: (u ++ (' ' :: (['m', 's'] ++ b)))))) := by
    simp [footerText]
  refine ⟨['m', 's'].reverse ++ (' ' :: (u.reverse ++ (' ' :: (['|'].reverse ++
    (' ' :: ((v ++ '-' :: n).reverse ++ l)))))), ?_⟩
  rw [e, replaceFrom_reSpaces_plain _ _ _ hA,
    replaceFrom_reSpaces_space _ _ (by simp [stopsAt]; decide),
    replaceFrom_reSpaces_plain _ _ _ hP,
    replaceFrom_reSpaces_space _ _ (stopsAt_append_ne _ hu.1 hU),
    replaceFrom_reSpaces_plain _ _ _ hU,
    replaceFrom_reSpaces_space _ _ (by simp [stopsAt]; decide),
    replaceFrom_reSpaces_plain _ _ _ hM]
  simp [footerText]

/-- The fallback expression matches a known node id between two word boundaries. -/
theorem first_reFallback {n t l : List Char} {k : List (Nat × JSString)}
    (hn : IsKnownNodeText n) (hl : isWordAt l.head? = false) (ht : isWordAt t.head? = false) :
    reFallback.first ⟨l, n ++ t, k⟩ = some ⟨n.reverse ++ l, t, (1, n) :: k⟩ := by
  obtain ⟨c, x, hc, hx, rfl⟩ := hn
  have hcw : isWordChar c = true := by rcases hc with h | h <;> subst h <;> decide
  have hxw : isWordChar x = true := by rcases hx with h | h | h <;> subst h <;> decide
  have hb1 : (Re.wordBoundary).first ⟨l, [c, '0', '6', x] ++ t, k⟩ =
      some ⟨l, [c, '0', '6', x] ++ t, k⟩ := by
    simp only [Re.first, Re.run]
    rw [hl]
    simp [isWordAt, hcw]
  have hb2 : (Re.wordBoundary).first ⟨x :: '6' :: '0' :: c :: l, t, (1, [c, '0', '6', x]) :: k⟩ =
      some ⟨x :: '6' :: '0' :: c :: l, t, (1, [c, '0', '6', x]) :: k⟩ := by
    simp only [Re.first, Re.run]
    rw [ht]
    simp [isWordAt, hxw]
  have hc' : c = 'i' ∨ c = toUpperChar 'i' := by
    rcases hc with h | h
    · exact Or.inl h
    · right; rw [h]; decide
  have halt : (Re.alt (Re.seqs [.lit '6', .lit '7']) (.alt (Re.seqs [.lit '6', .lit '8'])
      (Re.seqs [.lit '6', .lit '9']))).first ⟨'0' :: c :: l, '6' :: x :: t, k⟩ =
      some ⟨x :: '6' :: '0' :: c :: l, t, k⟩ := by
    rcases hx with h | h | h <;> subst h <;>
      simp [Re.first, Re.run, Re.seqs, Re.lit]
  unfold reFallback
  simp only [Re.seqs] at halt ⊢
  refine first_seq hb1 ?_
  refine first_seq (first_group [c, '0', '6', x] (first_seq (first_litI hc')
    (first_seq first_lit halt)) rfl) ?_
  exact hb2

theorem rewrites_head_word {x : Char} (hx : isWordChar x = false) {s out : List Char}
    (h : Rewrites [x] s out) (hw : isWordAt out.head? = true) : isWordAt s.head? = true := by
  cases h with
  | nil => simp [isWordAt] at hw
  | keep c h1 => simpa using hw
  | chunk w h1 =>
    simp only [List.singleton_append, List.head?_cons, isWordAt] at hw
    rw [hx] at hw
    cases hw

theorem rewrites_nil_out {rep : JSString} (hrep : rep ≠ []) {s out : List Char}
    (h : Rewrites rep s out) (ho : out = []) : s = [] := by
  cases h with
  | nil => rfl
  | keep c h1 => cases ho
  | chunk w h1 =>
    exfalso
    cases rep with
    | nil => exact hrep rfl
    | cons a b => cases ho

theorem rewrites_last_word {x : Char} (hx : isWordChar x = false) {s out : List Char}
    (h : Rewrites [x] s out) : isWordAt out.getLast? = true → isWordAt s.getLast? = true := by
  induction h with
  | nil => intro hw; exact hw
  | @keep c s out h1 ih =>
    intro hw
    cases out with
    | nil =>
      have := rewrites_nil_out (by simp) h1 rfl
      subst this
      exact hw
    | cons a o =>
      rw [List.getLast?_cons_cons] at hw
      have hs := ih hw
      cases s with
      | nil => simp [isWordAt] at hs
      | cons b s2 => rw [List.getLast?_cons_cons]; exact hs
  | @chunk w s out h1 ih =>
    intro hw
    cases out with
    | nil =>
      simp only [List.append_nil, List.getLast?_singleton, isWordAt] at hw
      rw [hx] at hw
      cases hw
    | cons a o =>
      have hw' : isWordAt (a :: o).getLast? = true := by
        simpa [List.getLast?_cons_cons] using hw
      have hs := ih hw'
      cases s with
      | nil => simp [isWordAt] at hs
      | cons b s2 =>
        rw [List.getLast?_append_of_ne_nil _ (by simp)]
        exact hs

theorem decoded_mem {b out : List Char} (h : Decoded b out) :
    ∀ c ∈ out, c ∈ b ∨ c = ' ' ∨ c = '&' := by
  obtain ⟨b1, b2, b3, h1, h2, h3, h4⟩ := h
  intro c hc
  have m4 := rewrites_mem h4 c hc
  simp only [String.toList, List.mem_singleton] at m4
  rcases m4 with m4 | m4
  · have m3 := rewrites_mem h3 c m4
    simp only [String.toList, List.mem_singleton] at m3
    rcases m3 with m3 | m3
    · have m2 := rewrites_mem h2 c m3
      simp only [String.toList, List.mem_singleton] at m2
      rcases m2 with m2 | m2
      · have m1 := rewrites_mem h1 c m2
        simp only [String.toList, List.mem_singleton] at m1
        rcases m1 with m1 | m1
        · exact Or.inl m1
        · exact Or.inr (Or.inl m1)
      · exact Or.inr (Or.inl m2)
    · exact Or.inr (Or.inr m3)
  · exact Or.inr (Or.inl m4)

theorem decoded_head_word {b out : List Char} (h : Decoded b out)
    (hw : isWordAt out.head? = true) : isWordAt b.head? = true := by
  obtain ⟨b1, b2, b3, h1, h2, h3, h4⟩ := h
  exact rewrites_head_word (by decide) h1
    (rewrites_head_word (by decide) h2
      (rewrites_head_word (by decide) h3
        (rewrites_head_word (by decide) h4 hw)))

theorem containsI0_append_left (a : List Char) {b : List Char}
    (h : containsI0 b = true) : containsI0 (a ++ b) = true := by
  induction a with
  | nil => simpa using h
  | cons c a ih => simp [containsI0, ih]

theorem rewrites_containsI0 {out : List Char} : ∀ {s : List Char}, Rewrites " ".toList s out →
    containsI0 out = true → containsI0 s = true := by
  intro s h
  induction h with
  | nil => intro h; exact h
  | @keep c s out h1 ih =>
    intro hc
    simp only [containsI0, Bool.or_eq_true] at hc ⊢
    rcases hc with hc | hc
    · left
      cases out with
      | nil => simp [startsWithI0] at hc
      | cons d o =>
        simp only [startsWithI0, Bool.and_eq_true, beq_iff_eq] at hc
        obtain ⟨hci, rfl⟩ := hc
        obtain ⟨s1, rfl, _⟩ := rewrites_digit_head (x := ' ') (by decide) (by decide) h1
        simp [startsWithI0, hci]
    · exact Or.inr (ih hc)
  | @chunk w s out h1 ih =>
    intro hc0
    have hc : containsI0 (' ' :: out) = true := hc0
    simp only [containsI0, Bool.or_eq_true] at hc
    rcases hc with hc | hc
    · cases out with
      | nil => simp [startsWithI0] at hc
      | cons d o =>
        simp only [startsWithI0, Bool.and_eq_true] at hc
        exact absurd hc.1 (by decide)
    · exact containsI0_append_left w (ih hc)

theorem matchAt_reFallback_none {l t : List Char} (h : startsWithI0 t = false) :
    reFallback.matchAt l t = none := by
  cases hm : reFallback.matchAt l t with
  | none => rfl
  | some m =>
    have hmem : m ∈ reFallback.run ⟨l, t, []⟩ :=
      List.mem_of_mem_head? (by simpa [Re.matchAt] using hm)
    obtain ⟨n, ⟨c, x, hc, _, rfl⟩, e, _⟩ := mem_run_reFallback hmem
    simp only at e
    have hi : isLetterI c = true := by rcases hc with h | h <;> subst h <;> decide
    rw [e] at h
    simp [startsWithI0, hi] at h

theorem searchFrom_skip_of {r : Re} (b : List Char) (a : List Char) :
    ∀ (l : List Char),
      (∀ a1 c a2, a = a1 ++ c :: a2 → r.matchAt (a1.reverse ++ l) (c :: (a2 ++ b)) = none) →
      r.searchFrom l (a ++ b) = r.searchFrom (a.reverse ++ l) b := by
  induction a with
  | nil => intro l _; simp
  | cons x a ih =>
    intro l h
    rw [List.cons_append, searchFrom_cons_none (by simpa using h [] x a rfl),
      ih (x :: l) (fun a1 c a2 e => by
        have := h (x :: a1) c a2 (by simp [e])
        simpa using this)]
    simp

theorem strips_plain (t : List Char) (h : ∀ c ∈ t, (c == '<') = false) : Strips t t := by
  induction t with
  | nil => exact .nil
  | cons c t ih =>
    exact .char c (h c (List.mem_cons_self _ _)) (ih (fun x hx => h x (List.mem_cons_of_mem _ hx)))

theorem strips_no_lt {pre out : List Char} (h : Strips pre out) :
    ∀ c ∈ out, (c == '<') = false := by
  induction h with
  | nil => intro c hc; simp at hc
  | char c hc _ ih =>
    intro x hx
    rcases List.mem_cons.1 hx with rfl | hx
    · exact hc
    · exact ih x hx
  | tag body _ _ _ ih =>
    intro x hx
    rcases List.mem_cons.1 hx with rfl | hx
    · decide
    · exact ih x hx

theorem matchAt_reTag {body t l : List Char} (hne : body ≠ [])
    (hb : ∀ c ∈ body, (c == '>') = false) :
    reTag.matchAt l ('<' :: (body ++ '>' :: t)) =
      some ⟨'>' :: (body.reverse ++ ('<' :: l)), t, []⟩ := by
  have hb' : ∀ c ∈ body, isNotGt c = true := by
    intro c hc
    have := hb c hc
    have hne : c ≠ '>' := by simpa using this
    simp only [isNotGt, Bool.not_eq_true', decide_eq_false_iff_not]
    intro h
    apply hne
    have h1 : Char.ofNat c.toNat = c := Char.ofNat_toNat c
    rw [h] at h1
    exact h1.symm
  have hstop : stopsAt isNotGt ('>' :: t) = true := stopsAt_cons _ (by decide)
  unfold Re.matchAt reTag
  simp only [Re.seqs]
  exact first_seq first_lit (first_seq (first_plus body hne hb' hstop) first_lit)

/-- The tag pass replaces the complete tags of a prefix and goes on after it. -/
theorem replaceFrom_reTag_strips {pre out : List Char} (h : Strips pre out) :
    ∀ (l rest : List Char), ∃ l1, reTag.replaceFrom " ".toList l (pre ++ rest) =
      out ++ reTag.replaceFrom " ".toList l1 rest := by
  induction h with
  | nil => intro l rest; exact ⟨l, rfl⟩
  | char c hc _ ih =>
    intro l rest
    obtain ⟨l1, h1⟩ := ih (c :: l) rest
    refine ⟨l1, ?_⟩
    rw [List.cons_append, replaceFrom_cons_none _ _ _ _ _
      (matchAt_none_of_startsWith startsWith_reTag _ _ (stopsAt_cons _ hc)), h1]
    rfl
  | @tag body t out hne hb _ ih =>
    intro l rest
    obtain ⟨l1, h1⟩ := ih ('>' :: (body.reverse ++ ('<' :: l))) rest
    refine ⟨l1, ?_⟩
    have e : ('<' :: (body ++ '>' :: t)) ++ rest = '<' :: (body ++ '>' :: (t ++ rest)) := by
      simp
    rw [e, replaceFrom_cons_some _ _ _ _ _ _ (matchAt_reTag hne hb) (by simp; omega)]
    simp only
    rw [h1]
    rfl

/-- The tag and entity passes on a prefix of complete tags and text without `&`, followed
by a text without `<` and `&`: the tags become spaces and the rest is left as it is. -/
theorem normalize_stripped_head {pre pre1 : List Char} (mid post : List Char)
    (hs : Strips pre pre1) (hpre : ∀ c ∈ pre1, (c == '&') = false)
    (hmid : ∀ c ∈ mid, (c == '<') = false ∧ (c == '&') = false) :
    ∃ out, Decoded post out ∧
      normalize (pre ++ (mid ++ post)) =
        reSpaces.replaceFrom " ".toList [] (pre1 ++ (mid ++ out)) := by
  obtain ⟨l1, h1⟩ := replaceFrom_reTag_strips hs [] (mid ++ post)
  have h2 := replaceFrom_skip startsWith_reTag " ".toList mid l1 post (fun c hc => (hmid c hc).1)
  have hamp : ∀ c ∈ pre1 ++ mid, (c == '&') = false := by
    intro c hc
    rcases List.mem_append.1 hc with h | h
    · exact hpre c h
    · exact (hmid c h).2
  refine ⟨reNumEntity.replaceFrom " ".toList ((pre1 ++ mid).reverse ++ [])
    (reAmp.replaceFrom "&".toList ((pre1 ++ mid).reverse ++ [])
      (reNbsp.replaceFrom " ".toList ((pre1 ++ mid).reverse ++ [])
        (reTag.replaceFrom " ".toList (mid.reverse ++ l1) post))), ⟨_, _, _,
    replaceFrom_rewrites' _ _ _ _, replaceFrom_rewrites' _ _ _ _,
    replaceFrom_rewrites' _ _ _ _, replaceFrom_rewrites' _ _ _ _⟩, ?_⟩
  unfold normalize
  simp only [replaceAll_eq]
  rw [h1, h2, ← List.append_assoc,
    replaceFrom_skip startsWith_reNbsp _ (pre1 ++ mid) [] _ hamp,
    replaceFrom_skip startsWith_reAmp _ (pre1 ++ mid) [] _ hamp,
    replaceFrom_skip startsWith_reNumEntity _ (pre1 ++ mid) [] _ hamp, List.append_assoc]

theorem searchFrom_some_split {r : Re} {m : MState} : ∀ (t l : List Char),
    r.searchFrom l t = some m → ∃ a t1, t = a ++ t1 ∧ m ∈ r.run ⟨a.reverse ++ l, t1, []⟩ := by
  intro t
  induction t with
  | nil =>
    intro l h
    exact ⟨[], [], rfl, List.mem_of_mem_head? (by simpa [Re.searchFrom, Re.matchAt] using h)⟩
  | cons c t ih =>
    intro l h
    cases hm : r.matchAt l (c :: t) with
    | some m1 =>
      rw [searchFrom_here hm] at h
      cases h
      exact ⟨[], c :: t, rfl, List.mem_of_mem_head? (by simpa [Re.matchAt] using hm)⟩
    | none =>
      rw [searchFrom_cons_none hm] at h
      obtain ⟨a, t1, e, hmem⟩ := ih (c :: l) h
      exact ⟨c :: a, t1, by simp [e], by simpa using hmem⟩

theorem searchFrom_isSome_of_run {r : Re} (a : List Char) : ∀ (l b : List Char),
    r.run ⟨a.reverse ++ l, b, []⟩ ≠ [] → ∃ m, r.searchFrom l (a ++ b) = some m := by
  induction a with
  | nil =>
    intro l b h
    cases hr : r.run ⟨l, b, []⟩ with
    | nil => simp [hr] at h
    | cons x xs =>
      exact ⟨x, searchFrom_of_first (by simp [Re.first, hr])⟩
  | cons x a ih =>
    intro l b h
    cases hm : r.matchAt l (x :: (a ++ b)) with
    | some m1 => exact ⟨m1, searchFrom_here hm⟩
    | none =>
      rw [List.cons_append, searchFrom_cons_none hm]
      exact ih (x :: l) b (by simpa using h)

theorem exec_isSome_of_first {r : Re} {a b : List Char} {m : MState}
    (h : r.first ⟨a.reverse ++ [], b, []⟩ = some m) : ∃ m1, r.exec (a ++ b) = some m1 := by
  apply searchFrom_isSome_of_run a [] b
  intro hr
  rw [Re.first, hr] at h
  cases h

theorem exec_reFull_some {text : JSString} {m : MState} (h : reFull.exec text = some m) :
    ∃ v n t, FullMatchIn text v n t ∧ m.cap 1 = v ∧ m.cap 2 = n ∧ m.cap 3 = t := by
  obtain ⟨a, t1, e, hmem⟩ := searchFrom_some_split text [] h
  obtain ⟨v, n, t, w, hv, hn, ht, hw, e1, _, hc⟩ := mem_run_reFull hmem
  obtain ⟨c1, c2, c3⟩ := cap_of_caps3 hc
  simp only at e1
  exact ⟨v, n, t, ⟨a, w, m.rest, by rw [e, e1], hv, hn, ht, hw⟩, c1, c2, c3⟩

theorem exec_rePartial_some {text : JSString} {m : MState} (h : rePartial.exec text = some m) :
    ∃ v n, PartialMatchIn text v n ∧ m.cap 1 = v ∧ m.cap 2 = n := by
  obtain ⟨a, t1, e, hmem⟩ := searchFrom_some_split text [] h
  obtain ⟨v, n, w, hv, hn, hw, e1, _, hc⟩ := mem_run_rePartial_text hmem
  obtain ⟨c1, c2⟩ := cap_of_caps2 hc
  simp only at e1
  exact ⟨v, n, ⟨a, w, m.rest, by rw [e, e1], hv, hn, hw⟩, c1, c2⟩

theorem exec_reFallback_some {text : JSString} {m : MState}
    (h : reFallback.exec text = some m) : ∃ n, FallbackMatchIn text n ∧ m.cap 1 = n := by
  obtain ⟨a, t1, e, hmem⟩ := searchFrom_some_split text [] h
  obtain ⟨n, hn, e1, _, hc, hl, hr⟩ := mem_run_reFallback hmem
  simp only [List.append_nil, List.head?_reverse] at e1 hl
  exact ⟨n, ⟨a, m.rest, by rw [e, e1], hn, hl, hr⟩, cap_of_caps1 hc⟩

theorem exec_reFull_of_match {text v n t : JSString} (h : FullMatchIn text v n t) :
    ∃ m, reFull.exec text = some m := by
  obtain ⟨a, w, b, rfl, hv, hn, ht, hw⟩ := h
  exact exec_isSome_of_first (first_reFull hv hn ht hw)

theorem exec_rePartial_of_match {text v n : JSString} (h : PartialMatchIn text v n) :
    ∃ m, rePartial.exec text = some m := by
  obtain ⟨a, w, b, rfl, hv, hn, hw⟩ := h
  exact exec_isSome_of_first (first_rePartial hv hn hw)

theorem exec_reFallback_of_match {text n : JSString} (h : FallbackMatchIn text n) :
    ∃ m, reFallback.exec text = some m := by
  obtain ⟨a, b, rfl, hn, hl, hr⟩ := h
  exact exec_isSome_of_first (first_reFallback hn
    (by simpa [List.head?_reverse] using hl) hr)

/-- The three shapes of a result of `parseFooter`, each with the match it comes from. -/
theorem parseFooter_shapes {html : JSString} {p : Parsed} (h : parseFooter html = some p) :
    (∃ v n t, FullMatchIn (normalize html) v n t ∧
      p = ⟨some v, toLowerCase n, some (parseInt t)⟩) ∨
    ((¬ ∃ v n t, FullMatchIn (normalize html) v n t) ∧
      ∃ v n, PartialMatchIn (normalize html) v n ∧ p = ⟨some v, toLowerCase n, none⟩) ∨
    ((¬ ∃ v n t, FullMatchIn (normalize html) v n t) ∧
      (¬ ∃ v n, PartialMatchIn (normalize html) v n) ∧
      ∃ n, FallbackMatchIn (normalize html) n ∧ p = ⟨none, toLowerCase n, none⟩) := by
  have nofull : reFull.exec (normalize html) = none →
      ¬ ∃ v n t, FullMatchIn (normalize html) v n t := by
    rintro h0 ⟨v, n, t, hm⟩
    obtain ⟨m, hm'⟩ := exec_reFull_of_match hm
    rw [h0] at hm'
    cases hm'
  have nopartial : rePartial.exec (normalize html) = none →
      ¬ ∃ v n, PartialMatchIn (normalize html) v n := by
    rintro h0 ⟨v, n, hm⟩
    obtain ⟨m, hm'⟩ := exec_rePartial_of_match hm
    rw [h0] at hm'
    cases hm'
  rcases parseFooter_cases html with ⟨m, hm, hp⟩ | ⟨h1, m, hm, hp⟩ | ⟨h1, h2, m, hm, hp⟩ |
    ⟨_, _, _, hp⟩
  · obtain ⟨v, n, t, hf, c1, c2, c3⟩ := exec_reFull_some hm
    rw [hp, c1, c2, c3] at h
    cases h
    exact Or.inl ⟨v, n, t, hf, rfl⟩
  · obtain ⟨v, n, hf, c1, c2⟩ := exec_rePartial_some hm
    rw [hp, c1, c2] at h
    cases h
    exact Or.inr (Or.inl ⟨nofull h1, v, n, hf, rfl⟩)
  · obtain ⟨n, hf, c1⟩ := exec_reFallback_some hm
    rw [hp, c1] at h
    cases h
    exact Or.inr (Or.inr ⟨nofull h1, nopartial h2, n, hf, rfl⟩)
  · rw [hp] at h
    cases h

theorem toLowerCase_known {n : List Char} (hn : IsKnownNodeText n) :
    toLowerCase n = "i067".toList ∨ toLowerCase n = "i068".toList ∨
      toLowerCase n = "i069".toList := by
  obtain ⟨c, x, hc, hx, rfl⟩ := hn
  rcases hc with h | h <;> rcases hx with h1 | h1 | h1 <;> subst h <;> subst h1 <;> decide

/-! ## The orchestrator: failover, classification and the history log -/

/-- C1 (counterexample): the stored history is a history document whose last record has
the non-null `nodeShortId` `""`, the new record has the non-null `nodeShortId` `"i067"`,
the two differ, and yet the orchestrator leaves `failover` false. -/
theorem failover_false_for_empty_stored_id :
    isHistoryDocument emptyIdHistory = true ∧
    (lastStored (.json emptyIdHistory)).bind Json.storedNodeShortId? = some (some []) ∧
    (appendedRecord sampleTime (.body "i067".toList) (.json emptyIdHistory)).map
      (fun r => (r.nodeShortId, r.failover)) = some (some "i067".toList, false) := by
  decide

/-- C1 (amended): for every history document and every fetch outcome, the run completes
and the appended record has `failover` true if and only if the history has a last record,
that record's `nodeShortId` is a non-empty string, the new record's `nodeShortId` is
non-null, and the two differ. In particular `failover` is false for the first record and
whenever either `nodeShortId` is null. -/
theorem failover_iff_stored_id_differs (timestamp : JSString) (fetched : FetchOutcome)
    (file : HistoryFile) (h : isHistoryDocument (readHistory file) = true) :
    ∃ record, appendedRecord timestamp fetched file = some record ∧
      (record.failover = true ↔
        ∃ prev a b, lastStored file = some prev ∧
          prev.storedNodeShortId? = some (some a) ∧ a ≠ [] ∧
          record.nodeShortId = some b ∧ a ≠ b) := by
  simp only [isHistoryDocument] at h
  cases hr : (readHistory file).records? with
  | none => rw [hr] at h; cases h
  | some items =>
    rw [hr] at h
    simp only [List.all_eq_true] at h
    obtain ⟨file1, hm, _⟩ := main_of_records timestamp fetched file items hr
    refine ⟨withFailover items.getLast? (probe (initialRecord timestamp) fetched),
      by simp only [appendedRecord, hm], ?_⟩
    have hid := (withFailover_fields items.getLast? (probe (initialRecord timestamp) fetched)).2.1
    have hf : (withFailover items.getLast? (probe (initialRecord timestamp) fetched)).failover =
        failoverDetected items.getLast? (probe (initialRecord timestamp) fetched) := by
      unfold withFailover
      split
      · next hd => simp [hd]
      · next hd => simp [hd, probe_failover]
    rw [hf, hid]
    have hls : lastStored file = items.getLast? := by
      simp only [lastStored, hr]
      rfl
    rw [hls]
    cases hl : items.getLast? with
    | none =>
      constructor
      · intro hd; simp [failoverDetected] at hd
      · rintro ⟨prev, a, b, h1, _⟩; cases h1
    | some prev =>
      have hprev := h prev (List.mem_of_getLast?_eq_some hl)
      cases prev with
      | obj props =>
        simp only [Json.storedNodeShortId?] at hprev
        cases hk : props.lookup keyNodeShortId with
        | none => rw [hk] at hprev; cases hprev
        | some v =>
          rw [hk] at hprev
          have hfd : failoverDetected (some (Json.obj props))
              (probe (initialRecord timestamp) fetched) =
              (v.truthy && (match (probe (initialRecord timestamp) fetched).nodeShortId with
                | none => false
                | some s => !s.isEmpty && v.strictNeStr s)) := by
            simp only [failoverDetected, Json.truthy, Json.prop, hk, Bool.true_and]
          rw [hfd]
          cases v with
          | null =>
            constructor
            · intro hd; simp [Json.truthy] at hd
            · rintro ⟨prev, a, b, h1, h2, _⟩
              cases h1
              simp only [Json.storedNodeShortId?, hk] at h2
              cases h2
          | str a =>
            cases hb : (probe (initialRecord timestamp) fetched).nodeShortId with
            | none =>
              constructor
              · intro hd; simp at hd
              · rintro ⟨prev, a1, b, _, _, _, h4, _⟩; cases h4
            | some b =>
              have hne := probe_nodeShortId_ne_nil hb
              constructor
              · intro hd
                simp only [Json.truthy, Json.strictNeStr, Bool.and_eq_true, Bool.not_eq_true',
                  List.isEmpty_eq_false, bne_iff_ne, ne_eq] at hd
                refine ⟨Json.obj props, a, b, rfl, ?_, ?_, rfl, hd.2.2⟩
                · simp only [Json.storedNodeShortId?, hk]
                · intro ha
                  rw [ha] at hd
                  simp at hd
              · rintro ⟨prev, a1, b1, h1, h2, h3, h4, h5⟩
                cases h1
                cases h4
                simp only [Json.storedNodeShortId?, hk, Option.some.injEq] at h2
                subst h2
                have ha : a.isEmpty = false := by
                  cases a with
                  | nil => exact absurd rfl h3
                  | cons x y => rfl
                have hb' : b.isEmpty = false := by
                  cases b with
                  | nil => exact absurd rfl hne
                  | cons x y => rfl
                have h6 : (a != b) = true := by simpa using h5
                simp [Json.truthy, Json.strictNeStr, ha, hb', h6]
          | bool x => cases hprev
          | num x => cases hprev
          | arr x => cases hprev
          | obj x => cases hprev
      | null => cases hprev
      | bool x => cases hprev
      | num x => cases hprev
      | str x => cases hprev
      | arr x => cases hprev

/-- C1 (witness): the amended statement at a stored record of node `i068` and a page
served by node `i069`. -/
theorem failover_iff_stored_id_differs_witness :
    isHistoryDocument (readHistory (.json sampleHistory)) = true ∧
    ∃ record, appendedRecord sampleTime (.body "9.14.7-i069 | 4 ms".toList)
        (.json sampleHistory) = some record ∧
      (record.failover = true ↔
        ∃ prev a b, lastStored (.json sampleHistory) = some prev ∧
          prev.storedNodeShortId? = some (some a) ∧ a ≠ [] ∧
          record.nodeShortId = some b ∧ a ≠ b) :=
  ⟨by decide, failover_iff_stored_id_differs sampleTime (.body "9.14.7-i069 | 4 ms".toList)
    (.json sampleHistory) (by decide)⟩

/-- C4 (failing input): when the history file holds the parseable JSON text `{}`, the
run ends with a `TypeError` for every clock reading and fetch outcome: nothing is saved. -/
theorem main_throws_on_object_without_records (timestamp : JSString) (fetched : FetchOutcome) :
    main timestamp fetched (.json (.obj [])) =
      .error (.typeError "Cannot read properties of undefined (reading 'length')") := by
  rfl

/-- C5 (failing input): when the history file holds the parseable JSON text `{}`,
`readHistory` returns that empty object, which has no `records`, and not the fresh
document. -/
theorem readHistory_returns_object_without_records :
    (readHistory (.json (.obj []))).records? = none ∧
    (readHistory (.json (.obj []))).prop keyLastUpdated = none ∧
    emptyHistory.records? = some [] ∧ emptyHistory.prop keyLastUpdated = some .null := by
  refine ⟨rfl, rfl, rfl, rfl⟩

/-- When the file is absent or cannot be read and parsed, `readHistory` returns the fresh
document. -/
theorem readHistory_fresh :
    readHistory .absent = emptyHistory ∧ readHistory .invalid = emptyHistory :=
  ⟨rfl, rfl⟩

theorem two_pow_le_ten_pow (n m : Nat) (h : n ≤ 3 * m) : 2 ^ n ≤ 10 ^ m := by
  have h1 : 2 ^ n ≤ 2 ^ (3 * m) := Nat.pow_le_pow_right (by decide) h
  have h2 : 2 ^ (3 * m) = (2 ^ 3) ^ m := Nat.pow_mul 2 3 m
  have h3 : (2 ^ 3) ^ m ≤ 10 ^ m := Nat.pow_le_pow_left (by decide) m
  rw [h2] at h1
  exact Nat.le_trans h1 h3

theorem not_finite_of_le (a b n : Nat) (h : 2 ^ a ≤ n) :
    decide (n < 2 ^ a - 2 ^ b) = false := by
  rw [decide_eq_false_iff_not, Nat.not_lt]
  exact Nat.le_trans (Nat.sub_le _ _) h

/-- The double nearest to `10^400` is `Infinity`. -/
theorem not_finite_overflow : JSInt.isFinite (.rounded (10 ^ 400)) = false := by
  simp only [JSInt.isFinite]
  exact not_finite_of_le 1024 970 (10 ^ 400) (two_pow_le_ten_pow 1024 400 (by decide))

theorem storedRecord_written (time : Json) :
    (storedRecord time).written = storedRecord time.written := by
  simp only [storedRecord, Json.written, writtenProps]

theorem overflowTime_written : overflowTime.written = .null := by
  simp only [overflowTime, Json.written, JSNumber.written, not_finite_overflow,
    Bool.false_eq_true, if_false]

/-- C6 (counterexample): a well-formed stored document with one record, whose response
time is `Infinity` (the file holds `1e400`). One run completes and saves two records, but
the first of them is no longer the stored record: `JSON.stringify` has written its
response time as `null`. The same happens with a response time of negative zero, which is
written as `0`. -/
theorem stored_record_changed_on_save :
    (isHistoryDocument (historyOf (storedRecord overflowTime)) = true ∧
      (∃ file1,
        main sampleTime (.failed "Timeout".toList)
            (.json (historyOf (storedRecord overflowTime))) =
          .ok (sampleFailedRecord, file1) ∧
        (readHistory file1).records? =
          some [storedRecord .null, Record.toJson sampleFailedRecord]) ∧
      storedRecord .null ≠ storedRecord overflowTime) ∧
    (isHistoryDocument (historyOf (storedRecord (.num .negZero))) = true ∧
      (∃ file1,
        main sampleTime (.failed "Timeout".toList)
            (.json (historyOf (storedRecord (.num .negZero)))) =
          .ok (sampleFailedRecord, file1) ∧
        (readHistory file1).records? =
          some [storedRecord (.num (.int (.exact 0))), Record.toJson sampleFailedRecord]) ∧
      storedRecord (.num (.int (.exact 0))) ≠ storedRecord (.num .negZero)) := by
  refine ⟨⟨rfl, ?_, ?_⟩, ⟨rfl, ?_, ?_⟩⟩
  · obtain ⟨file1, hm, hr⟩ := main_of_records sampleTime (.failed "Timeout".toList)
      (.json (historyOf (storedRecord overflowTime))) [storedRecord overflowTime] rfl
    refine ⟨file1, hm, ?_⟩
    rw [hr]
    simp only [List.map_cons, List.map_nil, storedRecord_written, overflowTime_written]
    rfl
  · intro h
    simp only [storedRecord, overflowTime, Json.obj.injEq, List.cons.injEq, Prod.mk.injEq,
      and_false, false_and, reduceCtorEq] at h
  · obtain ⟨file1, hm, hr⟩ := main_of_records sampleTime (.failed "Timeout".toList)
      (.json (historyOf (storedRecord (.num .negZero)))) [storedRecord (.num .negZero)] rfl
    refine ⟨file1, hm, ?_⟩
    rw [hr]
    simp only [List.map_cons, List.map_nil, storedRecord_written]
    rfl
  · intro h
    simp only [storedRecord, Json.obj.injEq, List.cons.injEq, Prod.mk.injEq, Json.num.injEq,
      and_false, false_and, reduceCtorEq] at h

/-- C6 (amended): for every loaded history document with records `items` in which no
Number is infinite or negative zero, any number of successive runs complete, and the
document saved by the last one has the records `items` followed by the records of the
runs, one per run and in the order of the runs. With one run the saved records are
`items` followed by the single new record; from an absent store (`items` empty) `N` runs
yield exactly the `N` new records. -/
theorem pollMany_appends (inputs : List (JSString × FetchOutcome)) :
    ∀ (file : HistoryFile) (items : List Json), (readHistory file).records? = some items →
      (∀ j ∈ items, j.isKept = true) →
      ∃ records file1, pollMany inputs file = .ok (records, file1) ∧
        (readHistory file1).records? = some (items ++ records.map Record.toJson) ∧
        records.map (fun r => r.timestamp) = inputs.map Prod.fst := by
  induction inputs with
  | nil =>
    intro file items h _
    exact ⟨[], file, rfl, by simpa using h, rfl⟩
  | cons input rest ih =>
    intro file items h hfin
    obtain ⟨timestamp, fetched⟩ := input
    obtain ⟨file1, hm, hr⟩ := main_of_records timestamp fetched file items h
    rw [map_written_of_isKept items hfin] at hr
    obtain ⟨records, file2, hp, hr2, hts⟩ := ih file1 _ hr (by
      intro j hj
      rcases List.mem_append.1 hj with h1 | h1
      · exact hfin j h1
      · rw [List.mem_singleton.1 h1]
        exact toJson_isKept _)
    refine ⟨withFailover items.getLast? (probe (initialRecord timestamp) fetched) :: records,
      file2, ?_, ?_, ?_⟩
    · simp only [pollMany, hm, hp]
    · rw [hr2]; simp
    · simp only [List.map_cons, hts]
      rw [(withFailover_fields _ _).2.2.2.2.2.2.2, probe_timestamp]

/-- C6 (witness): two runs on a stored document with one record. -/
theorem pollMany_appends_witness :
    ∃ records file1,
      pollMany [(sampleTime, .body "9.14.7-i069 | 4 ms".toList), (sampleTime, .failed [])]
        (.json sampleHistory) = .ok (records, file1) ∧
      (readHistory file1).records? =
        some ([Record.toJson
          { timestamp := "2025-01-01T02:00:00.000Z".toList, status := .OK,
            nodeShortId := some "i068".toList, nodeLabel := some "IDT068".toList,
            nodeHost := some "idt183068".toList, version := some "9.14.7".toList,
            responseTimeMs := some (.exact 3), failover := false, error := none }] ++
          records.map Record.toJson) ∧
      records.map (fun r => r.timestamp) =
        [(sampleTime, FetchOutcome.body "9.14.7-i069 | 4 ms".toList),
          (sampleTime, FetchOutcome.failed [])].map Prod.fst :=
  pollMany_appends _ (.json sampleHistory) _ rfl (by
    intro j hj
    rw [List.mem_singleton.1 hj]
    exact toJson_isKept _)

/-- C7: the record appended by a run is classified by three cases. If the fetch fails with
message `m`: status `FETCH_ERROR`, error `m`, and the node and version fields all null. If
the fetch succeeds and `parseFooter` returns null: status `PARSE_ERROR` and the error
`Footer pattern not found in page`. If the fetch succeeds and `parseFooter` returns `p`:
status `OK`, error null, the fields of `p`, and the label and host of the descriptor `p`'s
node id resolves to. -/
theorem appended_record_classification (timestamp : JSString) (fetched : FetchOutcome)
    (file : HistoryFile) (record : Record)
    (h : appendedRecord timestamp fetched file = some record) :
    (∀ m, fetched = .failed m →
      record.status = .FETCH_ERROR ∧ record.error = some m ∧ record.nodeShortId = none ∧
      record.nodeLabel = none ∧ record.nodeHost = none ∧ record.version = none ∧
      record.responseTimeMs = none) ∧
    (∀ html, fetched = .body html → parseFooter html = none →
      record.status = .PARSE_ERROR ∧
      record.error = some "Footer pattern not found in page".toList) ∧
    (∀ html p, fetched = .body html → parseFooter html = some p →
      record.status = .OK ∧ record.error = none ∧
      record.nodeShortId = some p.nodeShortId ∧ record.version = p.version ∧
      record.responseTimeMs = p.responseTimeMs ∧
      record.nodeLabel = some (resolveNode p.nodeShortId).label ∧
      record.nodeHost = some (resolveNode p.nodeShortId).host) := by
  obtain ⟨prev, rfl⟩ := appendedRecord_eq_some h
  obtain ⟨h1, h2, h3, h4, h5, h6, h7, _⟩ :=
    withFailover_fields prev (probe (initialRecord timestamp) fetched)
  rw [h1, h2, h3, h4, h5, h6, h7]
  refine ⟨?_, ?_, ?_⟩
  · rintro m rfl
    simp [probe, initialRecord]
  · rintro html rfl hp
    simp [probe, hp, initialRecord]
  · rintro html p rfl hp
    simp [probe, hp, initialRecord]

/-- C7 (witness): the classification at a page served by node `i069`. -/
theorem appended_record_classification_witness :
    appendedRecord sampleTime (.body "9.14.7-i069 | 4 ms".toList) (.json sampleHistory) =
      some sampleOkRecord ∧
    sampleOkRecord.status = .OK ∧ sampleOkRecord.error = none ∧
    sampleOkRecord.nodeShortId = some "i069".toList ∧
    sampleOkRecord.version = some "9.14.7".toList ∧
    sampleOkRecord.responseTimeMs = some (.exact 4) ∧
    sampleOkRecord.nodeLabel = some (resolveNode "i069".toList).label ∧
    sampleOkRecord.nodeHost = some (resolveNode "i069".toList).host :=
  ⟨by decide,
    (appended_record_classification sampleTime (.body "9.14.7-i069 | 4 ms".toList)
      (.json sampleHistory) sampleOkRecord (by decide)).2.2 "9.14.7-i069 | 4 ms".toList
        ⟨some "9.14.7".toList, "i069".toList, some (.exact 4)⟩ rfl (by decide)⟩

/-- C8: for every record the orchestrator appends, status `OK` implies a non-null
`nodeShortId` and a null `error`, and a status other than `OK` implies a null
`nodeShortId` and a non-null `error`. -/
theorem appended_record_invariant (timestamp : JSString) (fetched : FetchOutcome)
    (file : HistoryFile) (record : Record)
    (h : appendedRecord timestamp fetched file = some record) :
    (record.status = .OK → record.nodeShortId ≠ none ∧ record.error = none) ∧
    (record.status ≠ .OK → record.nodeShortId = none ∧ record.error ≠ none) := by
  obtain ⟨prev, rfl⟩ := appendedRecord_eq_some h
  obtain ⟨h1, h2, _, _, _, _, h7, _⟩ :=
    withFailover_fields prev (probe (initialRecord timestamp) fetched)
  rw [h1, h2, h7]
  cases fetched with
  | failed m => simp [probe, initialRecord]
  | body html =>
    simp only [probe]
    cases parseFooter html with
    | none => simp [initialRecord]
    | some p => simp [initialRecord]

/-- C8 (witness): the invariant at a failed fetch on an absent history file. -/
theorem appended_record_invariant_witness :
    appendedRecord sampleTime (.failed "Timeout".toList) .absent = some sampleFailedRecord ∧
    sampleFailedRecord.status ≠ .OK ∧
    sampleFailedRecord.nodeShortId = none ∧ sampleFailedRecord.error ≠ none :=
  ⟨by decide, by decide,
    (appended_record_invariant sampleTime (.failed "Timeout".toList) .absent
      sampleFailedRecord (by decide)).2 (by decide)⟩

/-! ## The footer parser -/

/-- C3 (counterexample): the text `1.2.3-i123` contains no `i067`, `i068` or `i069` at
all, hence none of the three patterns as the claim words them, and `parseFooter` returns
a result for it, not null. -/
theorem parseFooter_result_without_known_node :
    containsKnownNode "1.2.3-i123".toList = false ∧
    parseFooter "1.2.3-i123".toList =
      some ⟨some "1.2.3".toList, "i123".toList, none⟩ := by
  decide

/-- C3 (amended): for every input text that contains no `i` (in either case) immediately
followed by three decimal digits, `parseFooter` returns null. -/
theorem parseFooter_none_of_no_node_text (html : JSString)
    (h : containsNodeText html = false) : parseFooter html = none := by
  have hn : containsNodeText (normalize html) = false := by
    cases hc : containsNodeText (normalize html) with
    | false => rfl
    | true =>
      rw [containsNodeText_normalize html hc] at h
      cases h
  rcases parseFooter_cases html with ⟨m, hm, _⟩ | ⟨_, m, hm, _⟩ | ⟨_, _, m, hm, _⟩ |
    ⟨_, _, _, hp⟩
  · rw [exec_none_of_no_node _ reFull_needs_node hn] at hm
    cases hm
  · rw [exec_none_of_no_node _ rePartial_needs_node hn] at hm
    cases hm
  · rw [exec_none_of_no_node _ reFallback_needs_node hn] at hm
    cases hm
  · exact hp

/-- C3 (witness): a page without any node id. -/
theorem parseFooter_none_of_no_node_text_witness :
    containsNodeText "<html><body>Service unavailable (id 503)</body></html>".toList = false ∧
    parseFooter "<html><body>Service unavailable (id 503)</body></html>".toList = none :=
  ⟨by decide, parseFooter_none_of_no_node_text _ (by decide)⟩

/-- C9: for every input text consisting only of a version (three or four groups of digits
separated by dots), a hyphen and `i067`, `i068` or `i069` (the `i` in either case),
`parseFooter` returns that version, that node id in lowercase, and a null response time. -/
theorem parseFooter_version_and_node (v n : JSString) (hv : IsVersionText v)
    (hn : IsKnownNodeText n) :
    parseFooter (v ++ '-' :: n) = some ⟨some v, toLowerCase n, none⟩ := by
  have hplain : ∀ c ∈ v ++ '-' :: n, isPlainChar c = true := by
    intro c hc
    simp only [List.mem_append, List.mem_cons] at hc
    rcases hc with h | rfl | h
    · exact isPlainChar_of_version (version_chars hv c h)
    · decide
    · exact isPlainChar_of_known hn c h
  have hnorm : normalize (v ++ '-' :: n) = v ++ '-' :: n := by
    apply normalize_id
    intro c hc
    have := hplain c hc
    simp only [isPlainChar, Bool.and_eq_true, Bool.not_eq_true'] at this
    exact ⟨this.1.1, this.1.2, this.2⟩
  have hfull : reFull.exec (v ++ '-' :: n) = none := by
    apply exec_none_of_no_pipe
    intro hc
    simp only [List.mem_append, List.mem_cons] at hc
    rcases hc with h | h | h
    · exact absurd (version_chars hv _ h) (by decide)
    · exact absurd h (by decide)
    · obtain ⟨c, x, hc, hx, rfl⟩ := hn
      simp only [List.mem_cons, List.mem_singleton, List.not_mem_nil, or_false] at h
      rcases h with h | h | h | h
      · rcases hc with h1 | h1 <;> subst h1 <;> exact absurd h (by decide)
      · exact absurd h (by decide)
      · exact absurd h (by decide)
      · rcases hx with h1 | h1 | h1 <;> subst h1 <;> exact absurd h (by decide)
  have hw : IsPartialMatch v n (v ++ ([] ++ '-' :: ([] ++ n))) :=
    ⟨[], '-', [], by simp, by decide, by simp, rfl⟩
  have hfirst := first_rePartial (t := []) (l := []) (k := []) hv (isNodeText_of_known hn) hw
  have hpartial : rePartial.exec (v ++ '-' :: n) =
      some ⟨(v ++ '-' :: n).reverse, [], [(2, n), (1, v)]⟩ := by
    have := searchFrom_of_first hfirst
    simpa [Re.exec] using this
  simp only [parseFooter, hnorm, hfull, hpartial]
  simp [MState.cap, List.lookup]

/-- C9 (witness): the text `9.14.7-I068`. -/
theorem parseFooter_version_and_node_witness :
    parseFooter ("9.14.7".toList ++ '-' :: "I068".toList) =
      some ⟨some "9.14.7".toList, toLowerCase "I068".toList, none⟩ :=
  parseFooter_version_and_node "9.14.7".toList "I068".toList
    ⟨"9".toList, "14".toList, "7".toList, ⟨by decide, by decide⟩, ⟨by decide, by decide⟩,
      ⟨by decide, by decide⟩, Or.inl rfl⟩
    ⟨'I', '8', Or.inr rfl, Or.inr (Or.inl rfl), rfl⟩

theorem footerText_chars {v n u : JSString} (hv : IsVersionText v) (hn : IsKnownNodeText n)
    (hu : IsDigits u) : ∀ c ∈ footerText v n u, (c == '<') = false ∧ (c == '&') = false := by
  intro c hc
  have hplain : ∀ x, isPlainChar x = true → (x == '<') = false ∧ (x == '&') = false := by
    intro x hx
    simp only [isPlainChar, Bool.and_eq_true, Bool.not_eq_true'] at hx
    exact ⟨hx.1.1, hx.1.2⟩
  simp only [footerText, List.mem_append, String.toList, List.mem_cons, List.mem_singleton,
    List.not_mem_nil, or_false] at hc
  rcases hc with ((((h | h) | h) | h) | h) | h
  · exact hplain c (isPlainChar_of_version (version_chars hv c h))
  · subst h; decide
  · exact hplain c (isPlainChar_of_known hn c h)
  · rcases h with rfl | rfl | rfl <;> decide
  · exact hplain c (isPlainChar_of_version (by simp [isVersionChar, hu.2 c h]))
  · rcases h with rfl | rfl | rfl <;> decide

/-- C2 (counterexample): the text `<1.2.3-i067 | 5 ms>` contains the footer
`1.2.3-i067 | 5 ms`, and `parseFooter` returns null for it: the footer lies inside a tag,
which the normalisation strips. And the text `1.2.3.4-i067 | 5 ms` contains the footer
`2.3.4-i067 | 5 ms`, and the version returned is `1.2.3.4`, not `2.3.4`. -/
theorem parseFooter_null_for_footer_in_tag :
    ("<1.2.3-i067 | 5 ms>".toList =
        "<".toList ++ (footerText "1.2.3".toList "i067".toList "5".toList ++ ">".toList) ∧
      parseFooter "<1.2.3-i067 | 5 ms>".toList = none) ∧
    ("1.2.3.4-i067 | 5 ms".toList =
        "1.".toList ++ (footerText "2.3.4".toList "i067".toList "5".toList ++ []) ∧
      parseFooter "1.2.3.4-i067 | 5 ms".toList =
        some ⟨some "1.2.3.4".toList, "i067".toList, some (.exact 5)⟩) := by
  decide

/-- C2 (amended): for every input text made of a prefix, a footer
`<d>.<d>.<d>-i0XX | <n> ms` (non-empty digit strings, XX in 67, 68, 69, the `i` in either
case, the value of `<n>` below `2^53`) and any text after it, where the prefix consists of
complete tags and of characters other than `<` and, with its tags replaced by spaces,
contains no `&` and no digit, `parseFooter` returns that version, the node id in lowercase
and the integer value of `<n>`. -/
theorem parseFooter_footer (pre pre1 post g1 g2 g3 n u : JSString) (hs : Strips pre pre1)
    (hpre : ∀ c ∈ pre1, (c == '&') = false ∧ isDigit c = false)
    (hg1 : IsDigits g1) (hg2 : IsDigits g2) (hg3 : IsDigits g3) (hn : IsKnownNodeText n)
    (hu : IsDigits u) (hval : digitsValue u < 2 ^ 53) :
    parseFooter (pre ++ (footerText (g1 ++ '.' :: (g2 ++ '.' :: g3)) n u ++ post)) =
      some ⟨some (g1 ++ '.' :: (g2 ++ '.' :: g3)), toLowerCase n,
        some (.exact (digitsValue u))⟩ := by
  have hv : IsVersionText (g1 ++ '.' :: (g2 ++ '.' :: g3)) :=
    ⟨g1, g2, g3, hg1, hg2, hg3, Or.inl rfl⟩
  generalize g1 ++ '.' :: (g2 ++ '.' :: g3) = v at hv ⊢
  have hhead : ∀ b, stopsAt isSpace (footerText v n u ++ b) = true := by
    intro b
    obtain ⟨a1, a2, a3, ⟨ne1, d1⟩, _, _, hv'⟩ := hv
    have : ∃ r, footerText v n u ++ b = a1 ++ r := by
      rcases hv' with rfl | ⟨a4, _, rfl⟩
      · exact ⟨_, by simp [footerText]; rfl⟩
      · exact ⟨_, by simp [footerText]; rfl⟩
    obtain ⟨r, hr⟩ := this
    rw [hr]
    exact stopsAt_append_ne _ ne1 (fun c hc => isSpace_not_digit (d1 c hc))
  obtain ⟨out, _, hnorm⟩ := normalize_stripped_head (footerText v n u) post hs
    (fun c hc => (hpre c hc).1) (footerText_chars hv hn hu)
  obtain ⟨l1, hfoot⟩ := replaceFrom_reSpaces_footer hv hn hu (pre1.reverse ++ []) out
  have hnormalized : normalize (pre ++ (footerText v n u ++ post)) =
      reSpaces.replaceFrom " ".toList [] pre1 ++
        (footerText v n u ++ reSpaces.replaceFrom " ".toList l1 out) := by
    rw [hnorm, replaceAll_reSpaces_append _ _ _ _ (Or.inl (hhead out)), hfoot]
  have hpre5 : ∀ c ∈ reSpaces.replaceFrom " ".toList [] pre1, isDigit c = false := by
    intro c hc
    rcases rewrites_mem (replaceFrom_rewrites' reSpaces _ [] pre1) c hc with h | h
    · exact (hpre c h).2
    · simp only [String.toList, List.mem_singleton] at h
      subst h
      decide
  have hexec : reFull.exec (normalize (pre ++ (footerText v n u ++ post))) =
      some ⟨(footerText v n u).reverse ++
          ((reSpaces.replaceFrom " ".toList [] pre1).reverse ++ []),
        reSpaces.replaceFrom " ".toList l1 out, [(3, u), (2, n), (1, v)]⟩ := by
    rw [hnormalized]
    unfold Re.exec
    rw [searchFrom_skip startsWith_reFull _ _ _ hpre5]
    exact searchFrom_of_first (first_reFull hv (isNodeText_of_known hn) hu footerText_full)
  have hval' : digitsValue u < 9007199254740992 := by simpa using hval
  simp only [parseFooter, hexec]
  simp [MState.cap, List.lookup, parseInt, hval']

/-- C2 (witness): the footer of the script's header comment inside a page. -/
theorem parseFooter_footer_witness :
    parseFooter ("<p class=\"v1\">Version: ".toList ++
        (footerText ("9".toList ++ '.' :: ("14".toList ++ '.' :: "7".toList)) "I068".toList
          "3".toList ++ "</p>".toList)) =
      some ⟨some ("9".toList ++ '.' :: ("14".toList ++ '.' :: "7".toList)),
        toLowerCase "I068".toList, some (.exact (digitsValue "3".toList))⟩ :=
  parseFooter_footer "<p class=\"v1\">Version: ".toList " Version: ".toList "</p>".toList
    "9".toList "14".toList "7".toList "I068".toList "3".toList
    (Strips.tag "p class=\"v1\"".toList (by decide) (by decide)
      (strips_plain "Version: ".toList (by decide)))
    (by decide) ⟨by decide, by decide⟩ ⟨by decide, by decide⟩
    ⟨by decide, by decide⟩ ⟨'I', '8', Or.inr rfl, Or.inr (Or.inl rfl), rfl⟩
    ⟨by decide, by decide⟩ (by decide)

/-- C10 (counterexample): the text `<i067>` contains the bare token `i067` between two
characters that are not word characters, and no hyphen or dash at all, and `parseFooter`
returns null for it: the token lies inside a tag, which the normalisation strips. And the
text `i068 I067` contains the bare token `I067` after a space, and the node id returned
is `i068`, the first token. -/
theorem parseFooter_null_for_node_in_tag :
    ("<i067>".toList = "<".toList ++ ("i067".toList ++ ">".toList) ∧
      isWordAt "<".toList.getLast? = false ∧ isWordAt ">".toList.head? = false ∧
      ("<i067>".toList.all fun c => !isDash c) = true ∧
      parseFooter "<i067>".toList = none) ∧
    ("i068 I067".toList = "i068 ".toList ++ ("I067".toList ++ []) ∧
      isWordAt "i068 ".toList.getLast? = false ∧
      ("i068 I067".toList.all fun c => !isDash c) = true ∧
      parseFooter "i068 I067".toList = some ⟨none, "i068".toList, none⟩) := by
  decide

/-- C10 (amended): for every input text made of a prefix, a node id `i067`, `i068` or
`i069` (the `i` in either case) and a rest, where the prefix consists of complete tags and
of characters other than `<` and, with its tags replaced by spaces, has no `&`, no hyphen
or en dash and no `i` followed by `0` and does not end with a word character, and the rest
has no hyphen or en dash and does not start with a word character, `parseFooter` returns
the node id in lowercase with a null version and a null response time. -/
theorem parseFooter_bare_node (pre pre1 post n : JSString) (hn : IsKnownNodeText n)
    (hs : Strips pre pre1)
    (hpre : ∀ c ∈ pre1, (c == '&') = false ∧ isDash c = false)
    (hpre0 : containsI0 pre1 = false) (hb1 : isWordAt pre1.getLast? = false)
    (hpost : ∀ c ∈ post, isDash c = false) (hb2 : isWordAt post.head? = false) :
    parseFooter (pre ++ (n ++ post)) = some ⟨none, toLowerCase n, none⟩ := by
  have hnplain := isPlainChar_of_known hn
  have hnchars : ∀ c ∈ n, (c == '<') = false ∧ (c == '&') = false ∧ isSpace c = false ∧
      isDash c = false := by
    intro c hc
    have hp := hnplain c hc
    simp only [isPlainChar, Bool.and_eq_true, Bool.not_eq_true'] at hp
    refine ⟨hp.1.1, hp.1.2, hp.2, ?_⟩
    obtain ⟨c0, x, hc0, hx, rfl⟩ := hn
    simp only [List.mem_cons, List.mem_singleton, List.not_mem_nil, or_false] at hc
    rcases hc with rfl | rfl | rfl | rfl
    · rcases hc0 with h | h <;> subst h <;> decide
    · decide
    · decide
    · rcases hx with h | h | h <;> subst h <;> decide
  obtain ⟨out, hdec, hnorm⟩ := normalize_stripped_head n post hs
    (fun c hc => (hpre c hc).1) (fun c hc => ⟨(hnchars c hc).1, (hnchars c hc).2.1⟩)
  have hnhead : ∀ b, stopsAt isSpace (n ++ b) = true := by
    intro b
    obtain ⟨c0, x, hc0, hx, rfl⟩ := hn
    have : isSpace c0 = false := by rcases hc0 with h | h <;> subst h <;> decide
    simp [stopsAt, this]
  have hnormalized : normalize (pre ++ (n ++ post)) =
      reSpaces.replaceFrom " ".toList [] pre1 ++
        (n ++ reSpaces.replaceFrom " ".toList (n.reverse ++ (pre1.reverse ++ [])) out) := by
    rw [hnorm, replaceAll_reSpaces_append _ _ _ _ (Or.inl (hnhead out)),
      replaceFrom_reSpaces_plain _ _ _ (fun c hc => (hnchars c hc).2.2.1)]
  have hr1 := replaceFrom_rewrites' reSpaces " ".toList [] pre1
  have hr2 := replaceFrom_rewrites' reSpaces " ".toList (n.reverse ++ (pre1.reverse ++ [])) out
  generalize reSpaces.replaceFrom " ".toList [] pre1 = pre5 at hnormalized hr1
  generalize reSpaces.replaceFrom " ".toList (n.reverse ++ (pre1.reverse ++ [])) out = post5
    at hnormalized hr2
  have hdash : ∀ c ∈ pre5 ++ (n ++ post5), isDash c = false := by
    intro c hc
    simp only [List.mem_append] at hc
    rcases hc with h | h | h
    · rcases rewrites_mem hr1 c h with h1 | h1
      · exact (hpre c h1).2
      · simp only [String.toList, List.mem_singleton] at h1
        subst h1
        decide
    · exact (hnchars c h).2.2.2
    · rcases rewrites_mem hr2 c h with h1 | h1
      · rcases decoded_mem hdec c h1 with h2 | rfl | rfl
        · exact hpost c h2
        · decide
        · decide
      · simp only [String.toList, List.mem_singleton] at h1
        subst h1
        decide
  have hfull : reFull.exec (pre5 ++ (n ++ post5)) = none :=
    exec_none_of_no_dash _ reFull_needs_dash hdash
  have hpartial : rePartial.exec (pre5 ++ (n ++ post5)) = none :=
    exec_none_of_no_dash _ rePartial_needs_dash hdash
  have hpre5 : containsI0 pre5 = false := by
    cases h : containsI0 pre5 with
    | false => rfl
    | true => rw [rewrites_containsI0 hr1 h] at hpre0; cases hpre0
  have hl : isWordAt (pre5.reverse ++ []).head? = false := by
    rw [List.append_nil, List.head?_reverse]
    cases h : isWordAt pre5.getLast? with
    | false => rfl
    | true => rw [rewrites_last_word (x := ' ') (by decide) hr1 h] at hb1; cases hb1
  have ht : isWordAt post5.head? = false := by
    cases h : isWordAt post5.head? with
    | false => rfl
    | true =>
      rw [decoded_head_word hdec (rewrites_head_word (x := ' ') (by decide) hr2 h)] at hb2
      cases hb2
  have hni0 : ∀ c b, startsWithI0 (c :: (n ++ b)) = true → False := by
    intro c b h
    obtain ⟨c0, x, hc0, hx, rfl⟩ := hn
    simp only [List.cons_append, startsWithI0, Bool.and_eq_true, beq_iff_eq] at h
    rcases hc0 with h0 | h0 <;> subst h0 <;> exact absurd h.2 (by decide)
  have hfb : reFallback.exec (pre5 ++ (n ++ post5)) =
      some ⟨n.reverse ++ (pre5.reverse ++ []), post5, [(1, n)]⟩ := by
    unfold Re.exec
    rw [searchFrom_skip_of (n ++ post5) pre5 [] (fun a1 c a2 e => by
      apply matchAt_reFallback_none
      rw [e] at hpre5
      cases a2 with
      | nil =>
        cases hs : startsWithI0 (c :: ([] ++ (n ++ post5))) with
        | false => rfl
        | true => exact (hni0 c post5 (by simpa using hs)).elim
      | cons d a2 =>
        cases hs : startsWithI0 (c :: (d :: a2 ++ (n ++ post5))) with
        | false => rfl
        | true =>
          exfalso
          have h1 : containsI0 (c :: d :: a2) = true := by
            simp only [startsWithI0, List.cons_append] at hs
            simp [containsI0, startsWithI0, hs]
          rw [containsI0_append_left a1 h1] at hpre5
          cases hpre5)]
    exact searchFrom_of_first (first_reFallback hn hl ht)
  simp only [parseFooter, hnormalized, hfull, hpartial, hfb]
  simp [MState.cap, List.lookup]

/-- C10 (witness): a node id in upper case in a sentence of a page. -/
theorem parseFooter_bare_node_witness :
    parseFooter ("<p id=\"n-1\">Served by node: ".toList ++
        ("I069".toList ++ " (idle)</p>".toList)) =
      some ⟨none, toLowerCase "I069".toList, none⟩ :=
  parseFooter_bare_node "<p id=\"n-1\">Served by node: ".toList " Served by node: ".toList
    " (idle)</p>".toList "I069".toList
    ⟨'I', '9', Or.inr rfl, Or.inr (Or.inr rfl), rfl⟩
    (Strips.tag "p id=\"n-1\"".toList (by decide) (by decide)
      (strips_plain "Served by node: ".toList (by decide)))
    (by decide) (by decide) (by decide) (by decide) (by decide)

/-- C11: the three patterns are applied in priority order over the whole normalised text.
If the primary pattern matches anywhere, `parseFooter` returns the result of a primary
match (version, node id, response time), whatever comes earlier in the text; otherwise, if
the secondary pattern matches anywhere, it returns the result of a secondary match (null
response time); otherwise, if the fallback pattern matches anywhere, it returns the result
of a fallback match (null version); otherwise it returns null. So a fallback result is
returned only when neither of the first two patterns matches anywhere. -/
theorem parseFooter_priority (html : JSString) :
    ((∃ v n t, FullMatchIn (normalize html) v n t) →
      ∃ v n t, FullMatchIn (normalize html) v n t ∧
        parseFooter html = some ⟨some v, toLowerCase n, some (parseInt t)⟩) ∧
    ((¬ ∃ v n t, FullMatchIn (normalize html) v n t) →
      (∃ v n, PartialMatchIn (normalize html) v n) →
      ∃ v n, PartialMatchIn (normalize html) v n ∧
        parseFooter html = some ⟨some v, toLowerCase n, none⟩) ∧
    ((¬ ∃ v n t, FullMatchIn (normalize html) v n t) →
      (¬ ∃ v n, PartialMatchIn (normalize html) v n) →
      (∃ n, FallbackMatchIn (normalize html) n) →
      ∃ n, FallbackMatchIn (normalize html) n ∧
        parseFooter html = some ⟨none, toLowerCase n, none⟩) ∧
    ((¬ ∃ v n t, FullMatchIn (normalize html) v n t) →
      (¬ ∃ v n, PartialMatchIn (normalize html) v n) →
      (¬ ∃ n, FallbackMatchIn (normalize html) n) → parseFooter html = none) ∧
    (∀ p, parseFooter html = some p → p.version = none →
      (¬ ∃ v n t, FullMatchIn (normalize html) v n t) ∧
      (¬ ∃ v n, PartialMatchIn (normalize html) v n)) := by
  have key : ∀ p, parseFooter html = some p →
      (∃ v n t, FullMatchIn (normalize html) v n t ∧
        p = ⟨some v, toLowerCase n, some (parseInt t)⟩) ∨
      ((¬ ∃ v n t, FullMatchIn (normalize html) v n t) ∧
        ∃ v n, PartialMatchIn (normalize html) v n ∧ p = ⟨some v, toLowerCase n, none⟩) ∨
      ((¬ ∃ v n t, FullMatchIn (normalize html) v n t) ∧
        (¬ ∃ v n, PartialMatchIn (normalize html) v n) ∧
        ∃ n, FallbackMatchIn (normalize html) n ∧ p = ⟨none, toLowerCase n, none⟩) :=
    fun p hp => parseFooter_shapes hp
  have some_of : (∃ m, reFull.exec (normalize html) = some m) ∨
      (∃ m, rePartial.exec (normalize html) = some m) ∨
      (∃ m, reFallback.exec (normalize html) = some m) → ∃ p, parseFooter html = some p := by
    intro h
    rcases parseFooter_cases html with ⟨m, _, hp⟩ | ⟨_, m, _, hp⟩ | ⟨_, _, m, _, hp⟩ |
      ⟨h1, h2, h3, _⟩
    · exact ⟨_, hp⟩
    · exact ⟨_, hp⟩
    · exact ⟨_, hp⟩
    · rcases h with ⟨m, hm⟩ | ⟨m, hm⟩ | ⟨m, hm⟩
      · rw [h1] at hm; cases hm
      · rw [h2] at hm; cases hm
      · rw [h3] at hm; cases hm
  refine ⟨?_, ?_, ?_, ?_, ?_⟩
  · rintro ⟨v, n, t, hf⟩
    obtain ⟨p, hp⟩ := some_of (Or.inl (exec_reFull_of_match hf))
    rcases key p hp with ⟨v1, n1, t1, h1, rfl⟩ | ⟨h1, _⟩ | ⟨h1, _⟩
    · exact ⟨v1, n1, t1, h1, hp⟩
    · exact absurd ⟨v, n, t, hf⟩ h1
    · exact absurd ⟨v, n, t, hf⟩ h1
  · rintro hnf ⟨v, n, hf⟩
    obtain ⟨p, hp⟩ := some_of (Or.inr (Or.inl (exec_rePartial_of_match hf)))
    rcases key p hp with ⟨v1, n1, t1, h1, _⟩ | ⟨_, v1, n1, h1, rfl⟩ | ⟨_, h1, _⟩
    · exact absurd ⟨v1, n1, t1, h1⟩ hnf
    · exact ⟨v1, n1, h1, hp⟩
    · exact absurd ⟨v, n, hf⟩ h1
  · rintro hnf hnp ⟨n, hf⟩
    obtain ⟨p, hp⟩ := some_of (Or.inr (Or.inr (exec_reFallback_of_match hf)))
    rcases key p hp with ⟨v1, n1, t1, h1, _⟩ | ⟨_, v1, n1, h1, _⟩ | ⟨_, _, n1, h1, rfl⟩
    · exact absurd ⟨v1, n1, t1, h1⟩ hnf
    · exact absurd ⟨v1, n1, h1⟩ hnp
    · exact ⟨n1, h1, hp⟩
  · intro hnf hnp hnb
    cases hp : parseFooter html with
    | none => rfl
    | some p =>
      rcases key p hp with ⟨v1, n1, t1, h1, _⟩ | ⟨_, v1, n1, h1, _⟩ | ⟨_, _, n1, h1, _⟩
      · exact absurd ⟨v1, n1, t1, h1⟩ hnf
      · exact absurd ⟨v1, n1, h1⟩ hnp
      · exact absurd ⟨n1, h1⟩ hnb
  · intro p hp hv
    rcases key p hp with ⟨v1, n1, t1, _, rfl⟩ | ⟨_, v1, n1, _, rfl⟩ | ⟨h1, h2, _⟩
    · cases hv
    · cases hv
    · exact ⟨h1, h2⟩

/-- C11 (witness): a text with a fallback match and a secondary match before a primary
match: the result is that of the primary match. -/
theorem parseFooter_priority_witness :
    parseFooter "i069 1.2.3-i067 4.5.6-i068 | 7 ms".toList =
      some ⟨some "4.5.6".toList, "i068".toList, some (.exact 7)⟩ ∧
    ∃ v n t, FullMatchIn (normalize "i069 1.2.3-i067 4.5.6-i068 | 7 ms".toList) v n t ∧
      parseFooter "i069 1.2.3-i067 4.5.6-i068 | 7 ms".toList =
        some ⟨some v, toLowerCase n, some (parseInt t)⟩ :=
  ⟨by decide, (parseFooter_priority "i069 1.2.3-i067 4.5.6-i068 | 7 ms".toList).1
    ⟨"4.5.6".toList, "i068".toList, "7".toList, "i069 1.2.3-i067 ".toList,
      footerText "4.5.6".toList "i068".toList "7".toList, [], by decide,
      ⟨"4".toList, "5".toList, "6".toList, ⟨by decide, by decide⟩, ⟨by decide, by decide⟩,
        ⟨by decide, by decide⟩, Or.inl rfl⟩,
      ⟨'i', '0', '6', '8', rfl, Or.inl rfl, by decide, by decide, by decide⟩,
      ⟨by decide, by decide⟩, footerText_full⟩⟩

/-- C12: for every input on which `parseFooter` returns a result, the returned
`nodeShortId` is lowercase: it equals its own lowercase form. -/
theorem parseFooter_nodeShortId_lowercase (html : JSString) (p : Parsed)
    (h : parseFooter html = some p) : toLowerCase p.nodeShortId = p.nodeShortId := by
  obtain ⟨d1, d2, d3, hp, h1, h2, h3⟩ := parseFooter_nodeShortId h
  rw [hp]
  have hi : toLowerChar 'i' = 'i' := by decide
  simp [toLowerCase, hi, toLowerChar_digit h1, toLowerChar_digit h2, toLowerChar_digit h3]

/-- C12 (witness): a footer whose node id is written with an uppercase `I`. -/
theorem parseFooter_nodeShortId_lowercase_witness :
    parseFooter "9.14.7-I068 | 3 ms".toList =
      some ⟨some "9.14.7".toList, "i068".toList, some (.exact 3)⟩ ∧
    toLowerCase "i068".toList = "i068".toList :=
  ⟨by decide, parseFooter_nodeShortId_lowercase "9.14.7-I068 | 3 ms".toList
    ⟨some "9.14.7".toList, "i068".toList, some (.exact 3)⟩ (by decide)⟩

/-- C17: every result of `parseFooter` is well-formed. Its `nodeShortId` is exactly four
characters, `i` followed by three decimal digits; its version is null or three or four
non-empty groups of digits separated by dots; a non-null response time comes with a
non-null version; and a null version comes with one of the node ids `i067`, `i068`,
`i069`. -/
theorem parseFooter_well_formed (html : JSString) (p : Parsed)
    (h : parseFooter html = some p) :
    (∃ d1 d2 d3, p.nodeShortId = ['i', d1, d2, d3] ∧ isDigit d1 = true ∧
      isDigit d2 = true ∧ isDigit d3 = true) ∧
    (p.version = none ∨ ∃ v, p.version = some v ∧ IsVersionText v) ∧
    (p.responseTimeMs ≠ none → p.version ≠ none) ∧
    (p.version = none →
      p.nodeShortId = "i067".toList ∨ p.nodeShortId = "i068".toList ∨
        p.nodeShortId = "i069".toList) := by
  refine ⟨parseFooter_nodeShortId h, ?_⟩
  rcases parseFooter_shapes h with ⟨v, n, t, ⟨_, _, _, _, hv, _⟩, rfl⟩ |
    ⟨_, v, n, ⟨_, _, _, _, hv, _⟩, rfl⟩ | ⟨_, _, n, ⟨_, _, _, hn, _⟩, rfl⟩
  · exact ⟨Or.inr ⟨v, rfl, hv⟩, fun _ => by simp, fun h0 => by cases h0⟩
  · exact ⟨Or.inr ⟨v, rfl, hv⟩, fun _ => by simp, fun h0 => by cases h0⟩
  · exact ⟨Or.inl rfl, fun h0 => absurd rfl h0, fun _ => toLowerCase_known hn⟩

/-- C17 (witness): the result for a bare node id. -/
theorem parseFooter_well_formed_witness :
    parseFooter "node I069".toList = some ⟨none, "i069".toList, none⟩ ∧
    ((∃ d1 d2 d3, "i069".toList = ['i', d1, d2, d3] ∧ isDigit d1 = true ∧
      isDigit d2 = true ∧ isDigit d3 = true) ∧
    ((none : Option JSString) = none ∨ ∃ v, (none : Option JSString) = some v ∧
      IsVersionText v) ∧
    ((none : Option JSInt) ≠ none → (none : Option JSString) ≠ none) ∧
    ((none : Option JSString) = none →
      "i069".toList = "i067".toList ∨ "i069".toList = "i068".toList ∨
        "i069".toList = "i069".toList)) :=
  ⟨by decide, parseFooter_well_formed "node I069".toList ⟨none, "i069".toList, none⟩
    (by decide)⟩

/-- C15 (failing input): the footer `9.14.7-i068 | 3 ms` parses to version, node id and
response time; with its hyphen written as the numeric character reference `&#45;` the
normalisation puts a space in its place, so that only the fallback pattern matches and
version and response time are lost. The same happens with an en dash written `&#8211;`. -/
theorem parseFooter_numeric_reference_not_decoded :
    parseFooter "9.14.7-i068 | 3 ms".toList =
      some ⟨some "9.14.7".toList, "i068".toList, some (.exact 3)⟩ ∧
    normalize "9.14.7&#45;i068 | 3 ms".toList = "9.14.7 i068 | 3 ms".toList ∧
    parseFooter "9.14.7&#45;i068 | 3 ms".toList = some ⟨none, "i068".toList, none⟩ ∧
    parseFooter "9.14.7 – i068 | 3 ms".toList =
      some ⟨some "9.14.7".toList, "i068".toList, some (.exact 3)⟩ ∧
    parseFooter "9.14.7 &#8211; i068 | 3 ms".toList = some ⟨none, "i068".toList, none⟩ := by
  decide

/-- On every string that is not the name of an inherited property the general lookup is
the descriptor `resolveNode` gives. -/
theorem resolveNodeValue_eq_resolveNode {shortId : JSString}
    (h : shortId ∉ objectPrototypeKeys) :
    resolveNodeValue shortId = .descriptor (resolveNode shortId) := by
  unfold resolveNodeValue resolveNode
  cases NODE_MAP.lookup shortId with
  | some node => rfl
  | none => simp [h]

/-- The ids which `parseFooter` returns are four characters long, and no inherited
property name is. -/
theorem node_id_not_inherited (c d1 d2 d3 : Char) : [c, d1, d2, d3] ∉ objectPrototypeKeys := by
  intro h
  have hl : ∀ k ∈ objectPrototypeKeys, k.length ≠ 4 := by decide
  exact hl _ h rfl

/-- In the main function the node is always a descriptor, the one `resolveNode` gives:
the model of the `try` block uses `resolveNode` for this reason. -/
theorem resolveNodeValue_of_parseFooter {html : JSString} {p : Parsed}
    (h : parseFooter html = some p) :
    resolveNodeValue p.nodeShortId = .descriptor (resolveNode p.nodeShortId) := by
  obtain ⟨d1, d2, d3, hp, _⟩ := parseFooter_nodeShortId h
  rw [hp]
  exact resolveNodeValue_eq_resolveNode (node_id_not_inherited _ _ _ _)

/-- C13: the node resolver is the expression of the main function, and the id it is given
is always the `nodeShortId` of a result of `parseFooter`. For the known ids it gives the
static descriptor (`i067`: host `idt183067`, label `IDT067`; `i068`: host `idt183068`,
label `IDT068`; `i069`: host `idt183069`, label `IDT069`), and for every other id it
gives the synthesized descriptor, with host `"unknown-" + shortId` and label the
uppercased `shortId`, which is `I` followed by the three digits of the id. -/
theorem resolveNodeValue_parsed (html : JSString) (p : Parsed)
    (h : parseFooter html = some p) :
    (p.nodeShortId = "i067".toList → resolveNodeValue p.nodeShortId =
      .descriptor ⟨"i067".toList, "idt183067".toList, "IDT067".toList⟩) ∧
    (p.nodeShortId = "i068".toList → resolveNodeValue p.nodeShortId =
      .descriptor ⟨"i068".toList, "idt183068".toList, "IDT068".toList⟩) ∧
    (p.nodeShortId = "i069".toList → resolveNodeValue p.nodeShortId =
      .descriptor ⟨"i069".toList, "idt183069".toList, "IDT069".toList⟩) ∧
    (p.nodeShortId ≠ "i067".toList → p.nodeShortId ≠ "i068".toList →
      p.nodeShortId ≠ "i069".toList →
      resolveNodeValue p.nodeShortId =
        .descriptor ⟨p.nodeShortId, "unknown-".toList ++ p.nodeShortId,
          toUpperCase p.nodeShortId⟩ ∧
      ∃ d1 d2 d3, p.nodeShortId = ['i', d1, d2, d3] ∧
        toUpperCase p.nodeShortId = ['I', d1, d2, d3]) := by
  refine ⟨fun e => by rw [e]; rfl, fun e => by rw [e]; rfl, fun e => by rw [e]; rfl, ?_⟩
  intro h1 h2 h3
  obtain ⟨d1, d2, d3, hp, g1, g2, g3⟩ := parseFooter_nodeShortId h
  have hl : NODE_MAP.lookup p.nodeShortId = none := by
    simp only [NODE_MAP, List.lookup]
    have e1 : (p.nodeShortId == "i067".toList) = false := by simpa using h1
    have e2 : (p.nodeShortId == "i068".toList) = false := by simpa using h2
    have e3 : (p.nodeShortId == "i069".toList) = false := by simpa using h3
    rw [e1, e2, e3]
  have hproto : p.nodeShortId ∉ objectPrototypeKeys := by
    rw [hp]
    exact node_id_not_inherited _ _ _ _
  refine ⟨?_, d1, d2, d3, hp, ?_⟩
  · unfold resolveNodeValue
    rw [hl]
    simp [hproto]
  · rw [hp]
    have hu : ∀ d, isDigit d = true → toUpperChar d = d := by
      intro d hd
      simp only [isDigit, Bool.and_eq_true, decide_eq_true_eq] at hd
      have : ¬ (97 ≤ d.toNat ∧ d.toNat ≤ 122) := by omega
      simp [toUpperChar, this]
    have hi : toUpperChar 'i' = 'I' := by decide
    simp [toUpperCase, hi, hu d1 g1, hu d2 g2, hu d3 g3]

/-- C13 (witness): a page served by a node `i123`, which is not in the table. -/
theorem resolveNodeValue_parsed_witness :
    parseFooter "1.2.3-i123".toList = some ⟨some "1.2.3".toList, "i123".toList, none⟩ ∧
    resolveNodeValue "i123".toList =
      .descriptor ⟨"i123".toList, "unknown-i123".toList, "I123".toList⟩ :=
  ⟨by decide, ((resolveNodeValue_parsed "1.2.3-i123".toList
    ⟨some "1.2.3".toList, "i123".toList, none⟩ (by decide)).2.2.2 (by decide) (by decide)
    (by decide)).1⟩

/-- The code follows a response exactly when it is a 3xx response with a non-empty
`Location` header. -/
theorem isRedirect_iff (res : Response) :
    res.isRedirect = true ↔
      (300 ≤ res.statusCode ∧ res.statusCode < 400) ∧
        ∃ c loc, res.location = some (c :: loc) := by
  unfold Response.isRedirect
  cases hl : res.location with
  | none => simp
  | some l =>
    cases l with
    | nil => simp
    | cons c loc => simp [and_assoc]

/-- One step of `followedTo`. -/
theorem followedTo_cons {resolveUrl : JSString → JSString → Option JSString}
    {res : Response} {hops : List Response} {url last : JSString}
    (h : followedTo resolveUrl (res :: hops) url = some last) :
    res.isRedirect = true ∧ ∃ next, nextUrl resolveUrl (res.location.getD []) url = some next ∧
      followedTo resolveUrl hops next = some last := by
  unfold followedTo at h
  cases hl : res.location with
  | none => rw [hl] at h; cases h
  | some l =>
    cases l with
    | nil => rw [hl] at h; cases h
    | cons c loc =>
      rw [hl] at h
      simp only at h
      by_cases h3 : 300 ≤ res.statusCode ∧ res.statusCode < 400
      · rw [if_pos h3] at h
        cases hn : nextUrl resolveUrl (c :: loc) url with
        | none => rw [hn] at h; cases h
        | some next =>
          rw [hn] at h
          exact ⟨(isRedirect_iff res).2 ⟨h3, c, loc, hl⟩, next, by simpa using hn, h⟩
      · rw [if_neg h3] at h; cases h

/-- The guard at the head of `fetchPage`. -/
theorem fetchPage_guard (resolveUrl : JSString → JSString → Option JSString)
    (net : List NetEvent) (url : JSString) {redirects : Nat} (h : redirects > 5) :
    fetchPage resolveUrl net url redirects = .settled (.failed "Too many redirects".toList) := by
  cases net with
  | nil => simp [fetchPage, h]
  | cons e net => simp [fetchPage, h]

/-- A followed redirect: the function calls itself on the next URL with one more
redirect counted. -/
theorem fetchPage_redirect (resolveUrl : JSString → JSString → Option JSString)
    {res : Response} (net : List NetEvent) {url next : JSString} {redirects : Nat}
    (hr : redirects ≤ 5) (hres : res.isRedirect = true)
    (hn : nextUrl resolveUrl (res.location.getD []) url = some next) :
    fetchPage resolveUrl (.response res :: net) url redirects =
      fetchPage resolveUrl net next (redirects + 1) := by
  have hg : ¬ redirects > 5 := by omega
  rw [fetchPage]
  simp only [hg, if_false, hres, if_true, hn]

/-- A response which is not followed settles the promise. -/
theorem fetchPage_final (resolveUrl : JSString → JSString → Option JSString)
    {res : Response} (net : List NetEvent) (url : JSString) {redirects : Nat}
    (hr : redirects ≤ 5) (hres : res.isRedirect = false) :
    fetchPage resolveUrl (.response res :: net) url redirects =
      if res.statusCode = 200 then .settled (.body res.body)
      else .settled (.failed (httpMessage res.statusCode)) := by
  have hg : ¬ redirects > 5 := by omega
  rw [fetchPage]
  simp only [hg, if_false, hres, Bool.false_eq_true]
  by_cases h : res.statusCode = 200
  · simp [h]
  · simp [h]

/-- Following a chain of redirects within the limit leads to the call on the last URL. -/
theorem fetchPage_follow (resolveUrl : JSString → JSString → Option JSString)
    (rest : List NetEvent) :
    ∀ (hops : List Response) (url last : JSString) (redirects : Nat),
      followedTo resolveUrl hops url = some last → redirects + hops.length ≤ 6 →
      fetchPage resolveUrl (hops.map .response ++ rest) url redirects =
        fetchPage resolveUrl rest last (redirects + hops.length) := by
  intro hops
  induction hops with
  | nil =>
    intro url last redirects h _
    simp only [followedTo, Option.some.injEq] at h
    subst h
    rfl
  | cons res hops ih =>
    intro url last redirects h hlen
    obtain ⟨hres, next, hn, hf⟩ := followedTo_cons h
    simp only [List.length_cons] at hlen
    simp only [List.map_cons, List.cons_append]
    rw [fetchPage_redirect resolveUrl _ (by omega) hres hn, ih next last (redirects + 1) hf (by omega)]
    simp only [List.length_cons]
    congr 1
    omega

/-- A chain of followed redirects that reaches the limit ends in the rejection. -/
theorem fetchPage_too_many (resolveUrl : JSString → JSString → Option JSString)
    (rest : List NetEvent) :
    ∀ (hops : List Response) (url last : JSString) (redirects : Nat),
      followedTo resolveUrl hops url = some last → 6 ≤ redirects + hops.length →
      fetchPage resolveUrl (hops.map .response ++ rest) url redirects =
        .settled (.failed "Too many redirects".toList) := by
  intro hops
  induction hops with
  | nil =>
    intro url last redirects _ hlen
    simp only [List.length_nil, Nat.add_zero] at hlen
    exact fetchPage_guard resolveUrl _ url (by omega)
  | cons res hops ih =>
    intro url last redirects h hlen
    by_cases hg : redirects > 5
    · exact fetchPage_guard resolveUrl _ url hg
    · obtain ⟨hres, next, hn, hf⟩ := followedTo_cons h
      simp only [List.length_cons] at hlen
      simp only [List.map_cons, List.cons_append]
      rw [fetchPage_redirect resolveUrl _ (by omega) hres hn]
      exact ih next last (redirects + 1) hf (by omega)

/-- Building `followedTo` from one followed redirect. -/
theorem followedTo_intro {resolveUrl : JSString → JSString → Option JSString}
    {res : Response} {hops : List Response} {url next last : JSString}
    (hres : res.isRedirect = true)
    (hn : nextUrl resolveUrl (res.location.getD []) url = some next)
    (hf : followedTo resolveUrl hops next = some last) :
    followedTo resolveUrl (res :: hops) url = some last := by
  obtain ⟨h3, c, loc, hl⟩ := (isRedirect_iff res).1 hres
  rw [hl] at hn
  simp only [Option.getD_some] at hn
  unfold followedTo
  rw [hl]
  simp only [h3, and_self, if_true, hn]
  exact hf

/-- A response that is not a 3xx response with a non-empty `Location` header is not
followed. -/
theorem isRedirect_false_of_terminal {res : Response}
    (hterm : res.statusCode < 300 ∨ 400 ≤ res.statusCode ∨ res.location = none ∨
      res.location = some []) : res.isRedirect = false := by
  cases hr : res.isRedirect with
  | false => rfl
  | true =>
    obtain ⟨⟨h1, h2⟩, c, loc, hl⟩ := (isRedirect_iff res).1 hr
    rcases hterm with h | h | h | h
    · omega
    · omega
    · rw [hl] at h; cases h
    · rw [hl] at h; cases h

/-- A body comes only from a response with status 200 that is reached through followed
redirects. -/
theorem fetchPage_body_source (resolveUrl : JSString → JSString → Option JSString) :
    ∀ (net : List NetEvent) (url : JSString) (redirects : Nat) (b : JSString),
      fetchPage resolveUrl net url redirects = .settled (.body b) →
      ∃ hops res rest last, net = hops.map .response ++ .response res :: rest ∧
        followedTo resolveUrl hops url = some last ∧ res.isRedirect = false ∧
        res.statusCode = 200 ∧ res.body = b := by
  intro net
  induction net with
  | nil =>
    intro url redirects b h
    rw [fetchPage] at h
    by_cases hg : redirects > 5
    · rw [if_pos hg] at h; cases h
    · rw [if_neg hg] at h; cases h
  | cons e net ih =>
    intro url redirects b h
    by_cases hg : redirects > 5
    · rw [fetchPage_guard resolveUrl _ url hg] at h; cases h
    · cases e with
      | response res =>
        cases hres : res.isRedirect with
        | true =>
          cases hn : nextUrl resolveUrl (res.location.getD []) url with
          | none =>
            rw [fetchPage] at h
            simp only [hg, if_false, hres, if_true, hn] at h
            cases h
          | some next =>
            rw [fetchPage_redirect resolveUrl _ (by omega) hres hn] at h
            obtain ⟨hops, res1, rest, last, hnet, hf, h1, h2, h3⟩ := ih next (redirects + 1) b h
            refine ⟨res :: hops, res1, rest, last, ?_, followedTo_intro hres hn hf, h1, h2, h3⟩
            rw [hnet]
            rfl
        | false =>
          rw [fetchPage_final resolveUrl _ url (by omega) hres] at h
          by_cases h2 : res.statusCode = 200
          · rw [if_pos h2] at h
            simp only [FetchResult.settled.injEq, FetchOutcome.body.injEq] at h
            exact ⟨[], res, net, url, rfl, rfl, hres, h2, h⟩
          · rw [if_neg h2] at h; cases h
      | error message =>
        rw [fetchPage] at h
        simp only [hg, if_false] at h
        cases h
      | timeout =>
        rw [fetchPage] at h
        simp only [hg, if_false] at h
        cases h

/-- C14 (counterexample): one 3xx response carrying a `Location` header, followed by a
200 response with a body, and `fetchPage` started with no redirect counted does not
return the body: the header is empty, which the test of the code takes as absent, so the
3xx response is final. -/
theorem fetchPage_empty_location_not_followed :
    fetchPage sampleResolveUrl
      [.response ⟨302, some [], []⟩, .response ⟨200, none, "9.14.7-i068 | 3 ms".toList⟩]
      sampleUrl 0 = .settled (.failed "HTTP 302".toList) ∧
    fetchPage sampleResolveUrl
      [.response ⟨302, some [], []⟩, .response ⟨200, none, "9.14.7-i068 | 3 ms".toList⟩]
      sampleUrl 0 ≠ .settled (.body "9.14.7-i068 | 3 ms".toList) := by
  decide

/-- C14 (amended): the first `k` responses are 3xx responses with a non-empty `Location`
header which the code can follow (the location starts with `http`, or it resolves
against the URL just requested), and the next response is a 200 with a body. Then
`fetchPage` started with `redirects = 0` returns that body for every `k ≤ 5` and is
rejected with `Too many redirects` for every `k ≥ 6`. -/
theorem fetchPage_redirect_limit (resolveUrl : JSString → JSString → Option JSString)
    (hops : List Response) (url last : JSString) (res : Response) (rest : List NetEvent)
    (hfollow : followedTo resolveUrl hops url = some last) (h200 : res.statusCode = 200) :
    (hops.length ≤ 5 →
      fetchPage resolveUrl (hops.map .response ++ .response res :: rest) url 0 =
        .settled (.body res.body)) ∧
    (6 ≤ hops.length →
      fetchPage resolveUrl (hops.map .response ++ .response res :: rest) url 0 =
        .settled (.failed "Too many redirects".toList)) := by
  constructor
  · intro hlen
    rw [fetchPage_follow resolveUrl _ hops url last 0 hfollow (by omega),
      fetchPage_final resolveUrl _ last (by omega)
        (isRedirect_false_of_terminal (Or.inl (by omega))), if_pos h200]
  · intro hlen
    exact fetchPage_too_many resolveUrl _ hops url last 0 hfollow (by omega)

/-- C14 (witness): five redirects and then the page, and six redirects and then the
page. -/
theorem fetchPage_redirect_limit_witness :
    fetchPage sampleResolveUrl
      [.response sampleRedirect, .response sampleMoved, .response sampleRedirect,
       .response sampleMoved, .response sampleRedirect, .response samplePage]
      sampleUrl 0 = .settled (.body samplePage.body) ∧
    fetchPage sampleResolveUrl
      [.response sampleRedirect, .response sampleMoved, .response sampleRedirect,
       .response sampleMoved, .response sampleRedirect, .response sampleMoved,
       .response samplePage]
      sampleUrl 0 = .settled (.failed "Too many redirects".toList) :=
  ⟨(fetchPage_redirect_limit sampleResolveUrl
      [sampleRedirect, sampleMoved, sampleRedirect, sampleMoved, sampleRedirect]
      sampleUrl "https://webgate.ec.europa.eu/cas/login".toList samplePage [] (by decide)
      (by decide)).1 (by decide),
   (fetchPage_redirect_limit sampleResolveUrl
      [sampleRedirect, sampleMoved, sampleRedirect, sampleMoved, sampleRedirect, sampleMoved]
      sampleUrl "https://ecas.ec.europa.eu/cas/".toList samplePage [] (by decide)
      (by decide)).2 (by decide)⟩

/-- C18: `fetchPage` returns a body only when the final response has status 200. A final
response is one that is not a 3xx response with a non-empty `Location` header, reached
through followed redirects within the limit. If its status is 200 the body is returned;
for every other status `c`, a 2xx other than 200 and a 3xx without `Location` included,
the promise is rejected with the message `HTTP c`. And whenever a body is returned, it is
the body of such a final response with status 200. -/
theorem fetchPage_body_only_for_200 (resolveUrl : JSString → JSString → Option JSString)
    (hops : List Response) (url last : JSString) (res : Response) (rest : List NetEvent)
    (redirects : Nat)
    (hfollow : followedTo resolveUrl hops url = some last)
    (hlen : redirects + hops.length ≤ 5)
    (hterm : res.statusCode < 300 ∨ 400 ≤ res.statusCode ∨ res.location = none ∨
      res.location = some []) :
    (res.statusCode = 200 →
      fetchPage resolveUrl (hops.map .response ++ .response res :: rest) url redirects =
        .settled (.body res.body)) ∧
    (res.statusCode ≠ 200 →
      fetchPage resolveUrl (hops.map .response ++ .response res :: rest) url redirects =
        .settled (.failed ("HTTP ".toList ++ (Nat.repr res.statusCode).toList))) ∧
    (∀ net u r b, fetchPage resolveUrl net u r = .settled (.body b) →
      ∃ hops1 res1 rest1 last1, net = hops1.map .response ++ .response res1 :: rest1 ∧
        followedTo resolveUrl hops1 u = some last1 ∧ res1.isRedirect = false ∧
        res1.statusCode = 200 ∧ res1.body = b) := by
  have hstep : fetchPage resolveUrl (hops.map .response ++ .response res :: rest) url
      redirects = if res.statusCode = 200 then .settled (.body res.body)
        else .settled (.failed (httpMessage res.statusCode)) := by
    rw [fetchPage_follow resolveUrl _ hops url last redirects hfollow (by omega),
      fetchPage_final resolveUrl _ last (by omega) (isRedirect_false_of_terminal hterm)]
  refine ⟨fun h => ?_, fun h => ?_, fetchPage_body_source resolveUrl⟩
  · rw [hstep, if_pos h]
  · rw [hstep, if_neg h]
    rfl

/-- C18 (witness): after one redirect, a response with status 204 and one with status 304
and no `Location`. -/
theorem fetchPage_body_only_for_200_witness :
    fetchPage sampleResolveUrl [.response sampleRedirect, .response ⟨204, none, []⟩]
      sampleUrl 0 = .settled (.failed "HTTP 204".toList) ∧
    fetchPage sampleResolveUrl [.response sampleRedirect, .response ⟨304, none, []⟩]
      sampleUrl 0 = .settled (.failed "HTTP 304".toList) ∧
    fetchPage sampleResolveUrl [.response sampleRedirect, .response samplePage]
      sampleUrl 0 = .settled (.body samplePage.body) :=
  ⟨(fetchPage_body_only_for_200 sampleResolveUrl [sampleRedirect] sampleUrl
      "https://webgate.ec.europa.eu/cas/login".toList ⟨204, none, []⟩ [] 0 (by decide)
      (by decide) (Or.inl (by decide))).2.1 (by decide),
   (fetchPage_body_only_for_200 sampleResolveUrl [sampleRedirect] sampleUrl
      "https://webgate.ec.europa.eu/cas/login".toList ⟨304, none, []⟩ [] 0 (by decide)
      (by decide) (Or.inr (Or.inr (Or.inl rfl)))).2.1 (by decide),
   (fetchPage_body_only_for_200 sampleResolveUrl [sampleRedirect] sampleUrl
      "https://webgate.ec.europa.eu/cas/login".toList samplePage [] 0 (by decide)
      (by decide) (Or.inl (by decide))).1 (by decide)⟩

/-- The entries of the table. -/
theorem lookup_NODE_MAP {id : JSString} {node : NodeDescriptor}
    (h : NODE_MAP.lookup id = some node) :
    (id = "i067".toList ∧ node = ⟨"i067".toList, "idt183067".toList, "IDT067".toList⟩) ∨
    (id = "i068".toList ∧ node = ⟨"i068".toList, "idt183068".toList, "IDT068".toList⟩) ∨
    (id = "i069".toList ∧ node = ⟨"i069".toList, "idt183069".toList, "IDT069".toList⟩) := by
  simp only [NODE_MAP, List.lookup] at h
  by_cases h1 : id = "i067".toList
  · subst h1
    simp at h
    exact Or.inl ⟨rfl, h.symm⟩
  · have e1 : (id == "i067".toList) = false := by simpa using h1
    rw [e1] at h
    by_cases h2 : id = "i068".toList
    · subst h2
      simp at h
      exact Or.inr (Or.inl ⟨rfl, h.symm⟩)
    · have e2 : (id == "i068".toList) = false := by simpa using h2
      rw [e2] at h
      by_cases h3 : id = "i069".toList
      · subst h3
        simp at h
        exact Or.inr (Or.inr ⟨rfl, h.symm⟩)
      · have e3 : (id == "i069".toList) = false := by simpa using h3
        rw [e3] at h
        cases h

/-- A key of the table is not the empty string. -/
theorem lookup_NODE_MAP_ne_nil {id : JSString} {node : NodeDescriptor}
    (h : NODE_MAP.lookup id = some node) : id ≠ [] := by
  rcases lookup_NODE_MAP h with ⟨rfl, _⟩ | ⟨rfl, _⟩ | ⟨rfl, _⟩ <;> decide

/-- The `nodeShortId` property of a written record. -/
theorem toJson_prop_nodeShortId (p : Record) :
    (Record.toJson p).prop keyNodeShortId = some (optStr p.nodeShortId) := by
  have h1 : (keyNodeShortId == "timestamp".toList) = false := by decide
  have h2 : (keyNodeShortId == "status".toList) = false := by decide
  have h3 : (keyNodeShortId == keyNodeShortId) = true := by decide
  simp only [Record.toJson, Json.prop, List.lookup]
  simp only [h1, h2, h3]

/-- The rule of the orchestrator on a written record and a new record which both have a
non-empty node id: the ids differ. -/
theorem failoverDetected_toJson {p r : Record} {pid id : JSString}
    (hp : p.nodeShortId = some pid) (hr : r.nodeShortId = some id) (hpid : pid ≠ [])
    (hid : id ≠ []) : failoverDetected (some (Record.toJson p)) r = (pid != id) := by
  have ht : (Record.toJson p).truthy = true := rfl
  simp only [failoverDetected, ht, toJson_prop_nodeShortId, hp, hr, optStr, Bool.true_and]
  have e1 : pid.isEmpty = false := by cases pid with
    | nil => exact absurd rfl hpid
    | cons _ _ => rfl
  have e2 : id.isEmpty = false := by cases id with
    | nil => exact absurd rfl hid
    | cons _ _ => rfl
  simp [Json.truthy, Json.strictNeStr, e1, e2]

/-- Splitting a list with one more element at its end. -/
theorem snoc_split {α : Type} {pre post l : List α} {x r : α}
    (h : l ++ [r] = pre ++ x :: post) :
    (post = [] ∧ pre = l ∧ x = r) ∨ ∃ post1, post = post1 ++ [r] ∧ l = pre ++ x :: post1 := by
  rcases List.eq_nil_or_concat post with hp | ⟨post1, b, hp⟩
  · subst hp
    have h1 : l ++ [r] = pre ++ [x] := h
    obtain ⟨h2, h3⟩ := List.append_inj' h1 rfl
    simp only [List.cons.injEq, and_true] at h3
    exact Or.inl ⟨rfl, h2.symm, h3.symm⟩
  · subst hp
    have h1 : l ++ [r] = (pre ++ x :: post1) ++ [b] := by
      rw [h]; simp
    obtain ⟨h2, h3⟩ := List.append_inj' h1 rfl
    simp only [List.cons.injEq, and_true] at h3
    subst h3
    exact Or.inr ⟨post1, by simp, h2⟩

/-- The records of a chain, one more pushed. -/
theorem seedChain_push {records : List Record} {r : Record} (hc : SeedChain records)
    (hok : SeedOk r)
    (hf : r.failover = failoverDetected (records.getLast?.map Record.toJson) r) :
    SeedChain (records ++ [r]) := by
  intro pre x post h
  rcases snoc_split h with ⟨_, rfl, rfl⟩ | ⟨post1, _, hl⟩
  · exact ⟨hok, hf⟩
  · exact hc pre x post1 hl

/-- The last record of a chain is a generated record. -/
theorem seedChain_last {records : List Record} {p : Record} (hc : SeedChain records)
    (h : records.getLast? = some p) : SeedOk p := by
  obtain ⟨pre, hp⟩ : ∃ pre, records = pre ++ [p] := by
    rcases List.eq_nil_or_concat records with hn | ⟨pre, b, hb⟩
    · subst hn; cases h
    · subst hb
      simp [List.concat_eq_append] at h
      subst h
      exact ⟨pre, by simp⟩
  exact (hc pre p [] hp).1

/-- The node picked when the generator changes node is a key of the table. -/
theorem shortIds_pick {cur : JSString} {node : NodeDescriptor}
    (h : NODE_MAP.lookup cur = some node) (pick : Fin 2) :
    ∃ id n, (shortIds.filter (fun k => k != cur))[pick.val]? = some id ∧
      NODE_MAP.lookup id = some n := by
  obtain ⟨p, hp⟩ := pick
  have hp2 : p = 0 ∨ p = 1 := by omega
  rcases lookup_NODE_MAP h with ⟨rfl, _⟩ | ⟨rfl, _⟩ | ⟨rfl, _⟩ <;>
    rcases hp2 with rfl | rfl <;> exact ⟨_, _, rfl, rfl⟩

/-- One pass of the inner loop keeps the invariant and pushes one record. -/
theorem seedCheck_inv (clock : Nat → Nat → Nat → JSString) (d c : Nat) (draw : Draw)
    {s : SeedState} (h : SeedInv s) :
    ∃ s1, seedCheck clock d c draw s = .ok s1 ∧ SeedInv s1 ∧
      s1.records.length = s.records.length + 1 := by
  obtain ⟨⟨node, hn⟩, hc⟩ := h
  have hcur : ∃ id n, (if (draw.switch && decide (d > 0)) = true then
      (shortIds.filter (fun k => k != s.cur))[draw.pick.val]? else some s.cur) = some id ∧
      NODE_MAP.lookup id = some n := by
    by_cases hsw : (draw.switch && decide (d > 0)) = true
    · rw [if_pos hsw]; exact shortIds_pick hn draw.pick
    · rw [if_neg hsw]; exact ⟨s.cur, node, rfl, hn⟩
  obtain ⟨id, n, hid, hnid⟩ := hcur
  unfold seedCheck
  simp only [hid, Option.bind, hnid, Option.map]
  refine ⟨_, rfl, ⟨⟨n, hnid⟩, seedChain_push hc ⟨rfl, id, n, rfl, hnid, rfl, rfl⟩ ?_⟩, by simp⟩
  cases hl : s.records.getLast? with
  | none => rfl
  | some p =>
    obtain ⟨_, pid, pn, hp, hpn, _, _⟩ := seedChain_last hc hl
    simp only [Option.map_some']
    rw [failoverDetected_toJson hp rfl (lookup_NODE_MAP_ne_nil hpn) (lookup_NODE_MAP_ne_nil hnid),
      hp]
    simp [bne]

/-- The inner loop keeps the invariant and pushes one record for each check. -/
theorem seedChecks_inv (clock : Nat → Nat → Nat → JSString) (draws : Nat → Nat → Draw)
    (d : Nat) :
    ∀ (l : List Nat) (s : SeedState), SeedInv s →
      ∃ s1, seedChecks clock draws d l s = .ok s1 ∧ SeedInv s1 ∧
        s1.records.length = s.records.length + l.length := by
  intro l
  induction l with
  | nil => intro s h; exact ⟨s, rfl, h, rfl⟩
  | cons c rest ih =>
    intro s h
    obtain ⟨s1, h1, hi1, hl1⟩ := seedCheck_inv clock d c (draws d c) h
    obtain ⟨s2, h2, hi2, hl2⟩ := ih s1 hi1
    refine ⟨s2, ?_, hi2, ?_⟩
    · rw [seedChecks, h1]
      exact h2
    · rw [hl2, hl1, List.length_cons]
      omega

/-- One day keeps the invariant and pushes two records on day 0, three otherwise. -/
theorem seedDay_inv (clock : Nat → Nat → Nat → JSString) (draws : Nat → Nat → Draw)
    (d : Nat) {s : SeedState} (h : SeedInv s) :
    ∃ s1, seedDay clock draws d s = .ok s1 ∧ SeedInv s1 ∧
      s1.records.length = s.records.length + (if d = 0 then 2 else 3) := by
  unfold seedDay
  have hb : SeedInv (match bumps.lookup d with
      | some v => { s with ver := v }
      | none => s) ∧
      (match bumps.lookup d with
      | some v => { s with ver := v }
      | none => s).records = s.records := by
    cases bumps.lookup d with
    | none => exact ⟨h, rfl⟩
    | some v => exact ⟨h, rfl⟩
  obtain ⟨s1, h1, hi1, hl1⟩ := seedChecks_inv clock draws d
    (List.range (if d = 0 then 2 else 3)) _ hb.1
  refine ⟨s1, h1, hi1, ?_⟩
  rw [hl1, hb.2, List.length_range]

/-- The days from `d` down to 0 keep the invariant and push `3 * d + 2` records. -/
theorem seedDays_inv (clock : Nat → Nat → Nat → JSString) (draws : Nat → Nat → Draw) :
    ∀ (d : Nat) (s : SeedState), SeedInv s →
      ∃ s1, seedDays clock draws d s = .ok s1 ∧ SeedInv s1 ∧
        s1.records.length = s.records.length + (3 * d + 2) := by
  intro d
  induction d with
  | zero =>
    intro s h
    obtain ⟨s1, h1, hi1, hl1⟩ := seedDay_inv clock draws 0 h
    exact ⟨s1, h1, hi1, by simpa using hl1⟩
  | succ d ih =>
    intro s h
    obtain ⟨s1, h1, hi1, hl1⟩ := seedDay_inv clock draws (d + 1) h
    obtain ⟨s2, h2, hi2, hl2⟩ := ih s1 hi1
    refine ⟨s2, ?_, hi2, ?_⟩
    · rw [seedDays, h1]
      exact h2
    · rw [hl2, hl1]
      simp only [Nat.add_one_ne_zero, if_false]
      omega

/-- C19: for every outcome of the random draws, `seed.js` generates its records without
an error (182 of them), and every generated record has status `OK`, a node id among
`i067`, `i068`, `i069`, the label and the host of that id in `NODE_MAP`, and a `failover`
flag equal to what the failover rule of the poll orchestrator computes for this record
against the record generated just before it, which is `false` for the first record. -/
theorem seedRecords_spec (clock : Nat → Nat → Nat → JSString) (draws : Nat → Nat → Draw) :
    ∃ records, seedRecords clock draws = .ok records ∧ records.length = 182 ∧
      ∀ pre r post, records = pre ++ r :: post →
        r.status = .OK ∧
        (∃ id node, r.nodeShortId = some id ∧
          (id = "i067".toList ∨ id = "i068".toList ∨ id = "i069".toList) ∧
          NODE_MAP.lookup id = some node ∧ r.nodeLabel = some node.label ∧
          r.nodeHost = some node.host) ∧
        r.failover = failoverDetected (pre.getLast?.map Record.toJson) r ∧
        (pre = [] → r.failover = false) := by
  have h0 : SeedInv ⟨"i068".toList, "9.14.5".toList, []⟩ := by
    refine ⟨⟨_, rfl⟩, ?_⟩
    intro pre r post h
    cases pre <;> cases h
  obtain ⟨s, hs, ⟨_, hc⟩, hl⟩ := seedDays_inv clock draws 60 _ h0
  refine ⟨s.records, ?_, by simpa using hl, ?_⟩
  · rw [seedRecords, hs]
  · intro pre r post h
    obtain ⟨⟨hst, id, node, hid, hnode, hlabel, hhost⟩, hf⟩ := hc pre r post h
    refine ⟨hst, ⟨id, node, hid, ?_, hnode, hlabel, hhost⟩, hf, ?_⟩
    · rcases lookup_NODE_MAP hnode with ⟨h1, _⟩ | ⟨h1, _⟩ | ⟨h1, _⟩
      · exact Or.inl h1
      · exact Or.inr (Or.inl h1)
      · exact Or.inr (Or.inr h1)
    · intro hpre
      rw [hf, hpre]
      rfl

theorem not_special_of_space {c : Char} (h : isSpace c = true) :
    (c == '<') = false ∧ (c == '&') = false := by
  constructor
  · cases hc : c == '<' with
    | false => rfl
    | true =>
      have : c = '<' := by simpa using hc
      subst this
      exact absurd h (by decide)
  · cases hc : c == '&' with
    | false => rfl
    | true =>
      have : c = '&' := by simpa using hc
      subst this
      exact absurd h (by decide)

theorem squeeze_spaces (s : List Char) : ∀ c ∈ squeeze s, isSpace c = true := by
  cases s with
  | nil => intro c hc; simp [squeeze] at hc
  | cons x s =>
    intro c hc
    simp only [squeeze, List.mem_singleton] at hc
    subst hc
    decide

/-- The tag pass turns markup and white space into white space. -/
theorem filler_strips {g : List Char} (h : IsFiller g) :
    ∃ s, Strips g s ∧ ∀ c ∈ s, isSpace c = true := by
  induction h with
  | nil => exact ⟨[], .nil, by simp⟩
  | space c hc _ ih =>
    obtain ⟨s, hs, hsp⟩ := ih
    refine ⟨c :: s, .char c (not_special_of_space hc).1 hs, ?_⟩
    intro x hx
    rcases List.mem_cons.1 hx with rfl | hx
    · exact hc
    · exact hsp x hx
  | tag body hne hb _ ih =>
    obtain ⟨s, hs, hsp⟩ := ih
    refine ⟨' ' :: s, .tag body hne hb hs, ?_⟩
    intro x hx
    rcases List.mem_cons.1 hx with rfl | hx
    · decide
    · exact hsp x hx

theorem strips_append {a a1 b b1 : List Char} (ha : Strips a a1) (hb : Strips b b1) :
    Strips (a ++ b) (a1 ++ b1) := by
  induction ha with
  | nil => exact hb
  | char c hc _ ih => exact .char c hc ih
  | tag body hne hbody _ ih =>
    rename_i t out _
    have e : ('<' :: (body ++ '>' :: t)) ++ b = '<' :: (body ++ '>' :: (t ++ b)) := by simp
    rw [e]
    exact .tag body hne hbody ih

/-- Markup and white space, then a token, then more text. -/
theorem strips_seg {g s tok rest rest1 : List Char} (hg : Strips g s)
    (htok : ∀ c ∈ tok, isPlainChar c = true) (hrest : Strips rest rest1) :
    Strips (g ++ (tok ++ rest)) (s ++ (tok ++ rest1)) := by
  refine strips_append hg (strips_append (strips_plain tok ?_) hrest)
  intro c hc
  have := htok c hc
  simp only [isPlainChar, Bool.and_eq_true, Bool.not_eq_true'] at this
  exact this.1.1

theorem no_amp_seg {s tok rest : List Char} (hs : ∀ c ∈ s, isSpace c = true)
    (htok : ∀ c ∈ tok, isPlainChar c = true) (hrest : ∀ c ∈ rest, (c == '&') = false) :
    ∀ c ∈ s ++ (tok ++ rest), (c == '&') = false := by
  intro c hc
  simp only [List.mem_append] at hc
  rcases hc with h | h | h
  · exact (not_special_of_space (hs c h)).2
  · have := htok c h
    simp only [isPlainChar, Bool.and_eq_true, Bool.not_eq_true'] at this
    exact this.1.2
  · exact hrest c h

/-- The normalisation of a text made of tags and of characters other than `<`, without
`&` outside the tags: the tags become spaces and the white space is collapsed. -/
theorem normalize_of_strips {html s : List Char} (hs : Strips html s)
    (hamp : ∀ c ∈ s, (c == '&') = false) :
    normalize html = reSpaces.replaceFrom " ".toList [] s := by
  obtain ⟨l1, h1⟩ := replaceFrom_reTag_strips hs [] []
  rw [List.append_nil,
    replaceFrom_nil _ _ _ (matchAt_none_of_startsWith startsWith_reTag _ [] rfl),
    List.append_nil] at h1
  unfold normalize
  simp only [replaceAll_eq]
  rw [h1, replaceFrom_id startsWith_reNbsp _ _ _ hamp,
    replaceFrom_id startsWith_reAmp _ _ _ hamp,
    replaceFrom_id startsWith_reNumEntity _ _ _ hamp]

/-- The white-space pass on a run of white space followed by a token. -/
theorem collapse_seg {s tok : List Char} (hs : ∀ c ∈ s, isSpace c = true) (hne : tok ≠ [])
    (htok : ∀ c ∈ tok, isPlainChar c = true) (l rest : List Char) :
    reSpaces.replaceFrom " ".toList l (s ++ (tok ++ rest)) =
      squeeze s ++ (tok ++ reSpaces.replaceFrom " ".toList (tok.reverse ++ (s.reverse ++ l))
        rest) := by
  have hns : ∀ c ∈ tok, isSpace c = false := by
    intro c hc
    have := htok c hc
    simp only [isPlainChar, Bool.and_eq_true, Bool.not_eq_true'] at this
    exact this.2
  cases s with
  | nil =>
    simp only [List.nil_append, squeeze, List.reverse_nil]
    exact replaceFrom_reSpaces_plain l tok rest hns
  | cons c w =>
    have hc : isSpace c = true := hs c (List.mem_cons_self _ _)
    have hw : ∀ x ∈ w, isSpace x = true := fun x hx => hs x (List.mem_cons_of_mem _ hx)
    have hm := matchAt_reSpaces (l := l) hc hw (stopsAt_append_ne rest hne hns)
    rw [List.cons_append, replaceFrom_cons_some _ _ _ _ _ _ hm (by simp; omega),
      replaceFrom_reSpaces_plain _ tok rest hns]
    rfl

/-- The white-space pass on a run of white space at the end of the text. -/
theorem collapse_end {s : List Char} (hs : ∀ c ∈ s, isSpace c = true) (l : List Char) :
    reSpaces.replaceFrom " ".toList l s = squeeze s := by
  cases s with
  | nil =>
    exact replaceFrom_nil _ _ _ (matchAt_none_of_startsWith startsWith_reSpaces _ [] rfl)
  | cons c w =>
    have hc : isSpace c = true := hs c (List.mem_cons_self _ _)
    have hw : ∀ x ∈ w, isSpace x = true := fun x hx => hs x (List.mem_cons_of_mem _ hx)
    have hm := matchAt_reSpaces (l := l) (t := []) hc hw rfl
    rw [List.append_nil] at hm
    rw [replaceFrom_cons_some _ _ _ _ _ _ hm (by simp),
      replaceFrom_nil _ _ _ (matchAt_none_of_startsWith startsWith_reSpaces _ [] rfl)]
    rfl

theorem isPlainChar_of_node {n : List Char} (hn : IsNodeText n) :
    ∀ c ∈ n, isPlainChar c = true := by
  obtain ⟨c, d1, d2, d3, rfl, hc, h1, h2, h3⟩ := hn
  intro a ha
  simp only [List.mem_cons, List.mem_singleton, List.not_mem_nil, or_false] at ha
  rcases ha with rfl | rfl | rfl | rfl
  · rcases hc with h | h <;> subst h <;> decide
  · exact isPlainChar_of_version (by simp [isVersionChar, h1])
  · exact isPlainChar_of_version (by simp [isVersionChar, h2])
  · exact isPlainChar_of_version (by simp [isVersionChar, h3])

theorem isPlainChar_of_digits {t : List Char} (ht : IsDigits t) :
    ∀ c ∈ t, isPlainChar c = true :=
  fun c hc => isPlainChar_of_version (by simp [isVersionChar, ht.2 c hc])

theorem version_ne_nil {v : List Char} (hv : IsVersionText v) : v ≠ [] := by
  obtain ⟨g1, g2, g3, ⟨ne1, _⟩, _, _, h⟩ := hv
  rcases h with rfl | ⟨g4, _, rfl⟩
  · cases g1 with
    | nil => exact absurd rfl ne1
    | cons x y => simp
  · cases g1 with
    | nil => exact absurd rfl ne1
    | cons x y => simp

theorem node_ne_nil {n : List Char} (hn : IsNodeText n) : n ≠ [] := by
  obtain ⟨c, d1, d2, d3, rfl, _⟩ := hn
  simp

/-- The tokens of a footer with markup and white space around and between them: the
normalised text is the tokens with at most one space around and between them, and the
primary pattern matches it from the version on. -/
theorem parseFooter_filled {v n t g0 g1 g2 g3 g4 g5 g6 : List Char} (hv : IsVersionText v)
    (hn : IsNodeText n) (ht : IsDigits t) (h0 : IsFiller g0) (h1 : IsFiller g1)
    (h2 : IsFiller g2) (h3 : IsFiller g3) (h4 : IsFiller g4) (h5 : IsFiller g5)
    (h6 : IsFiller g6) :
    parseFooter (g0 ++ (v ++ (g1 ++ (['-'] ++ (g2 ++ (n ++ (g3 ++ (['|'] ++ (g4 ++ (t ++
      (g5 ++ (['m', 's'] ++ g6)))))))))))) =
      some ⟨some v, toLowerCase n, some (parseInt t)⟩ := by
  obtain ⟨s0, hs0, hp0⟩ := filler_strips h0
  obtain ⟨s1, hs1, hp1⟩ := filler_strips h1
  obtain ⟨s2, hs2, hp2⟩ := filler_strips h2
  obtain ⟨s3, hs3, hp3⟩ := filler_strips h3
  obtain ⟨s4, hs4, hp4⟩ := filler_strips h4
  obtain ⟨s5, hs5, hp5⟩ := filler_strips h5
  obtain ⟨s6, hs6, hp6⟩ := filler_strips h6
  have pv : ∀ c ∈ v, isPlainChar c = true :=
    fun c hc => isPlainChar_of_version (version_chars hv c hc)
  have pn := isPlainChar_of_node hn
  have pt := isPlainChar_of_digits ht
  have pd : ∀ c ∈ ['-'], isPlainChar c = true := by decide
  have pb : ∀ c ∈ ['|'], isPlainChar c = true := by decide
  have pm : ∀ c ∈ ['m', 's'], isPlainChar c = true := by decide
  have hS := strips_seg hs0 pv (strips_seg hs1 pd (strips_seg hs2 pn (strips_seg hs3 pb
    (strips_seg hs4 pt (strips_seg hs5 pm hs6)))))
  have hA := no_amp_seg hp0 pv (no_amp_seg hp1 pd (no_amp_seg hp2 pn (no_amp_seg hp3 pb
    (no_amp_seg hp4 pt (no_amp_seg hp5 pm
      (fun c hc => (not_special_of_space (hp6 c hc)).2))))))
  have hnorm := normalize_of_strips hS hA
  rw [collapse_seg hp0 (version_ne_nil hv) pv, collapse_seg hp1 (by simp) pd,
    collapse_seg hp2 (node_ne_nil hn) pn, collapse_seg hp3 (by simp) pb,
    collapse_seg hp4 ht.1 pt, collapse_seg hp5 (by simp) pm, collapse_end hp6] at hnorm
  have hw : IsFullMatch v n t ((v ++ (squeeze s1 ++ '-' :: (squeeze s2 ++ n))) ++
      (squeeze s3 ++ '|' :: (squeeze s4 ++ (t ++ (squeeze s5 ++ ['m', 's']))))) :=
    ⟨v ++ (squeeze s1 ++ '-' :: (squeeze s2 ++ n)), squeeze s3, squeeze s4, squeeze s5,
      'm', 's', ⟨squeeze s1, '-', squeeze s2, squeeze_spaces s1, by decide,
        squeeze_spaces s2, rfl⟩,
      squeeze_spaces s3, squeeze_spaces s4, squeeze_spaces s5, Or.inl rfl, Or.inl rfl, rfl⟩
  have hN : normalize (g0 ++ (v ++ (g1 ++ (['-'] ++ (g2 ++ (n ++ (g3 ++ (['|'] ++ (g4 ++
      (t ++ (g5 ++ (['m', 's'] ++ g6)))))))))))) =
      squeeze s0 ++ (((v ++ (squeeze s1 ++ '-' :: (squeeze s2 ++ n))) ++
        (squeeze s3 ++ '|' :: (squeeze s4 ++ (t ++ (squeeze s5 ++ ['m', 's']))))) ++
          squeeze s6) := by
    rw [hnorm]
    simp
  have hq0 : ∀ c ∈ squeeze s0, isDigit c = false :=
    fun c hc => isDigit_not_space (squeeze_spaces s0 c hc)
  have hexec : reFull.exec (normalize (g0 ++ (v ++ (g1 ++ (['-'] ++ (g2 ++ (n ++ (g3 ++
      (['|'] ++ (g4 ++ (t ++ (g5 ++ (['m', 's'] ++ g6))))))))))))) =
      some ⟨((v ++ (squeeze s1 ++ '-' :: (squeeze s2 ++ n))) ++
        (squeeze s3 ++ '|' :: (squeeze s4 ++ (t ++ (squeeze s5 ++ ['m', 's']))))).reverse ++
          ((squeeze s0).reverse ++ []), squeeze s6, [(3, t), (2, n), (1, v)]⟩ := by
    rw [hN]
    unfold Re.exec
    rw [searchFrom_skip startsWith_reFull _ _ _ hq0]
    exact searchFrom_of_first (first_reFull hv hn ht hw)
  simp only [parseFooter, hexec]
  simp [MState.cap, List.lookup]

/-- C16 (counterexample): the digit string `9007199254740993` has the integer value
`2^53 + 1`, and for the plain footer with this response time, as for the same footer with
tags around the version, `parseFooter` returns the Number `9007199254740992`: `parseInt`
gives the nearest double, which is not the integer value of the digits. -/
theorem parseFooter_time_rounded :
    digitsValue "9007199254740993".toList = 9007199254740993 ∧
    parseFooter "9.14.7-i068 | 9007199254740993 ms".toList =
      some ⟨some "9.14.7".toList, "i068".toList, some (.rounded 9007199254740992)⟩ ∧
    parseFooter "<b>9.14.7</b>-i068 | 9007199254740993 ms".toList =
      some ⟨some "9.14.7".toList, "i068".toList, some (.rounded 9007199254740992)⟩ ∧
    parseFooter "9.14.7-i068 | 9007199254740993 ms".toList ≠
      some ⟨some "9.14.7".toList, "i068".toList, some (.exact 9007199254740993)⟩ := by
  decide

/-- C16 (amended): for every version `v` (three or four groups of digits separated by
dots), node id `n` (an `i` followed by three digits), digit string `t` with a value below
`2^53`, and every choice of markup tags and white space around and between the tokens
`v`, `-`, `n`, `|`, `t`, `ms`, `parseFooter` returns the version `v`, the node id `n` in
lowercase and the integer value of `t`; the plain text `v-n | t ms` gives the same
result. -/
theorem parseFooter_markup_between_tokens (v n t g0 g1 g2 g3 g4 g5 g6 : JSString)
    (hv : IsVersionText v) (hn : IsNodeText n) (ht : IsDigits t)
    (hval : digitsValue t < 2 ^ 53) (h0 : IsFiller g0)
    (h1 : IsFiller g1) (h2 : IsFiller g2) (h3 : IsFiller g3) (h4 : IsFiller g4)
    (h5 : IsFiller g5) (h6 : IsFiller g6) :
    parseFooter (g0 ++ v ++ g1 ++ "-".toList ++ g2 ++ n ++ g3 ++ "|".toList ++ g4 ++ t ++ g5 ++
      "ms".toList ++ g6) = some ⟨some v, toLowerCase n, some (.exact (digitsValue t))⟩ ∧
    parseFooter (v ++ "-".toList ++ n ++ " | ".toList ++ t ++ " ms".toList) =
      some ⟨some v, toLowerCase n, some (.exact (digitsValue t))⟩ := by
  have hsp : IsFiller [' '] := .space ' ' (by decide) .nil
  have hint : parseInt t = .exact (digitsValue t) := by
    unfold parseInt
    rw [if_pos hval]
  constructor
  · have e : g0 ++ v ++ g1 ++ "-".toList ++ g2 ++ n ++ g3 ++ "|".toList ++ g4 ++ t ++ g5 ++
        "ms".toList ++ g6 = g0 ++ (v ++ (g1 ++ (['-'] ++ (g2 ++ (n ++ (g3 ++ (['|'] ++ (g4 ++
          (t ++ (g5 ++ (['m', 's'] ++ g6))))))))))) := by
      simp only [List.append_assoc]
      rfl
    rw [e, parseFooter_filled hv hn ht h0 h1 h2 h3 h4 h5 h6, hint]
  · have e : v ++ "-".toList ++ n ++ " | ".toList ++ t ++ " ms".toList =
        [] ++ (v ++ ([] ++ (['-'] ++ ([] ++ (n ++ ([' '] ++ (['|'] ++ ([' '] ++
          (t ++ ([' '] ++ (['m', 's'] ++ []))))))))))) := by
      show v ++ ['-'] ++ n ++ [' ', '|', ' '] ++ t ++ [' ', 'm', 's'] = _
      simp
    rw [e, parseFooter_filled hv hn ht .nil .nil .nil hsp hsp hsp .nil, hint]

/-- C16 (witness): the footer of the header comment of the script with tags and white
space around and between its tokens, the node id written with an uppercase `I`. -/
theorem parseFooter_markup_between_tokens_witness :
    parseFooter ("<p class=\"foot\"> ".toList ++ "9.14.7".toList ++ "</p>\n".toList ++
      "-".toList ++ "<b>".toList ++ "I068".toList ++ "</b>\t".toList ++ "|".toList ++
      " <i>".toList ++ "3".toList ++ "</i>".toList ++ "ms".toList ++ "</div>".toList) =
      some ⟨some "9.14.7".toList, toLowerCase "I068".toList,
        some (.exact (digitsValue "3".toList))⟩ ∧
    parseFooter ("9.14.7".toList ++ "-".toList ++ "I068".toList ++ " | ".toList ++
      "3".toList ++ " ms".toList) =
      some ⟨some "9.14.7".toList, toLowerCase "I068".toList,
        some (.exact (digitsValue "3".toList))⟩ :=
  parseFooter_markup_between_tokens "9.14.7".toList "I068".toList "3".toList
    "<p class=\"foot\"> ".toList "</p>\n".toList "<b>".toList "</b>\t".toList " <i>".toList
    "</i>".toList "</div>".toList
    ⟨"9".toList, "14".toList, "7".toList, ⟨by decide, by decide⟩, ⟨by decide, by decide⟩,
      ⟨by decide, by decide⟩, Or.inl rfl⟩
    ⟨'I', '0', '6', '8', rfl, Or.inr rfl, by decide, by decide, by decide⟩
    ⟨by decide, by decide⟩ (by decide)
    (.tag "p class=\"foot\"".toList (by decide) (by decide) (.space ' ' (by decide) .nil))
    (.tag "/p".toList (by decide) (by decide) (.space '\n' (by decide) .nil))
    (.tag "b".toList (by decide) (by decide) .nil)
    (.tag "/b".toList (by decide) (by decide) (.space '\t' (by decide) .nil))
    (.space ' ' (by decide) (.tag "i".toList (by decide) (by decide) .nil))
    (.tag "/i".toList (by decide) (by decide) .nil)
    (.tag "/div".toList (by decide) (by decide) .nil)

end EcasTracker
